import Mathlib

/-!
# Verification of `llmparser` against its specification

Shallow embedding of the relevant parts of the `llmparser` Python package
(URL normalization, feed parsing, block detection, content-extraction
cascade, proxy rotation, batch fetching, and the article-record pipeline),
with theorems settling the specification claims.

Conventions used throughout:
* Python `int` is embedded as `Int` (or `Nat` where the source value is
  provably non-negative), Python floats that only carry exact decimal
  constants are embedded as `Rat`.
* Python strings are embedded as `List Char` (sequences of Unicode scalar
  values); `String` arguments are converted via `.data`.
* Calls into external libraries (BeautifulSoup, readability-lxml,
  trafilatura, the XML parser, `urljoin`) are embedded as oracle function
  parameters, since their code is not part of this repository.
* Fallible Python code is embedded with `Option`/`Except`.
-/

set_option maxHeartbeats 1000000

namespace LLMParser

/-! ## Article records (`llmparser/items.py`, `llmparser/query.py`)

`query.extract` builds the final `ArticleSchema`; its `confidence_score`
keyword argument is computed at `query.py:621` as
`max(0.0, min(1.0, article_score / 80.0))`.
-/

/-- `article_score` is an `int` (`heuristics.article_score`); the
confidence value computed at `query.py:621`:
`max(0.0, min(1.0, article_score / 80.0))`. -/
def confidenceScore (articleScore : Int) : Rat :=
  max (0 : Rat) (min (1 : Rat) ((articleScore : Rat) / 80))

/-- The field names declared on `ArticleSchema` in `llmparser/items.py`
(lines 89-129), in declaration order. -/
def articleSchemaFields : List String :=
  ["url", "canonical_url", "title", "author", "published_at", "updated_at",
   "site_name", "language", "tags", "summary", "content_markdown",
   "content_text", "content_blocks", "images", "links", "word_count",
   "reading_time_minutes", "extraction_method_used", "article_score",
   "scraped_at", "raw_metadata", "fetch_strategy", "page_type"]

/-- The keyword arguments passed to the `ArticleSchema(...)` constructor in
`query.extract` (`query.py:594-623`), in source order. -/
def extractConstructorFields : List String :=
  ["url", "canonical_url", "title", "author", "published_at", "updated_at",
   "site_name", "language", "tags", "summary", "content_markdown",
   "content_text", "content_blocks", "images", "links", "word_count",
   "reading_time_minutes", "extraction_method_used", "article_score",
   "scraped_at", "raw_metadata", "fetch_strategy", "page_type",
   "is_blocked", "block_type", "block_reason", "confidence_score",
   "is_empty"]

/-- **C2** (evidence for the code bug).  The confidence value computed by
`query.extract` (`query.py:621`) always lies in `[0, 1]` and equals
`min(1, max(0, article_score / 80))`; but the `ArticleSchema` model in
`items.py` declares no `confidence_score` field, even though the
constructor call in `query.extract` passes one — pydantic silently drops
the unknown keyword, so the produced record carries no such field. -/
theorem confidenceScore_clamped_but_field_missing :
    ("confidence_score" ∈ extractConstructorFields ∧
     "confidence_score" ∉ articleSchemaFields) ∧
    ∀ s : Int, 0 ≤ confidenceScore s ∧ confidenceScore s ≤ 1 ∧
      confidenceScore s = min 1 (max 0 ((s : Rat) / 80)) := by
  refine ⟨⟨by decide, by decide⟩, ?_⟩
  intro s
  unfold confidenceScore
  refine ⟨le_max_left _ _, max_le (by norm_num) (min_le_left _ _), ?_⟩
  simp only [min_def, max_def]
  split_ifs <;> first | rfl | linarith

/-! ## Proxy rotation (`llmparser/proxy.py`) -/

/-- Rotation strategy of `ProxyConfig.rotation`; `ProxyRotator.__init__`
raises for any other string, so only these two states exist. -/
inductive Rotation where
  | roundRobin
  | random
  deriving DecidableEq, Repr

/-- State of a `ProxyRotator` session: the proxy list, rotation mode, the
round-robin cursor `_index`, and the `_failures` / `_exhausted` per-proxy
dictionaries (total maps; the operations guard on membership in
`proxies`, mirroring the `proxy not in self._failures` check, since the
dictionaries are keyed by exactly the proxies of the list). -/
structure RotState where
  proxies : List String
  rotation : Rotation
  index : Nat
  failures : String → Nat
  exhausted : String → Bool

/-- `ProxyRotator.__init__` for a valid rotation value. -/
def initRotator (proxies : List String) (rotation : Rotation) : RotState :=
  { proxies := proxies
    rotation := rotation
    index := 0
    failures := fun _ => 0
    exhausted := fun _ => false }

/-- `ProxyRotator._active_proxies`. -/
def RotState.active (s : RotState) : List String :=
  s.proxies.filter (fun p => !s.exhausted p)

/-- `ProxyRotator.get_proxy`.  For the `"random"` strategy,
`random.choice(active)` is embedded by an adversarial `pick` index into
the active pool (any element of the pool may be chosen). -/
def RotState.getProxy (s : RotState) (pick : Nat) : Option String :=
  let active := s.active
  if active.isEmpty then none
  else
    match s.rotation with
    | Rotation.random => active.get? (pick % active.length)
    | Rotation.roundRobin => active.get? (s.index % active.length)

/-- `ProxyRotator.rotate`: advances `_index` (round-robin) and returns the
newly selected proxy; `random.choice` is again an adversarial pick. -/
def RotState.rotate (s : RotState) (pick : Nat) : Option String × RotState :=
  let active := s.active
  if active.isEmpty then (none, s)
  else
    match s.rotation with
    | Rotation.random => (active.get? (pick % active.length), s)
    | Rotation.roundRobin =>
        let i := (s.index + 1) % active.length
        (active.get? (i % active.length), { s with index := i })

/-- `_MAX_FAILURES` in `proxy.py`. -/
def maxFailures : Nat := 3

/-- `ProxyRotator.mark_failed`. -/
def RotState.markFailed (s : RotState) (p : String) : RotState :=
  if p ∈ s.proxies then
    let n := s.failures p + 1
    { s with
      failures := fun q => if q = p then n else s.failures q
      exhausted := fun q =>
        if q = p then (if n ≥ maxFailures then true else s.exhausted p)
        else s.exhausted q }
  else s

/-- `ProxyRotator.mark_success`. -/
def RotState.markSuccess (s : RotState) (p : String) : RotState :=
  if p ∈ s.proxies then
    { s with failures := fun q => if q = p then 0 else s.failures q }
  else s

/-- One session operation on a `ProxyRotator` (the state-changing calls;
`get_proxy` is read-only and is applied separately). -/
inductive RotOp where
  | markFailed (p : String)
  | markSuccess (p : String)
  | rotate (pick : Nat)

/-- Apply one operation to the rotator state. -/
def RotState.step (s : RotState) : RotOp → RotState
  | RotOp.markFailed p => s.markFailed p
  | RotOp.markSuccess p => s.markSuccess p
  | RotOp.rotate _ => (s.rotate 0).2

/-- Run a list of operations left to right. -/
def RotState.run (s : RotState) (ops : List RotOp) : RotState :=
  ops.foldl RotState.step s

/-- An operation list that never calls `mark_success p`. -/
def noSuccessOn (p : String) (ops : List RotOp) : Prop :=
  ∀ op ∈ ops, op ≠ RotOp.markSuccess p

theorem run_nil (s : RotState) : s.run [] = s := rfl

theorem run_cons (s : RotState) (op : RotOp) (ops : List RotOp) :
    s.run (op :: ops) = (s.step op).run ops := rfl

theorem proxies_step (s : RotState) (op : RotOp) :
    (s.step op).proxies = s.proxies := by
  cases op with
  | markFailed p =>
      simp only [RotState.step, RotState.markFailed]
      split <;> rfl
  | markSuccess p =>
      simp only [RotState.step, RotState.markSuccess]
      split <;> rfl
  | rotate pick =>
      simp only [RotState.step, RotState.rotate]
      split
      · rfl
      · cases s.rotation <;> rfl

theorem proxies_run (s : RotState) (ops : List RotOp) :
    (s.run ops).proxies = s.proxies := by
  induction ops generalizing s with
  | nil => rfl
  | cons op ops ih => rw [run_cons, ih, proxies_step]

theorem exhausted_step_mono (s : RotState) (op : RotOp) (p : String)
    (h : s.exhausted p = true) : (s.step op).exhausted p = true := by
  cases op with
  | markFailed q =>
      simp only [RotState.step, RotState.markFailed]
      split
      · simp only
        split
        · next hqp =>
            subst hqp
            split <;> simp [h]
        · exact h
      · exact h
  | markSuccess q =>
      simp only [RotState.step, RotState.markSuccess]
      split <;> simp [h]
  | rotate pick =>
      simp only [RotState.step, RotState.rotate]
      split
      · exact h
      · cases s.rotation
        · exact h
        · exact h

theorem exhausted_run_mono (s : RotState) (ops : List RotOp) (p : String)
    (h : s.exhausted p = true) : (s.run ops).exhausted p = true := by
  induction ops generalizing s with
  | nil => exact h
  | cons op ops ih => exact ih _ (exhausted_step_mono s op p h)

theorem failures_step_mono (s : RotState) (op : RotOp) (p : String)
    (h : op ≠ RotOp.markSuccess p) :
    s.failures p ≤ (s.step op).failures p := by
  cases op with
  | markFailed q =>
      simp only [RotState.step, RotState.markFailed]
      split
      · simp only
        split
        · next hqp => subst hqp; omega
        · exact le_refl _
      · exact le_refl _
  | markSuccess q =>
      simp only [RotState.step, RotState.markSuccess]
      split
      · simp only
        split
        · next hqp => exact absurd (by rw [hqp]) h
        · exact le_refl _
      · exact le_refl _
  | rotate pick =>
      simp only [RotState.step, RotState.rotate]
      split
      · exact le_refl _
      · cases s.rotation <;> exact le_refl _

theorem failures_run_mono (s : RotState) (ops : List RotOp) (p : String)
    (h : noSuccessOn p ops) : s.failures p ≤ (s.run ops).failures p := by
  induction ops generalizing s with
  | nil => exact le_refl _
  | cons op ops ih =>
      rw [run_cons]
      refine le_trans (failures_step_mono s op p ?_) (ih _ ?_)
      · exact h op (List.mem_cons_self op ops)
      · intro o ho; exact h o (List.mem_cons_of_mem op ho)

theorem markFailed_failures (s : RotState) (p : String) (hp : p ∈ s.proxies) :
    (s.markFailed p).failures p = s.failures p + 1 := by
  simp [RotState.markFailed, hp]

theorem markFailed_exhausts (s : RotState) (p : String) (hp : p ∈ s.proxies)
    (h : s.failures p + 1 ≥ maxFailures) :
    (s.markFailed p).exhausted p = true := by
  simp [RotState.markFailed, hp, h]

theorem getProxy_not_exhausted (s : RotState) (pick : Nat) (p : String)
    (h : s.exhausted p = true) : s.getProxy pick ≠ some p := by
  intro hc
  have hmem : p ∈ s.active := by
    simp only [RotState.getProxy] at hc
    split at hc
    · exact absurd hc (by simp)
    · split at hc <;> exact List.get?_mem hc
  have := List.of_mem_filter hmem
  simp [h] at this

theorem rotate_not_exhausted (s : RotState) (pick : Nat) (p : String)
    (h : s.exhausted p = true) : (s.rotate pick).1 ≠ some p := by
  intro hc
  have hmem : p ∈ s.active := by
    simp only [RotState.rotate] at hc
    split at hc
    · exact absurd hc (by simp)
    · split at hc <;> exact List.get?_mem hc
  have := List.of_mem_filter hmem
  simp [h] at this

/-- **C7.** In any `ProxyRotator` session: once `mark_failed(p)` has been
called three times with no intervening `mark_success(p)` (arbitrary other
operations may be interleaved), neither `get_proxy()` nor `rotate()` ever
returns `p` again, whatever later operations and random picks occur; and
`mark_success(p)` on a known proxy resets `p`'s consecutive-failure
counter to zero. -/
theorem proxyRotator_exhaustion_permanent
    (proxies : List String) (rot : Rotation) (p : String)
    (l0 l1 l2 l3 : List RotOp)
    (hp : p ∈ proxies)
    (h1 : noSuccessOn p l1) (h2 : noSuccessOn p l2) :
    (∀ pick,
      (((((((((initRotator proxies rot).run l0).markFailed p).run
        l1).markFailed p).run l2).markFailed p).run l3).getProxy pick ≠ some p)
      ∧ (((((((((initRotator proxies rot).run l0).markFailed p).run
        l1).markFailed p).run l2).markFailed p).run l3).rotate pick).1 ≠ some p)
    ∧ (∀ t : RotState, p ∈ t.proxies → (t.markSuccess p).failures p = 0) := by
  constructor
  · intro pick
    set s0 := (initRotator proxies rot).run l0 with hs0
    have hp0 : p ∈ s0.proxies := by rw [hs0, proxies_run]; exact hp
    set s1 := (s0.markFailed p).run l1 with hs1
    have hp1 : p ∈ s1.proxies := by
      rw [hs1, proxies_run]
      simp [RotState.markFailed, hp0]
    have hf1 : 1 ≤ s1.failures p := by
      rw [hs1]
      calc 1 ≤ (s0.markFailed p).failures p := by
              rw [markFailed_failures s0 p hp0]; omega
        _ ≤ _ := failures_run_mono _ l1 p h1
    set s2 := (s1.markFailed p).run l2 with hs2
    have hp2 : p ∈ s2.proxies := by
      rw [hs2, proxies_run]
      simp [RotState.markFailed, hp1]
    have hf2 : 2 ≤ s2.failures p := by
      rw [hs2]
      calc 2 ≤ (s1.markFailed p).failures p := by
              rw [markFailed_failures s1 p hp1]; omega
        _ ≤ _ := failures_run_mono _ l2 p h2
    have hex : ((s2.markFailed p).run l3).exhausted p = true := by
      refine exhausted_run_mono _ l3 p ?_
      exact markFailed_exhausts s2 p hp2 (by unfold maxFailures; omega)
    exact ⟨getProxy_not_exhausted _ pick p hex, rotate_not_exhausted _ pick p hex⟩
  · intro t ht
    simp [RotState.markSuccess, ht]

/-- Concrete instantiation of the C7 theorem: proxies `["a", "b"]`,
round-robin, three failures on `"a"`, then neither accessor returns
`"a"`, and `mark_success` zeroes the counter. -/
theorem proxyRotator_exhaustion_permanent_witness :
    (("a" : String) ∈ ["a", "b"]) ∧
    ((((((((((initRotator ["a", "b"] Rotation.roundRobin).run []).markFailed
      "a").run []).markFailed "a").run []).markFailed "a").run
      []).getProxy 0 ≠ some "a")
    ∧ ((initRotator ["a", "b"] Rotation.roundRobin).markSuccess "a").failures
        "a" = 0) := by
  refine ⟨by decide, ?_, ?_⟩
  · exact (proxyRotator_exhaustion_permanent ["a", "b"] Rotation.roundRobin
      "a" [] [] [] [] (by decide) (by intro o ho; cases ho)
      (by intro o ho; cases ho)).1 0 |>.1
  · exact (proxyRotator_exhaustion_permanent ["a", "b"] Rotation.roundRobin
      "a" [] [] [] [] (by decide) (by intro o ho; cases ho)
      (by intro o ho; cases ho)).2 _ (by decide)

/-! ## Batch fetching (`llmparser/query.py`, `fetch_batch`)

`fetch_batch` submits `_fetch_one(i, url)` for each `(i, url)` in
`enumerate(urls)`, then as futures complete (in an arbitrary order) writes
`results[idx] = article` into a slot list pre-filled with `None`.
`_fetch_one` returns `(idx, fetch(url))`, or `(idx, None)` when `fetch`
raised and `on_error` is not `"raise"`.  The per-call outcome of `fetch`
is the oracle `fetchOne : Nat → String → Option α` (`none` = the fetch
for that submission failed); the completion order of the worker threads is
an adversarial permutation `order` of `range urls.length`. -/

/-- The slot-filling loop over completed futures
(`for future in as_completed(futures): results[idx] = article`). -/
def fetchSlots {α : Type} (urls : List String) (fetchOne : Nat → String → Option α)
    (order : List Nat) : List (Option α) :=
  order.foldl
    (fun results idx =>
      results.set idx
        (match urls.get? idx with
         | some u => fetchOne idx u
         | none => none))
    (List.replicate urls.length none)

/-- `fetch_batch(urls, on_error="include")`: returns the slot list as-is
(`query.py:996-997`). -/
def fetchBatchInclude {α : Type} (urls : List String)
    (fetchOne : Nat → String → Option α) (order : List Nat) : List (Option α) :=
  fetchSlots urls fetchOne order

theorem foldl_set_length {α : Type} (v : Nat → Option α) (order : List Nat)
    (init : List (Option α)) :
    (order.foldl (fun rs idx => rs.set idx (v idx)) init).length = init.length := by
  induction order generalizing init with
  | nil => rfl
  | cons idx order ih =>
      simp only [List.foldl_cons]
      rw [ih, List.length_set]

theorem foldl_set_getElem? {α : Type} (v : Nat → Option α) (order : List Nat)
    (init : List (Option α)) (i : Nat) :
    (order.foldl (fun rs idx => rs.set idx (v idx)) init)[i]? =
      if i ∈ order ∧ i < init.length then some (v i) else init[i]? := by
  induction order generalizing init with
  | nil => simp
  | cons idx order ih =>
      simp only [List.foldl_cons]
      rw [ih, List.length_set]
      by_cases hmem : i ∈ order
      · by_cases hlt : i < init.length
        · simp [hmem, hlt]
        · have hge : init.length ≤ i := Nat.le_of_not_lt hlt
          simp only [hmem, hlt, and_false, if_false, and_true, if_neg hlt]
          rw [List.getElem?_eq_none (by simpa using hge),
            List.getElem?_eq_none hge]
      · simp only [hmem, false_and, if_false]
        by_cases hidx : i = idx
        · subst hidx
          by_cases hlt : i < init.length
          · simp only [List.mem_cons, true_or, hlt, and_true, if_pos trivial]
            exact List.getElem?_set_eq_of_lt _ hlt
          · have hge : init.length ≤ i := Nat.le_of_not_lt hlt
            simp only [hlt, and_false, if_false]
            rw [List.getElem?_eq_none (by simpa using hge),
              List.getElem?_eq_none hge]
        · have : (i ∈ idx :: order) = False := by
            simp [List.mem_cons, hidx, hmem]
          simp only [this, false_and, if_false]
          exact List.getElem?_set_ne (fun h => hidx h.symm)

/-- **C8.** `fetch_batch(urls, on_error="include")` returns a list of
exactly `len(urls)` entries whose `i`-th entry is the fetch outcome for
`urls[i]` (`None` when that fetch failed), for **every** completion order
of the concurrent workers (any permutation of `range len(urls)`). -/
theorem fetchBatch_include_order_preserving {α : Type} (urls : List String)
    (fetchOne : Nat → String → Option α) (order : List Nat)
    (hperm : order.Perm (List.range urls.length)) :
    (fetchBatchInclude urls fetchOne order).length = urls.length ∧
    ∀ i u, urls[i]? = some u →
      (fetchBatchInclude urls fetchOne order)[i]? = some (fetchOne i u) := by
  constructor
  · rw [fetchBatchInclude, fetchSlots, foldl_set_length, List.length_replicate]
  · intro i u hu
    have hi : i < urls.length := by
      by_contra hge
      rw [List.getElem?_eq_none (Nat.le_of_not_lt hge)] at hu
      exact Option.noConfusion hu
    have hmem : i ∈ order := hperm.mem_iff.2 (List.mem_range.2 hi)
    rw [fetchBatchInclude, fetchSlots, foldl_set_getElem?]
    simp only [List.length_replicate, hmem, hi, and_true, if_pos trivial,
      List.get?_eq_getElem?, hu]

/-- Concrete instantiation of C8: three URLs, the middle fetch fails,
completion order `[2, 0, 1]`. -/
theorem fetchBatch_include_order_preserving_witness :
    ([2, 0, 1].Perm (List.range (["u0", "u1", "u2"] : List String).length)) ∧
    (fetchBatchInclude ["u0", "u1", "u2"]
      (fun i _ => if i = 1 then (none : Option Nat) else some i) [2, 0, 1]) =
      [some 0, none, some 2] := by
  refine ⟨by decide, ?_⟩
  have h := fetchBatch_include_order_preserving (α := Nat) ["u0", "u1", "u2"]
    (fun i _ => if i = 1 then none else some i) [2, 0, 1] (by decide)
  have h0 := h.2 0 "u0" rfl
  have h1 := h.2 1 "u1" rfl
  have h2 := h.2 2 "u2" rfl
  have hlen := h.1
  revert h0 h1 h2 hlen
  decide

/-! ## Main-content extraction (`llmparser/extractors/main_content.py`)

The two third-party extractors (readability-lxml, trafilatura), the
BeautifulSoup word counter, the BS4-based `_preprocess_html` scrub and the
BS4-based `dom_heuristic_extract` are external/HTML-parsing code embedded
as oracle functions; `extract_main_content`'s own control flow
(thresholds, the 1.4x best-of-two rule, the fallback order and the plugin
loop) is embedded exactly. -/

/-- `ExtractionResult` namedtuple. -/
structure ExtractionResult where
  html : String
  method : String
  word_count : Nat
  deriving DecidableEq, Repr

/-- Oracles for the external calls made by `extract_main_content`:
`preprocess` = `_preprocess_html`; `readability` = `Document(...).summary`
(`none` = the call raised); `trafilatura` = `trafilatura.extract` (`none`
= raised or returned `None`); `countWords` = `_count_words`;
`domHeuristic` = `dom_heuristic_extract`. -/
structure ContentOracles where
  preprocess : String → String
  readability : String → String → Option String
  trafilatura : String → String → Option String
  countWords : String → Nat
  domHeuristic : String → String

/-- `_READABILITY_MIN_WORDS`. -/
def readabilityMinWords : Nat := 50

/-- `_TRAFILATURA_MIN_WORDS`. -/
def trafilaturaMinWords : Nat := 30

/-- Python truthiness of an optional string (`None` and `""` are falsy). -/
def pyTruthy : Option String → Bool
  | none => false
  | some s => !(s == "")

/-- `_try_readability`: returns the summary only when its word count meets
`_READABILITY_MIN_WORDS`; `None` on failure. -/
def tryReadability (o : ContentOracles) (html url : String) : Option String :=
  match o.readability html url with
  | none => none
  | some c => if o.countWords c ≥ readabilityMinWords then some c else none

/-- `_try_trafilatura`: `if content and _count_words(content) >=
_TRAFILATURA_MIN_WORDS: return content`. -/
def tryTrafilatura (o : ContentOracles) (html url : String) : Option String :=
  match o.trafilatura html url with
  | none => none
  | some c =>
      if c ≠ "" ∧ o.countWords c ≥ trafilaturaMinWords then some c else none

/-- An extractor plugin (`llmparser/plugins.py`, `ExtractorPlugin`
protocol).  `extract`'s `none` covers both "raised an exception" and
"returned `None`" — `extract_main_content` treats both as a skip. -/
structure ExtractorPlugin where
  name : String
  priority : Int
  canExtract : String → String → Bool
  extract : String → String → Option String

/-- `sorted(get_extractors(), key=lambda p: p.priority, reverse=True)`:
stable descending sort by priority. -/
def sortPlugins (plugins : List ExtractorPlugin) : List ExtractorPlugin :=
  plugins.mergeSort (fun a b => b.priority ≤ a.priority)

/-- The Tier-4 plugin loop of `extract_main_content`
(`main_content.py:381-400`): for each plugin in order, if
`can_extract` holds and `extract` returns truthy HTML whose word count
strictly exceeds the current result's, adopt it and `break`; otherwise
continue. -/
def pluginLoop (o : ContentOracles) (html url : String) :
    List ExtractorPlugin → ExtractionResult → ExtractionResult
  | [], result => result
  | p :: rest, result =>
      if p.canExtract html url then
        match p.extract html url with
        | none => pluginLoop o html url rest result
        | some ph =>
            if ph ≠ "" then
              let wc := o.countWords ph
              if wc > result.word_count then ⟨ph, p.name, wc⟩
              else pluginLoop o html url rest result
            else pluginLoop o html url rest result
      else pluginLoop o html url rest result

/-- `extract_main_content(html, url)` with the ambient plugin registry
passed explicitly.  The float comparison `t_wc >= r_wc * 1.4` is embedded
as the exact rational test `5 * t_wc ≥ 7 * r_wc`; for word counts below
`2^49` the IEEE-double product in the source decides identically.  The
`assert ... is not None` guards are embedded with `Option.getD`, which is
only reached with `some` (the guarding conditions force truthiness). -/
def extract_main_content (o : ContentOracles) (plugins : List ExtractorPlugin)
    (html url : String) : ExtractionResult :=
  let html := o.preprocess html
  let rContent := tryReadability o html url
  let rWc := if pyTruthy rContent then o.countWords (rContent.getD "") else 0
  let tContent := tryTrafilatura o html url
  let tWc := if pyTruthy tContent then o.countWords (tContent.getD "") else 0
  if rWc ≥ readabilityMinWords ∧ tWc ≥ trafilaturaMinWords then
    if 5 * tWc ≥ 7 * rWc then ⟨tContent.getD "", "trafilatura", tWc⟩
    else ⟨rContent.getD "", "readability", rWc⟩
  else if rWc ≥ readabilityMinWords then ⟨rContent.getD "", "readability", rWc⟩
  else if tWc ≥ trafilaturaMinWords then ⟨tContent.getD "", "trafilatura", tWc⟩
  else
    let content := o.domHeuristic html
    let wc := o.countWords content
    pluginLoop o html url (sortPlugins plugins) ⟨content, "dom_heuristic", wc⟩

theorem pyTruthy_some (c : Option String) (h : pyTruthy c = true) :
    ∃ s, c = some s ∧ s ≠ "" := by
  cases c with
  | none => simp [pyTruthy] at h
  | some s =>
      refine ⟨s, rfl, ?_⟩
      simpa [pyTruthy] using h

/-- **C5.** The best-of-two selection of `extract_main_content`: when both
extractors meet their thresholds (readability ≥ 50 words, trafilatura
≥ 30), trafilatura's output is returned iff its word count is at least
1.4x readability's, else readability's; when exactly one meets its
threshold it is returned; when neither does (and no extractor plugins are
registered — the registry defaults to empty) the DOM-density heuristic
result is returned. -/
theorem extract_main_content_selection (o : ContentOracles)
    (plugins : List ExtractorPlugin) (html url pre : String)
    (rC tC : Option String) (rWc tWc : Nat)
    (hpre : pre = o.preprocess html)
    (hrC : rC = tryReadability o pre url)
    (hrWc : rWc = if pyTruthy rC then o.countWords (rC.getD "") else 0)
    (htC : tC = tryTrafilatura o pre url)
    (htWc : tWc = if pyTruthy tC then o.countWords (tC.getD "") else 0) :
    ((readabilityMinWords ≤ rWc ∧ trafilaturaMinWords ≤ tWc →
      (5 * tWc ≥ 7 * rWc →
        ∃ c, tC = some c ∧
          extract_main_content o plugins html url = ⟨c, "trafilatura", tWc⟩) ∧
      (5 * tWc < 7 * rWc →
        ∃ c, rC = some c ∧
          extract_main_content o plugins html url = ⟨c, "readability", rWc⟩))
    ∧ (readabilityMinWords ≤ rWc → tWc < trafilaturaMinWords →
        ∃ c, rC = some c ∧
          extract_main_content o plugins html url = ⟨c, "readability", rWc⟩)
    ∧ (rWc < readabilityMinWords → trafilaturaMinWords ≤ tWc →
        ∃ c, tC = some c ∧
          extract_main_content o plugins html url = ⟨c, "trafilatura", tWc⟩)
    ∧ (rWc < readabilityMinWords → tWc < trafilaturaMinWords →
        extract_main_content o [] html url =
          ⟨o.domHeuristic pre, "dom_heuristic",
           o.countWords (o.domHeuristic pre)⟩)) := by
  subst hpre hrC htC hrWc htWc
  unfold extract_main_content
  simp only []
  constructor
  · rintro ⟨hr, ht⟩
    have htt : pyTruthy (tryTrafilatura o (o.preprocess html) url) = true := by
      by_contra hf
      rw [Bool.not_eq_true] at hf
      rw [hf] at ht
      simp [trafilaturaMinWords] at ht
    have hrt : pyTruthy (tryReadability o (o.preprocess html) url) = true := by
      by_contra hf
      rw [Bool.not_eq_true] at hf
      rw [hf] at hr
      simp [readabilityMinWords] at hr
    obtain ⟨ct, hct, -⟩ := pyTruthy_some _ htt
    obtain ⟨cr, hcr, -⟩ := pyTruthy_some _ hrt
    constructor
    · intro hcmp
      refine ⟨ct, hct, ?_⟩
      rw [if_pos ⟨hr, ht⟩, if_pos hcmp, hct]
      rfl
    · intro hcmp
      refine ⟨cr, hcr, ?_⟩
      rw [if_pos ⟨hr, ht⟩, if_neg (by omega), hcr]
      rfl
  refine ⟨?_, ?_, ?_⟩
  · intro hr ht
    have hrt : pyTruthy (tryReadability o (o.preprocess html) url) = true := by
      by_contra hf
      rw [Bool.not_eq_true] at hf
      rw [hf] at hr
      simp [readabilityMinWords] at hr
    obtain ⟨cr, hcr, -⟩ := pyTruthy_some _ hrt
    refine ⟨cr, hcr, ?_⟩
    rw [if_neg (by omega), if_pos hr, hcr]
    rfl
  · intro hr ht
    have htt : pyTruthy (tryTrafilatura o (o.preprocess html) url) = true := by
      by_contra hf
      rw [Bool.not_eq_true] at hf
      rw [hf] at ht
      simp [trafilaturaMinWords] at ht
    obtain ⟨ct, hct, -⟩ := pyTruthy_some _ htt
    refine ⟨ct, hct, ?_⟩
    rw [if_neg (by omega), if_neg (by omega), if_pos ht, hct]
    rfl
  · intro hr ht
    rw [if_neg (by omega), if_neg (by omega), if_neg (by omega)]
    simp [sortPlugins, pluginLoop]

/-- A concrete oracle assignment used to exercise the extraction cascade
on explicit inputs: every HTML string counts `50 * length` words,
readability yields `"r"` (50 words), trafilatura yields `"tt"`
(100 words), the DOM heuristic yields `"d"`. -/
def oracleBoth : ContentOracles :=
  { preprocess := id
    readability := fun _ _ => some "r"
    trafilatura := fun _ _ => some "tt"
    countWords := fun s => 50 * s.length
    domHeuristic := fun _ => "d" }

/-- Concrete instantiation of the C5 theorem: both extractors meet their
thresholds and trafilatura has ≥ 1.4x the words, so it is selected. -/
theorem extract_main_content_selection_witness :
    (readabilityMinWords ≤ 50 ∧ trafilaturaMinWords ≤ 100) ∧
    5 * 100 ≥ 7 * 50 ∧
    ∃ c, (some "tt" : Option String) = some c ∧
      extract_main_content oracleBoth [] "h" "u" = ⟨c, "trafilatura", 100⟩ :=
  ⟨⟨by decide, by decide⟩, by omega,
    ((extract_main_content_selection oracleBoth [] "h" "u" "h"
      (some "r") (some "tt") 50 100 rfl (by decide) (by decide)
      (by decide) (by decide)).1 ⟨by decide, by decide⟩).1 (by omega)⟩

theorem pluginLoop_cases (o : ContentOracles) (h url : String)
    (ps : List ExtractorPlugin) (result : ExtractionResult) :
    pluginLoop o h url ps result = result ∨
    ∃ p, p ∈ ps ∧ p.canExtract h url = true ∧
      ∃ ph, p.extract h url = some ph ∧ ph ≠ "" ∧
        o.countWords ph > result.word_count ∧
        pluginLoop o h url ps result = ⟨ph, p.name, o.countWords ph⟩ := by
  induction ps with
  | nil => left; rfl
  | cons p ps ih =>
      have step : pluginLoop o h url (p :: ps) result =
          if p.canExtract h url then
            match p.extract h url with
            | none => pluginLoop o h url ps result
            | some ph =>
                if ph ≠ "" then
                  if o.countWords ph > result.word_count then
                    ⟨ph, p.name, o.countWords ph⟩
                  else pluginLoop o h url ps result
                else pluginLoop o h url ps result
          else pluginLoop o h url ps result := rfl
      rw [step]
      by_cases hce : p.canExtract h url = true
      · rw [if_pos hce]
        cases hpe : p.extract h url with
        | none =>
            rcases ih with h1 | ⟨q, hq, hrest⟩
            · left; exact h1
            · right; exact ⟨q, List.mem_cons_of_mem p hq, hrest⟩
        | some ph =>
            dsimp only
            by_cases hne : ph = ""
            · subst hne
              rw [if_neg (by simp)]
              rcases ih with h1 | ⟨q, hq, hrest⟩
              · left; exact h1
              · right; exact ⟨q, List.mem_cons_of_mem p hq, hrest⟩
            · rw [if_pos hne]
              by_cases hwc : o.countWords ph > result.word_count
              · rw [if_pos hwc]
                right
                exact ⟨p, List.mem_cons_self p ps, hce, ph, hpe, hne, hwc, rfl⟩
              · rw [if_neg hwc]
                rcases ih with h1 | ⟨q, hq, hrest⟩
                · left; exact h1
                · right; exact ⟨q, List.mem_cons_of_mem p hq, hrest⟩
      · rw [if_neg hce]
        rcases ih with h1 | ⟨q, hq, hrest⟩
        · left; exact h1
        · right; exact ⟨q, List.mem_cons_of_mem p hq, hrest⟩

theorem pluginLoop_no_adoption (o : ContentOracles) (h url : String)
    (ps : List ExtractorPlugin) (result : ExtractionResult)
    (hres : pluginLoop o h url ps result = result) :
    ∀ p ∈ ps, p.canExtract h url = true →
      ∀ ph, p.extract h url = some ph → ph ≠ "" →
        o.countWords ph ≤ result.word_count := by
  induction ps with
  | nil => intro p hp; cases hp
  | cons p ps ih =>
      have step : pluginLoop o h url (p :: ps) result =
          if p.canExtract h url then
            match p.extract h url with
            | none => pluginLoop o h url ps result
            | some ph =>
                if ph ≠ "" then
                  if o.countWords ph > result.word_count then
                    ⟨ph, p.name, o.countWords ph⟩
                  else pluginLoop o h url ps result
                else pluginLoop o h url ps result
          else pluginLoop o h url ps result := rfl
      rw [step] at hres
      intro q hq hce ph hpe hne
      by_cases hceP : p.canExtract h url = true
      · rw [if_pos hceP] at hres
        rcases List.mem_cons.1 hq with hqp | hqs
        · subst hqp
          rw [hpe] at hres
          dsimp only at hres
          rw [if_pos hne] at hres
          by_cases hwc : o.countWords ph > result.word_count
          · rw [if_pos hwc] at hres
            have := congrArg ExtractionResult.word_count hres
            simp only [] at this
            omega
          · omega
        · cases hpe2 : q.extract h url with
          | none => exact absurd hpe (by rw [hpe2]; intro hx; cases hx)
          | some ph2 =>
              rw [hpe2] at hpe
              cases hpe
              cases hpe3 : p.extract h url with
              | none =>
                  rw [hpe3] at hres
                  exact ih hres q hqs hce ph hpe2 hne
              | some php =>
                  rw [hpe3] at hres
                  dsimp only at hres
                  by_cases hnep : php = ""
                  · subst hnep
                    rw [if_neg (by simp)] at hres
                    exact ih hres q hqs hce ph hpe2 hne
                  · rw [if_pos hnep] at hres
                    by_cases hwcp : o.countWords php > result.word_count
                    · rw [if_pos hwcp] at hres
                      have := congrArg ExtractionResult.word_count hres
                      simp only [] at this
                      omega
                    · rw [if_neg hwcp] at hres
                      exact ih hres q hqs hce ph hpe2 hne
      · rw [if_neg hceP] at hres
        rcases List.mem_cons.1 hq with hqp | hqs
        · subst hqp; exact absurd hce hceP
        · exact ih hres q hqs hce ph hpe hne

/-- **C6 (amended).**  Extractor plugins are consulted only on the
DOM-heuristic path: whenever either built-in extractor met its threshold,
the result is identical with any plugin registry and with an empty one
(plugins are never consulted); on the DOM-heuristic path the result is
either the DOM-heuristic result unchanged — in which case every
applicable plugin's non-empty output has word count ≤ the DOM result's —
or the adopted output of a registered plugin whose `can_extract` holds
and whose non-empty output strictly exceeds the DOM result's word
count. -/
theorem extract_main_content_plugin_rule (o : ContentOracles)
    (plugins : List ExtractorPlugin) (html url pre : String)
    (rWc tWc : Nat)
    (hpre : pre = o.preprocess html)
    (hrWc : rWc = (let c := tryReadability o pre url;
      if pyTruthy c then o.countWords (c.getD "") else 0))
    (htWc : tWc = (let c := tryTrafilatura o pre url;
      if pyTruthy c then o.countWords (c.getD "") else 0)) :
    (¬(rWc < readabilityMinWords ∧ tWc < trafilaturaMinWords) →
      extract_main_content o plugins html url =
        extract_main_content o [] html url)
    ∧ (rWc < readabilityMinWords → tWc < trafilaturaMinWords →
      ((extract_main_content o plugins html url =
          ⟨o.domHeuristic pre, "dom_heuristic",
           o.countWords (o.domHeuristic pre)⟩ ∨
        ∃ p, p ∈ plugins ∧ p.canExtract pre url = true ∧
          ∃ ph, p.extract pre url = some ph ∧ ph ≠ "" ∧
            o.countWords ph > o.countWords (o.domHeuristic pre) ∧
            extract_main_content o plugins html url =
              ⟨ph, p.name, o.countWords ph⟩)
       ∧ (extract_main_content o plugins html url =
            ⟨o.domHeuristic pre, "dom_heuristic",
             o.countWords (o.domHeuristic pre)⟩ →
          ∀ p ∈ plugins, p.canExtract pre url = true →
            ∀ ph, p.extract pre url = some ph → ph ≠ "" →
              o.countWords ph ≤ o.countWords (o.domHeuristic pre)))) := by
  subst hpre
  simp only at hrWc htWc
  constructor
  · intro hnot
    unfold extract_main_content
    simp only []
    rw [← hrWc, ← htWc]
    by_cases h1 : readabilityMinWords ≤ rWc ∧ trafilaturaMinWords ≤ tWc
    · rw [if_pos h1, if_pos h1]
    · rw [if_neg h1, if_neg h1]
      by_cases h2 : readabilityMinWords ≤ rWc
      · rw [if_pos h2, if_pos h2]
      · rw [if_neg h2, if_neg h2]
        by_cases h3 : trafilaturaMinWords ≤ tWc
        · rw [if_pos h3, if_pos h3]
        · exact absurd (by omega) hnot
  · intro hr ht
    have hbranch : extract_main_content o plugins html url =
        pluginLoop o (o.preprocess html) url (sortPlugins plugins)
          ⟨o.domHeuristic (o.preprocess html), "dom_heuristic",
           o.countWords (o.domHeuristic (o.preprocess html))⟩ := by
      unfold extract_main_content
      simp only []
      rw [← hrWc, ← htWc]
      rw [if_neg (by omega), if_neg (by omega), if_neg (by omega)]
    rw [hbranch]
    constructor
    · rcases pluginLoop_cases o (o.preprocess html) url (sortPlugins plugins)
        ⟨o.domHeuristic (o.preprocess html), "dom_heuristic",
         o.countWords (o.domHeuristic (o.preprocess html))⟩ with hc | hc
      · left; exact hc
      · right
        obtain ⟨p, hp, hrest⟩ := hc
        exact ⟨p, (List.mergeSort_perm plugins _).mem_iff.1 hp, hrest⟩
    · intro hid p hp hce ph hpe hne
      exact pluginLoop_no_adoption o (o.preprocess html) url
        (sortPlugins plugins) _ hid p
        ((List.mergeSort_perm plugins _).mem_iff.2 hp) hce ph hpe hne

/-- Oracles where only readability succeeds (50 words). -/
def oracleOnlyR : ContentOracles :=
  { preprocess := id
    readability := fun _ _ => some "r"
    trafilatura := fun _ _ => none
    countWords := fun s => 50 * s.length
    domHeuristic := fun _ => "d" }

/-- Oracles where neither built-in extractor succeeds and the DOM
heuristic yields `"d"` (50 words). -/
def oracleNeither : ContentOracles :=
  { preprocess := id
    readability := fun _ _ => none
    trafilatura := fun _ _ => none
    countWords := fun s => 50 * s.length
    domHeuristic := fun _ => "d" }

/-- A plugin whose output (100 words under the `50 * length` counter)
strictly exceeds any built-in result of ≤ 99 words. -/
def bigPlugin : ExtractorPlugin :=
  { name := "big"
    priority := 0
    canExtract := fun _ _ => true
    extract := fun _ _ => some "pp" }

/-- **C6 (counterexample).**  With readability succeeding (50 words) and a
registered plugin offering 100 words, `extract_main_content` returns the
readability result and never consults the plugin, although the plugin's
output word count strictly exceeds the result's — refuting the claim that
plugins are consulted (and their richer output adopted) after every
built-in cascade result. -/
theorem extract_main_content_plugin_not_consulted :
    extract_main_content oracleOnlyR [bigPlugin] "h" "u" =
      ⟨"r", "readability", 50⟩ ∧
    oracleOnlyR.countWords "pp" = 100 ∧ 100 > 50 ∧
    (extract_main_content oracleOnlyR [bigPlugin] "h" "u").method ≠
      bigPlugin.name := by
  refine ⟨by decide, by decide, by decide, by decide⟩

/-- Concrete instantiation of the C6 (amended) theorem: both built-in
extractors fail, the registered plugin's 100-word output exceeds the
DOM result's 50 words and is adopted. -/
theorem extract_main_content_plugin_rule_witness :
    (0 < readabilityMinWords ∧ 0 < trafilaturaMinWords) ∧
    ((extract_main_content oracleNeither [bigPlugin] "h" "u" =
        ⟨"d", "dom_heuristic", 50⟩ ∨
      ∃ p, p ∈ [bigPlugin] ∧ p.canExtract "h" "u" = true ∧
        ∃ ph, p.extract "h" "u" = some ph ∧ ph ≠ "" ∧
          oracleNeither.countWords ph >
            oracleNeither.countWords (oracleNeither.domHeuristic "h") ∧
          extract_main_content oracleNeither [bigPlugin] "h" "u" =
            ⟨ph, p.name, oracleNeither.countWords ph⟩)) := by
  refine ⟨⟨by decide, by decide⟩, ?_⟩
  exact ((extract_main_content_plugin_rule oracleNeither [bigPlugin]
    "h" "u" "h" 0 0 rfl (by decide) (by decide)).2 (by decide) (by decide)).1

/-! ## Python string primitives

Helpers shared by the feed, block-detection and URL-normalization
embeddings.  `str.strip()` uses Python's Unicode whitespace set;
`str.lower()` / `re.IGNORECASE` are modelled by ASCII case mapping (all
patterns in the source, and all concrete inputs evaluated here, are
ASCII). -/

/-- The characters Python's `str.strip()` / `str.split()` treat as
whitespace (Unicode whitespace as implemented by CPython). -/
def isPySpace (c : Char) : Bool :=
  c = ' ' ∨ c = '\t' ∨ c = '\n' ∨ c = '\x0b' ∨ c = '\x0c' ∨ c = '\r' ∨
  c = '\x1c' ∨ c = '\x1d' ∨ c = '\x1e' ∨ c = '\x1f' ∨ c = '\x85' ∨
  c = '\xa0' ∨ c = ' ' ∨ (' ' ≤ c ∧ c ≤ ' ') ∨
  c = ' ' ∨ c = ' ' ∨ c = ' ' ∨ c = ' ' ∨ c = '　'

/-- `str.strip()` on a character list. -/
def pyStripList (l : List Char) : List Char :=
  ((l.dropWhile isPySpace).reverse.dropWhile isPySpace).reverse

/-- `str.strip()`. -/
def pyStrip (s : String) : String := ⟨pyStripList s.data⟩

/-- ASCII model of Python's `str.lower()` on one character. -/
def pyLowerChar (c : Char) : Char :=
  if 'A' ≤ c ∧ c ≤ 'Z' then Char.ofNat (c.toNat + 32) else c

/-- ASCII model of `str.lower()` on a character list. -/
def pyLowerList (l : List Char) : List Char := l.map pyLowerChar

/-- ASCII model of `str.lower()`. -/
def pyLower (s : String) : String := ⟨pyLowerList s.data⟩

/-- Substring containment on character lists (`pat in hay` for Python
strings / `re.search` of a literal pattern). -/
def containsList : List Char → List Char → Bool
  | _, [] => true
  | [], _ :: _ => false
  | c :: hay, pat => pat.isPrefixOf (c :: hay) || containsList hay pat

/-- Substring containment on strings. -/
def containsStr (hay pat : String) : Bool := containsList hay.data pat.data

/-- Python `or` on optional strings (`None` and `""` are falsy). -/
def pyOrStr (a b : Option String) : Option String :=
  match a with
  | some s => if s = "" then b else some s
  | none => b

theorem containsList_nil (hay : List Char) : containsList hay [] = true := by
  cases hay <;> rfl

theorem containsList_append (hay pat s : List Char)
    (h : containsList hay pat = true) :
    containsList (hay ++ s) pat = true := by
  induction hay with
  | nil =>
      cases pat with
      | nil => exact containsList_nil s
      | cons c cs => simp [containsList] at h
  | cons c hay ih =>
      cases pat with
      | nil => exact containsList_nil _
      | cons p ps =>
          simp only [containsList, Bool.or_eq_true] at h ⊢
          rcases h with h | h
          · left
            have := List.IsPrefix.trans (List.isPrefixOf_iff_prefix.1 h)
              (List.prefix_append (c :: hay) s)
            exact List.isPrefixOf_iff_prefix.2 this
          · right; exact ih h

/-! ## Feed parsing (`llmparser/extractors/feed.py`)

The XML tree produced by `defusedxml.ElementTree.fromstring` is embedded
as `XmlElement`.  The external parser can (a) return a tree, (b) raise
`ET.ParseError`, which `parse_feed` catches, or (c) raise a
forbidden-construct exception (`EntitiesForbidden` / `DTDForbidden` /
`ExternalReferenceForbidden`), which subclasses `ValueError`, not
`ET.ParseError`, and escapes `parse_feed`'s handler; `urljoin` (stdlib,
used for Atom links) can raise `ValueError`.  `parse_feed` below embeds
the raise-free paths (parser oracle `String → Option XmlElement`, `none`
= the caught `ET.ParseError`; `urljoin` oracle
`String → String → String`); `parse_feedE` further down is the
raise-aware embedding with the three-outcome parser oracle and a
fallible `urljoin`, and coincides with `parse_feed` on raise-free
oracles. -/

/-- An ElementTree element: tag, attributes (dict as association list
with unique keys), `.text`, and child elements. -/
inductive XmlElement where
  | mk (tag : String) (attrs : List (String × String)) (text : Option String)
      (children : List XmlElement)

/-- Element tag. -/
def XmlElement.tag : XmlElement → String
  | .mk t _ _ _ => t

/-- Element attributes. -/
def XmlElement.attrs : XmlElement → List (String × String)
  | .mk _ a _ _ => a

/-- Element `.text`. -/
def XmlElement.text : XmlElement → Option String
  | .mk _ _ t _ => t

/-- Child elements. -/
def XmlElement.children : XmlElement → List XmlElement
  | .mk _ _ _ c => c

/-- `Element.get(key)`: attribute lookup. -/
def XmlElement.getAttr (el : XmlElement) (k : String) : Option String :=
  (el.attrs.find? (fun kv => kv.1 = k)).map (fun kv => kv.2)

/-- `Element.find(tag)`: first direct child with the given tag. -/
def XmlElement.findTag (el : XmlElement) (t : String) : Option XmlElement :=
  el.children.find? (fun c => c.tag = t)

/-- `Element.findall(tag)`: all direct children with the given tag. -/
def XmlElement.findallTag (el : XmlElement) (t : String) : List XmlElement :=
  el.children.filter (fun c => c.tag = t)

/-- Python truthiness of an `Element` (an element is falsy iff it has no
children — `Element.__bool__` is `len(children) != 0`); on an optional
element, `None` is falsy too.  Used for `find(a) or find(b)`. -/
def elOr (a b : Option XmlElement) : Option XmlElement :=
  match a with
  | some el => if el.children.isEmpty then b else some el
  | none => b

/-- `_text(el)`: stripped element text or `None` (`t or None` maps the
empty string to `None`). -/
def textOf : Option XmlElement → Option String
  | none => none
  | some el =>
      if pyStrip (el.text.getD "") = "" then none
      else some (pyStrip (el.text.getD ""))

/-- `FeedEntry` namedtuple. -/
structure FeedEntry where
  url : String
  title : String
  author : Option String
  published_at : Option String
  summary : Option String
  deriving DecidableEq, Repr

/-- Dublin Core namespace prefix strings used in `_parse_rss`. -/
def dcCreatorTag : String := "{http://purl.org/dc/elements/1.1/}creator"

/-- The `{dc}date` tag. -/
def dcDateTag : String := "{http://purl.org/dc/elements/1.1/}date"

/-- The Atom namespace. -/
def atomNs : String := "http://www.w3.org/2005/Atom"

/-- The URL selection of the `_parse_rss` item loop: `<link>` text, else
the text of a permalink `<guid>` (`isPermaLink` defaulting to `"true"`,
compared case-insensitively against `"false"`). -/
def rssItemUrl (item : XmlElement) : Option String :=
  match textOf (item.findTag "link") with
  | some u => some u
  | none =>
      match item.findTag "guid" with
      | none => none
      | some g =>
          if pyLower ((g.getAttr "isPermaLink").getD "true") ≠ "false" then
            textOf g
          else none

/-- One iteration of the `_parse_rss` item loop: `None` means the item is
skipped (`continue`). -/
def rssItemEntry (item : XmlElement) : Option FeedEntry :=
  match rssItemUrl item with
  | none => none
  | some u =>
      some { url := u
             title := (textOf (item.findTag "title")).getD ""
             author := pyOrStr (textOf (item.findTag dcCreatorTag))
               (textOf (item.findTag "author"))
             published_at := pyOrStr (textOf (item.findTag "pubDate"))
               (textOf (item.findTag dcDateTag))
             summary := textOf (item.findTag "description") }

/-- `_parse_rss`. -/
def parseRss (root : XmlElement) : List FeedEntry :=
  let base := match root.findTag "channel" with
    | some channel => channel
    | none => root
  (base.findallTag "item").filterMap rssItemEntry

/-- The Atom link-selection loop: first `<link>` whose `rel` is
`"alternate"` (the default) or `""` and whose stripped `href` is
non-empty; the produced URL is `urljoin(base_url, href)` when a base URL
is given. -/
def atomEntryUrl (join : String → String → String) (base pfx : String)
    (entry : XmlElement) : Option String :=
  (entry.findallTag (pfx ++ "link")).findSome? fun l =>
    let rel := (l.getAttr "rel").getD "alternate"
    if rel = "alternate" ∨ rel = "" then
      let href := pyStrip ((l.getAttr "href").getD "")
      if href ≠ "" then some (if base ≠ "" then join base href else href)
      else none
    else none

/-- One iteration of the `_parse_atom` entry loop; `None` = skipped. -/
def atomEntry (join : String → String → String) (base pfx : String)
    (entry : XmlElement) : Option FeedEntry :=
  match atomEntryUrl join base pfx entry with
  | none => none
  | some u =>
      if u = "" then none
      else
        some { url := u
               title := (textOf (entry.findTag (pfx ++ "title"))).getD ""
               author :=
                 match entry.findTag (pfx ++ "author") with
                 | none => none
                 | some a => textOf (a.findTag (pfx ++ "name"))
               published_at := textOf (elOr (entry.findTag (pfx ++ "published"))
                 (entry.findTag (pfx ++ "updated")))
               summary := textOf (elOr (entry.findTag (pfx ++ "summary"))
                 (entry.findTag (pfx ++ "content"))) }

/-- `_parse_atom`. -/
def parseAtom (join : String → String → String) (root : XmlElement)
    (base : String) : List FeedEntry :=
  let pfx := if root.tag.startsWith "\x7b" then "\x7b" ++ atomNs ++ "\x7d"
             else ""
  (root.findallTag (pfx ++ "entry")).filterMap (atomEntry join base pfx)

/-- `parse_feed(xml_text, base_url)`: `parse` is the XML parser oracle
(`none` = `ET.ParseError`, caught and mapped to `[]`). -/
def parse_feed (parse : String → Option XmlElement)
    (join : String → String → String) (xmlText baseUrl : String) :
    List FeedEntry :=
  match parse xmlText with
  | none => []
  | some root =>
      let tag := pyLower root.tag
      let fallback :=
        if containsStr tag "feed" ∨
            root.tag = "\x7b" ++ atomNs ++ "\x7dfeed" then
          parseAtom join root baseUrl
        else
          let entries := parseRss root
          if entries.isEmpty then parseAtom join root baseUrl else entries
      if containsStr tag "rss" ∨ (root.findTag "channel").isSome then
        let entries := parseRss root
        if entries.isEmpty then fallback else entries
      else fallback

/-! ### Raise-aware `parse_feed`

`feed.py:153-157` catches only `ET.ParseError`.  `defusedxml`'s
`fromstring` signals forbidden XML constructs (an entity declaration in
an internal DTD, an external reference) by raising `EntitiesForbidden` /
`DTDForbidden` / `ExternalReferenceForbidden`, which subclass
`ValueError`, not `ET.ParseError`, so they escape the handler; and
`urljoin` at `feed.py:107` raises `ValueError` for some base URLs (e.g.
`"http://["`).  `XmlParseOutcome` is the three-outcome parser oracle and
`parse_feedE` the embedding that also carries these two uncaught raise
paths; on raise-free oracles it coincides with `parse_feed`
(`parse_feedE_refines_parse_feed`). -/

/-- Outcome of `defused_ET.fromstring(xml_text)`: a tree, an
`ET.ParseError` (caught by `parse_feed`), or a forbidden-construct
exception (`EntitiesForbidden`/`DTDForbidden`/
`ExternalReferenceForbidden` — `ValueError` subclasses, not caught by
`except ET.ParseError`). -/
inductive XmlParseOutcome where
  | ok (root : XmlElement)
  | parseError
  | forbidden

/-- Body of the Atom link-selection loop for one `<link>` element, with a
fallible `urljoin` (`join` returning `.error` = `ValueError` raised):
`.ok (some url)` = `break` with a URL, `.ok none` = keep scanning. -/
def atomLinkBody (join : String → String → Except Unit String)
    (base : String) (l : XmlElement) : Except Unit (Option String) :=
  let rel := (l.getAttr "rel").getD "alternate"
  if rel = "alternate" ∨ rel = "" then
    let href := pyStrip ((l.getAttr "href").getD "")
    if href ≠ "" then
      if base ≠ "" then (join base href).map some else .ok (some href)
    else .ok none
  else .ok none

/-- The Atom link-selection loop over the `<link>` elements, propagating
a `urljoin` raise. -/
def atomLinkScanE (join : String → String → Except Unit String)
    (base : String) : List XmlElement → Except Unit (Option String)
  | [] => .ok none
  | l :: rest =>
      match atomLinkBody join base l with
      | .error x => .error x
      | .ok (some u) => .ok (some u)
      | .ok none => atomLinkScanE join base rest

/-- One iteration of the `_parse_atom` entry loop with the fallible
`urljoin`; `.ok none` = skipped (`continue`). -/
def atomEntryE (join : String → String → Except Unit String)
    (base pfx : String) (entry : XmlElement) :
    Except Unit (Option FeedEntry) :=
  match atomLinkScanE join base (entry.findallTag (pfx ++ "link")) with
  | .error x => .error x
  | .ok none => .ok none
  | .ok (some u) =>
      if u = "" then .ok none
      else
        .ok (some
          { url := u
            title := (textOf (entry.findTag (pfx ++ "title"))).getD ""
            author :=
              match entry.findTag (pfx ++ "author") with
              | none => none
              | some a => textOf (a.findTag (pfx ++ "name"))
            published_at := textOf (elOr (entry.findTag (pfx ++ "published"))
              (entry.findTag (pfx ++ "updated")))
            summary := textOf (elOr (entry.findTag (pfx ++ "summary"))
              (entry.findTag (pfx ++ "content"))) })

/-- The `_parse_atom` entry loop with the fallible `urljoin`: entries are
accumulated in order; a raise inside any iteration propagates. -/
def atomEntriesE (join : String → String → Except Unit String)
    (base pfx : String) : List XmlElement → Except Unit (List FeedEntry)
  | [] => .ok []
  | e :: rest =>
      match atomEntryE join base pfx e with
      | .error x => .error x
      | .ok none => atomEntriesE join base pfx rest
      | .ok (some fe) =>
          match atomEntriesE join base pfx rest with
          | .error x => .error x
          | .ok l => .ok (fe :: l)

/-- `_parse_atom` with the fallible `urljoin`. -/
def parseAtomE (join : String → String → Except Unit String)
    (root : XmlElement) (base : String) : Except Unit (List FeedEntry) :=
  let pfx := if root.tag.startsWith "\x7b" then "\x7b" ++ atomNs ++ "\x7d"
             else ""
  atomEntriesE join base pfx (root.findallTag (pfx ++ "entry"))

/-- `parse_feed(xml_text, base_url)` with the full parser-outcome oracle
and the fallible `urljoin`: only `ET.ParseError` is caught (mapped to
`.ok []`); a forbidden-construct outcome, or a `urljoin` raise on the
Atom path, propagates (`.error ()`). -/
def parse_feedE (parse : String → XmlParseOutcome)
    (join : String → String → Except Unit String) (xmlText baseUrl : String) :
    Except Unit (List FeedEntry) :=
  match parse xmlText with
  | .parseError => .ok []
  | .forbidden => .error ()
  | .ok root =>
      let tag := pyLower root.tag
      let fallback :=
        if containsStr tag "feed" ∨
            root.tag = "\x7b" ++ atomNs ++ "\x7dfeed" then
          parseAtomE join root baseUrl
        else
          let entries := parseRss root
          if entries.isEmpty then parseAtomE join root baseUrl
          else .ok entries
      if containsStr tag "rss" ∨ (root.findTag "channel").isSome then
        let entries := parseRss root
        if entries.isEmpty then fallback else .ok entries
      else fallback

/-- The pure per-link selector of the Atom link loop (the body of
`atomEntryUrl`'s `findSome?`). -/
def atomLinkPure (join : String → String → String) (base : String)
    (l : XmlElement) : Option String :=
  let rel := (l.getAttr "rel").getD "alternate"
  if rel = "alternate" ∨ rel = "" then
    let href := pyStrip ((l.getAttr "href").getD "")
    if href ≠ "" then some (if base ≠ "" then join base href else href)
    else none
  else none

theorem atomEntryUrl_eq_findSome (join : String → String → String)
    (base pfx : String) (entry : XmlElement) :
    atomEntryUrl join base pfx entry =
      (entry.findallTag (pfx ++ "link")).findSome? (atomLinkPure join base) :=
  rfl

theorem atomLinkBody_ok (join : String → String → String) (base : String)
    (l : XmlElement) :
    atomLinkBody (fun a b => .ok (join a b)) base l =
      .ok (atomLinkPure join base l) := by
  unfold atomLinkBody atomLinkPure
  by_cases h1 : (l.getAttr "rel").getD "alternate" = "alternate" ∨
      (l.getAttr "rel").getD "alternate" = ""
  · simp only [if_pos h1]
    by_cases h2 : pyStrip ((l.getAttr "href").getD "") ≠ ""
    · simp only [if_pos h2]
      by_cases h3 : base ≠ ""
      · simp only [if_pos h3]; rfl
      · simp only [if_neg h3]
    · simp only [if_neg h2]
  · simp only [if_neg h1]

theorem atomLinkScanE_ok (join : String → String → String) (base : String)
    (ls : List XmlElement) :
    atomLinkScanE (fun a b => .ok (join a b)) base ls =
      .ok (ls.findSome? (atomLinkPure join base)) := by
  induction ls with
  | nil => rfl
  | cons l rest ih =>
      rw [List.findSome?_cons]
      show (match atomLinkBody (fun a b => Except.ok (join a b)) base l with
            | Except.error x => Except.error x
            | Except.ok (some u) => Except.ok (some u)
            | Except.ok none =>
                atomLinkScanE (fun a b => Except.ok (join a b)) base rest) = _
      rw [atomLinkBody_ok]
      cases hbv : atomLinkPure join base l with
      | none => simpa using ih
      | some u => rfl

theorem atomEntryE_ok (join : String → String → String) (base pfx : String)
    (entry : XmlElement) :
    atomEntryE (fun a b => .ok (join a b)) base pfx entry =
      .ok (atomEntry join base pfx entry) := by
  unfold atomEntryE atomEntry
  rw [atomLinkScanE_ok, ← atomEntryUrl_eq_findSome]
  cases h : atomEntryUrl join base pfx entry with
  | none => rfl
  | some u =>
      dsimp only
      by_cases hu : u = ""
      · simp only [if_pos hu]
      · simp only [if_neg hu]

theorem atomEntriesE_ok (join : String → String → String) (base pfx : String)
    (ls : List XmlElement) :
    atomEntriesE (fun a b => .ok (join a b)) base pfx ls =
      .ok (ls.filterMap (atomEntry join base pfx)) := by
  induction ls with
  | nil => rfl
  | cons e rest ih =>
      show (match atomEntryE (fun a b => Except.ok (join a b)) base pfx e with
            | Except.error x => Except.error x
            | Except.ok none =>
                atomEntriesE (fun a b => Except.ok (join a b)) base pfx rest
            | Except.ok (some fe) =>
                match atomEntriesE (fun a b => Except.ok (join a b)) base pfx
                    rest with
                | Except.error x => Except.error x
                | Except.ok l => Except.ok (fe :: l)) = _
      rw [atomEntryE_ok, List.filterMap_cons, ih]
      cases h : atomEntry join base pfx e with
      | none => rfl
      | some fe => rfl

theorem parseAtomE_ok (join : String → String → String) (root : XmlElement)
    (base : String) :
    parseAtomE (fun a b => .ok (join a b)) root base =
      .ok (parseAtom join root base) := by
  unfold parseAtomE parseAtom
  exact atomEntriesE_ok join base _ _

/-- On raise-free oracles (a parser that never hits a forbidden
construct, a total `urljoin`), the raise-aware embedding computes
exactly `parse_feed`. -/
theorem parse_feedE_refines_parse_feed (parse : String → Option XmlElement)
    (join : String → String → String) (xmlText baseUrl : String) :
    parse_feedE
        (fun s => match parse s with
          | none => XmlParseOutcome.parseError
          | some root => XmlParseOutcome.ok root)
        (fun a b => .ok (join a b)) xmlText baseUrl =
      .ok (parse_feed parse join xmlText baseUrl) := by
  unfold parse_feedE parse_feed
  cases h : parse xmlText with
  | none => simp only [h]
  | some root =>
      simp only [h]
      have hA := parseAtomE_ok join root baseUrl
      by_cases hrss : containsStr (pyLower root.tag) "rss" = true ∨
          (root.findTag "channel").isSome = true
      · simp only [if_pos hrss]
        by_cases hemp : (parseRss root).isEmpty = true
        · simp only [if_pos hemp]
          by_cases hfeed : containsStr (pyLower root.tag) "feed" = true ∨
              root.tag = "\x7b" ++ atomNs ++ "\x7dfeed"
          · simp only [if_pos hfeed]; exact hA
          · simp only [if_neg hfeed, if_pos hemp]; exact hA
        · simp only [if_neg hemp]
      · simp only [if_neg hrss]
        by_cases hfeed : containsStr (pyLower root.tag) "feed" = true ∨
            root.tag = "\x7b" ++ atomNs ++ "\x7dfeed"
        · simp only [if_pos hfeed]; exact hA
        · simp only [if_neg hfeed]
          by_cases hemp : (parseRss root).isEmpty = true
          · simp only [if_pos hemp]; exact hA
          · simp only [if_neg hemp]

theorem substrEq_loop_feed_brace :
    String.substrEq.loop "feed" "\x7b" 0 0 ⟨1⟩ = false := by
  unfold String.substrEq.loop
  rw [dif_pos (by decide)]
  show ("feed".get 0 == "\x7b".get 0 &&
    String.substrEq.loop "feed" "\x7b" (0 + "feed".get 0) (0 + "\x7b".get 0)
      ⟨1⟩) = false
  rw [show (("feed".get 0 == "\x7b".get 0)) = false from rfl]
  exact Bool.false_and _

theorem startsWith_feed_brace : ("feed".startsWith "\x7b") = false := by
  show ("feed".toSubstring.take "\x7b".length == "\x7b".toSubstring) = false
  rw [show ("feed".toSubstring.take "\x7b".length) = ⟨"feed", 0, ⟨1⟩⟩ from rfl]
  show Substring.beq ⟨"feed", 0, ⟨1⟩⟩ "\x7b".toSubstring = false
  unfold Substring.beq
  rw [show (Substring.bsize ⟨"feed", 0, ⟨1⟩⟩ ==
    Substring.bsize "\x7b".toSubstring) = true from rfl, Bool.true_and]
  show String.substrEq "feed" 0 "\x7b" 0 1 = false
  unfold String.substrEq
  rw [show (decide ((0 : String.Pos).byteIdx + 1 ≤
    "feed".endPos.byteIdx)) = true from rfl]
  rw [show (decide ((0 : String.Pos).byteIdx + 1 ≤
    "\x7b".endPos.byteIdx)) = true from rfl]
  rw [Bool.true_and, Bool.true_and]
  exact substrEq_loop_feed_brace

/-- The Atom feed tree of
`<feed><entry><link href="p1"/></entry></feed>`: its relative link
forces the `urljoin` call whenever a base URL is given. -/
def atomRelTree : XmlElement :=
  .mk "feed" [] none
    [.mk "entry" [] none [.mk "link" [("href", "p1")] none []]]

/-- **C1.** The claim is false of the program: `parse_feed` is not total.
The handler at `feed.py:153-157` catches only `ET.ParseError`, so (i) a
parser outcome in defusedxml's forbidden class — e.g. `EntitiesForbidden`
for `'<!DOCTYPE r [<!ENTITY x "y">]><rss/>'`, a `ValueError` subclass,
not an `ET.ParseError` — propagates out of `parse_feed` for every join
oracle and input, while (ii) only the genuine `ET.ParseError` outcome is
mapped to `[]`, and (iii) a `ValueError` raised by `urljoin` (e.g. for
base URL `"http://["` with a relative Atom link) propagates out of the
Atom entry loop. -/
theorem parse_feed_not_total (join : String → String → Except Unit String)
    (xmlText baseUrl : String) :
    parse_feedE (fun _ => .forbidden) join xmlText baseUrl = .error () ∧
    parse_feedE (fun _ => .parseError) join xmlText baseUrl = .ok [] ∧
    parse_feedE (fun _ => .ok atomRelTree) (fun _ _ => .error ())
      "<feed><entry><link href=\"p1\"/></entry></feed>" "http://[" =
      .error () := by
  refine ⟨rfl, rfl, ?_⟩
  show parseAtomE (fun _ _ => .error ()) atomRelTree "http://[" = .error ()
  show atomEntriesE (fun _ _ => .error ()) "http://["
      (if (XmlElement.tag atomRelTree).startsWith "\x7b" then
        "\x7b" ++ atomNs ++ "\x7d" else "")
      (atomRelTree.findallTag
        ((if (XmlElement.tag atomRelTree).startsWith "\x7b" then
          "\x7b" ++ atomNs ++ "\x7d" else "") ++ "entry")) = .error ()
  rw [show XmlElement.tag atomRelTree = "feed" from rfl, startsWith_feed_brace]
  rfl

theorem textOf_ne_empty (o : Option XmlElement) (s : String)
    (h : textOf o = some s) : s ≠ "" := by
  cases o with
  | none => simp [textOf] at h
  | some el =>
      unfold textOf at h
      dsimp only at h
      by_cases ht : pyStrip (el.text.getD "") = ""
      · rw [if_pos ht] at h
        cases h
      · rw [if_neg ht] at h
        cases h
        exact ht

theorem rssItemUrl_ne_empty (item : XmlElement) (u : String)
    (h : rssItemUrl item = some u) : u ≠ "" := by
  unfold rssItemUrl at h
  cases hl : textOf (item.findTag "link") with
  | some v =>
      rw [hl] at h
      dsimp only at h
      cases h
      exact textOf_ne_empty _ _ hl
  | none =>
      rw [hl] at h
      dsimp only at h
      cases hg : item.findTag "guid" with
      | none => rw [hg] at h; cases h
      | some g =>
          rw [hg] at h
          dsimp only at h
          by_cases hp :
              pyLower ((g.getAttr "isPermaLink").getD "true") ≠ "false"
          · rw [if_pos hp] at h
            exact textOf_ne_empty _ _ h
          · rw [if_neg hp] at h
            cases h

theorem rssItemEntry_url_ne_empty (item : XmlElement) (e : FeedEntry)
    (h : rssItemEntry item = some e) : e.url ≠ "" := by
  unfold rssItemEntry at h
  cases hu : rssItemUrl item with
  | none => rw [hu] at h; cases h
  | some u =>
      rw [hu] at h
      cases h
      exact rssItemUrl_ne_empty item u hu

theorem atomEntry_url_ne_empty (join : String → String → String)
    (base pfx : String) (entry : XmlElement) (e : FeedEntry)
    (h : atomEntry join base pfx entry = some e) : e.url ≠ "" := by
  unfold atomEntry at h
  cases hu : atomEntryUrl join base pfx entry with
  | none => rw [hu] at h; cases h
  | some u =>
      rw [hu] at h
      dsimp only at h
      by_cases he : u = ""
      · rw [if_pos he] at h; cases h
      · rw [if_neg he] at h
        cases h
        exact he

theorem parseRss_urls_ne_empty (root : XmlElement) (e : FeedEntry)
    (h : e ∈ parseRss root) : e.url ≠ "" := by
  unfold parseRss at h
  obtain ⟨item, -, hitem⟩ := List.mem_filterMap.1 h
  exact rssItemEntry_url_ne_empty item e hitem

theorem parseAtom_urls_ne_empty (join : String → String → String)
    (root : XmlElement) (base : String) (e : FeedEntry)
    (h : e ∈ parseAtom join root base) : e.url ≠ "" := by
  unfold parseAtom at h
  obtain ⟨entry, -, hentry⟩ := List.mem_filterMap.1 h
  exact atomEntry_url_ne_empty join base _ entry e hentry

/-- **C9.** Every `FeedEntry` returned by `parse_feed` has a non-empty
URL; an RSS item with no `<link>` text and no usable permalink `<guid>`
is skipped, and an Atom entry with no alternate-rel link carrying a
non-empty `href` is skipped. -/
theorem parse_feed_nonempty_urls (parse : String → Option XmlElement)
    (join : String → String → String) (xmlText baseUrl : String) :
    (∀ e ∈ parse_feed parse join xmlText baseUrl, e.url ≠ "") ∧
    (∀ item : XmlElement, textOf (item.findTag "link") = none →
      (∀ g, item.findTag "guid" = some g →
        pyLower ((g.getAttr "isPermaLink").getD "true") = "false" ∨
        textOf g = none) →
      rssItemEntry item = none) ∧
    (∀ (pfx base : String) (entry : XmlElement),
      (∀ l ∈ entry.findallTag (pfx ++ "link"),
        ((l.getAttr "rel").getD "alternate" = "alternate" ∨
         (l.getAttr "rel").getD "alternate" = "") →
        pyStrip ((l.getAttr "href").getD "") = "") →
      atomEntry join base pfx entry = none) := by
  refine ⟨?_, ?_, ?_⟩
  · intro e he
    unfold parse_feed at he
    cases hp : parse xmlText with
    | none => rw [hp] at he; cases he
    | some root =>
        rw [hp] at he
        simp only [] at he
        have hatom : ∀ e ∈ parseAtom join root baseUrl, e.url ≠ "" :=
          fun e' he' => parseAtom_urls_ne_empty join root baseUrl e' he'
        have hrss : ∀ e ∈ parseRss root, e.url ≠ "" :=
          fun e' he' => parseRss_urls_ne_empty root e' he'
        repeat' split at he
        all_goals first
          | exact hatom e he
          | exact hrss e he
  · intro item hlink hguid
    unfold rssItemEntry rssItemUrl
    rw [hlink]
    dsimp only
    cases hg : item.findTag "guid" with
    | none => rfl
    | some g =>
        dsimp only
        rcases hguid g hg with hfalse | hnone
        · rw [if_neg (by simp [hfalse])]
        · by_cases hp :
              pyLower ((g.getAttr "isPermaLink").getD "true") ≠ "false"
          · rw [if_pos hp, hnone]
          · rw [if_neg hp]
  · intro pfx base entry hlinks
    unfold atomEntry
    have hurl : atomEntryUrl join base pfx entry = none := by
      unfold atomEntryUrl
      rw [List.findSome?_eq_none_iff]
      intro l hl
      dsimp only
      by_cases hrel : (l.getAttr "rel").getD "alternate" = "alternate" ∨
          (l.getAttr "rel").getD "alternate" = ""
      · rw [if_pos hrel]
        rw [if_neg (by simpa using hlinks l hl hrel)]
      · rw [if_neg hrel]
    rw [hurl]

/-- Concrete instantiation of C9: a two-item RSS feed whose second item
has no `<link>`/`<guid>`; only the first item is returned, with its
non-empty URL. -/
def rssTree : XmlElement :=
  .mk "rss" [] none
    [.mk "channel" [] none
      [.mk "item" [] none
        [.mk "link" [] (some "http://x/a") [], .mk "title" [] (some "A") []],
       .mk "item" [] none [.mk "title" [] (some "B") []]]]

theorem parse_feed_nonempty_urls_witness :
    ((⟨"http://x/a", "A", none, none, none⟩ : FeedEntry) ∈
      parse_feed (fun _ => some rssTree) (fun _ h => h) "x" "") ∧
    (⟨"http://x/a", "A", none, none, none⟩ : FeedEntry).url ≠ "" ∧
    parse_feed (fun _ => some rssTree) (fun _ h => h) "x" "" =
      [⟨"http://x/a", "A", none, none, none⟩] :=
  ⟨by decide,
   (parse_feed_nonempty_urls (fun _ => some rssTree) (fun _ h => h)
      "x" "").1 _ (by decide),
   by decide⟩

/-! ## Block detection (`llmparser/extractors/block_detection.py`)

All patterns in the source are literal strings (after unescaping `\.`)
matched with `re.IGNORECASE`, embedded as case-insensitive substring
search (ASCII case mapping).  The two structural regexes
(`<[^>]+>` tag stripping for `_word_count`, and
`<title[^>]*>(.*?)</title>` for `_get_title`,
`<script[^>]+\bsrc\s*=\s*["']https?://` for
`_count_external_scripts`) are embedded as the equivalent scanners below
(the patterns contain no constructs whose backtracking deviates from a
first/greedy-occurrence scan; see the comments).  Scanners that consume a
variable number of characters per step take a fuel argument (initialised
to the input length, which the per-step consumption of at least one
character can never exhaust) so that they reduce definitionally. -/

/-- Split at the first occurrence of `c`: returns the part before and
after it. -/
def splitAtFirst (c : Char) : List Char → Option (List Char × List Char)
  | [] => none
  | x :: xs =>
      if x = c then some ([], xs)
      else
        match splitAtFirst c xs with
        | none => none
        | some (pre, post) => some (x :: pre, post)

/-- `re.sub(r"<[^>]+>", " ", html)`: at each `<`, the greedy `[^>]+` can
only reach the first following `>`, so a match is `<` + a non-empty
run of non-`>` + the first `>`; it is replaced by one space and scanning
resumes after it (non-overlapping, left to right). -/
def stripTagsAux : Nat → List Char → List Char
  | 0, _ => []
  | _, [] => []
  | fuel + 1, c :: rest =>
      if c = '<' then
        match splitAtFirst '>' rest with
        | some (pre, post) =>
            if pre.isEmpty then c :: stripTagsAux fuel rest
            else ' ' :: stripTagsAux fuel post
        | none => c :: stripTagsAux fuel rest
      else c :: stripTagsAux fuel rest

/-- The tag-stripping pass of `_word_count`. -/
def stripTags (l : List Char) : List Char := stripTagsAux l.length l

/-- `str.split()` token count: number of maximal non-whitespace runs. -/
def countTokensAux : Nat → List Char → Nat
  | 0, _ => 0
  | _, [] => 0
  | fuel + 1, c :: rest =>
      if isPySpace c then countTokensAux fuel rest
      else 1 + countTokensAux fuel (rest.dropWhile (fun c => !isPySpace c))

/-- Token count of `str.split()`. -/
def countTokens (l : List Char) : Nat := countTokensAux l.length l

/-- `_word_count`. -/
def wordCountHtml (l : List Char) : Nat := countTokens (stripTags l)

/-- Case-insensitive prefix test (the pattern is stored lowercase). -/
def lowerStartsWith (pat l : List Char) : Bool :=
  pat.isPrefixOf (pyLowerList l)

/-- `"<title"` (the tag-open literal of `_get_title`'s regex). -/
def titleOpenPat : List Char := "<title".data

/-- `"</title>"` (the closing literal). -/
def titleClosePat : List Char := "</title>".data

/-- The lazy `(.*?)</title>` scan: the group up to the first
case-insensitive occurrence of `</title>`, if any. -/
def findCloseTitle : List Char → Option (List Char)
  | [] => none
  | c :: rest =>
      if lowerStartsWith titleClosePat (c :: rest) then some []
      else
        match findCloseTitle rest with
        | none => none
        | some g => some (c :: g)

/-- Match `<title[^>]*>(.*?)</title>` at the start of the list: the
`[^>]*` of the open tag can only run to the first `>` (no backtracking
alternatives exist), then the lazy group runs to the first `</title>`. -/
def matchTitleAt (cs : List Char) : Option (List Char) :=
  if lowerStartsWith titleOpenPat cs then
    match splitAtFirst '>' (cs.drop 6) with
    | none => none
    | some (_, post) => findCloseTitle post
  else none

/-- `re.search` of the title regex: first position, left to right, where
it matches; yields group 1. -/
def findTitle : List Char → Option (List Char)
  | [] => none
  | c :: rest =>
      match matchTitleAt (c :: rest) with
      | some g => some g
      | none => findTitle rest

/-- `_get_title`: `m.group(1).strip()` or `""`. -/
def getTitle (cs : List Char) : List Char :=
  match findTitle cs with
  | some g => pyStripList g
  | none => []

/-- ASCII model of the regex word character class `\w`. -/
def isWordChar (c : Char) : Bool :=
  ('a' ≤ c ∧ c ≤ 'z') ∨ ('A' ≤ c ∧ c ≤ 'Z') ∨ ('0' ≤ c ∧ c ≤ '9') ∨ c = '_'

/-- Match `src\s*=\s*["']https?://` (case-insensitive) at the start,
returning the remainder after the match. -/
def scriptTail (cs : List Char) : Option (List Char) :=
  if lowerStartsWith ("src".data) cs then
    let cs1 := (cs.drop 3).dropWhile isPySpace
    match cs1 with
    | '=' :: cs2 =>
        let cs3 := cs2.dropWhile isPySpace
        match cs3 with
        | q :: cs4 =>
            if q = '"' ∨ q = '\'' then
              if lowerStartsWith ("http".data) cs4 then
                let cs5 := cs4.drop 4
                match cs5 with
                | s :: cs6 =>
                    if (s = 's' ∨ s = 'S') ∧
                        lowerStartsWith ("://".data) cs6 then
                      some (cs6.drop 3)
                    else if lowerStartsWith ("://".data) cs5 then
                      some (cs5.drop 3)
                    else none
                | [] => none
              else none
            else none
        | [] => none
    | _ => none
  else none

/-- The `[^>]+\b` part before `src`: try the greedy (longest) non-`>`
run first, backtracking to shorter ones; the run must be non-empty and
end in a non-word character (the `\b` before the word character `s`). -/
def scriptScanJ (cs : List Char) : Nat → Option (List Char)
  | 0 => none
  | j + 1 =>
      let mid := cs.take (j + 1)
      if (mid.getLast?.elim false (fun c => !isWordChar c)) then
        match scriptTail (cs.drop (j + 1)) with
        | some rest => some rest
        | none => scriptScanJ cs j
      else scriptScanJ cs j

/-- Match the part of the script regex after the `<script` literal. -/
def scriptMatchAt (cs : List Char) : Option (List Char) :=
  scriptScanJ cs (cs.takeWhile (fun c => c ≠ '>')).length

/-- `_count_external_scripts`: `len(findall)` — non-overlapping count of
the script pattern, scanning left to right and resuming after each
match. -/
def countExtScriptsAux : Nat → List Char → Nat
  | 0, _ => 0
  | _, [] => 0
  | fuel + 1, c :: rest =>
      if lowerStartsWith ("<script".data) (c :: rest) then
        match scriptMatchAt ((c :: rest).drop 7) with
        | some remaining => 1 + countExtScriptsAux fuel remaining
        | none => countExtScriptsAux fuel rest
      else countExtScriptsAux fuel rest

/-- `_count_external_scripts`. -/
def countExternalScripts (l : List Char) : Nat := countExtScriptsAux l.length l

/-- `_CF_BODY_PATTERNS` (literal content, lowercase). -/
def cfBodyPatterns : List String :=
  ["just a moment", "cf-browser-verification", "challenges.cloudflare.com",
   "cf-challenge", "__cf_bm", "cf-ray"]

/-- `_CF_TITLE_PATTERNS`. -/
def cfTitlePatterns : List String := ["attention required", "just a moment"]

/-- `_CAPTCHA_PATTERNS`. -/
def captchaPatterns : List String :=
  ["g-recaptcha", "h-captcha", "hcaptcha.com", "cf-turnstile",
   "friendlycaptcha", "recaptcha.net"]

/-- `_DATADOME_PATTERNS`. -/
def datadomePatterns : List String := ["datadome", "ddcaptcha", "_dd_s"]

/-- `_PERIMETERX_PATTERNS`. -/
def perimeterxPatterns : List String :=
  ["px-captcha", "pxi_loader", "_pxappid", "perimeterx"]

/-- `_AKAMAI_PATTERNS`. -/
def akamaiPatterns : List String := ["ak_bmsc", "_abck", "bmak.js"]

/-- `p.search(hay)` for a literal case-insensitive pattern. -/
def searchCI (hay : List Char) (pat : String) : Bool :=
  containsList (pyLowerList hay) pat.data

/-- `cf_title_hit`. -/
def cfTitleHit (cs : List Char) : Bool :=
  cfTitlePatterns.any (fun p => searchCI (getTitle cs) p)

/-- `cf_body_hit`. -/
def cfBodyHit (cs : List Char) : Bool :=
  cfBodyPatterns.any (fun p => searchCI cs p)

/-- `captcha_hits`. -/
def captchaHits (cs : List Char) : Nat :=
  captchaPatterns.countP (fun p => searchCI cs p)

/-- `dd_hits`. -/
def ddHits (cs : List Char) : Nat :=
  datadomePatterns.countP (fun p => searchCI cs p)

/-- `px_hits`. -/
def pxHits (cs : List Char) : Nat :=
  perimeterxPatterns.countP (fun p => searchCI cs p)

/-- `ak_hits`. -/
def akHits (cs : List Char) : Nat :=
  akamaiPatterns.countP (fun p => searchCI cs p)

/-- `BlockResult` dataclass. -/
structure BlockResult where
  is_blocked : Bool
  block_type : Option String
  block_reason : Option String
  confidence : Rat
  deriving DecidableEq, Repr

/-- `detect_block(html, url=url, status_code=status_code)`. -/
def detect_block (html : String) (url : String) (statusCode : Int) :
    BlockResult :=
  let cs := html.data
  let wc := wordCountHtml cs
  if (statusCode = 401 ∨ statusCode = 403 ∨ statusCode = 407) ∧ wc < 200 then
    let origin := if url ≠ "" then " from " ++ url else ""
    ⟨true, some "ip_ban",
     some ("HTTP " ++ toString statusCode ++ origin ++
       " with sparse content (" ++ toString wc ++ " words)"), 95 / 100⟩
  else if cfTitleHit cs ∨ cfBodyHit cs then
    ⟨true, some "cloudflare", some "Cloudflare challenge page detected",
     95 / 100⟩
  else if captchaHits cs ≥ 1 then
    ⟨true, some "captcha",
     some ("CAPTCHA widget detected (" ++ toString (captchaHits cs) ++
       " signal(s))"), 90 / 100⟩
  else if ddHits cs ≥ 1 then
    ⟨true, some "datadome",
     some ("DataDome bot protection detected (" ++ toString (ddHits cs) ++
       " signal(s))"), 92 / 100⟩
  else if pxHits cs ≥ 1 then
    ⟨true, some "perimeterx",
     some ("PerimeterX bot protection detected (" ++ toString (pxHits cs) ++
       " signal(s))"), 92 / 100⟩
  else if akHits cs ≥ 1 then
    ⟨true, some "akamai",
     some ("Akamai bot manager detected (" ++ toString (akHits cs) ++
       " signal(s))"), 90 / 100⟩
  else if wc < 30 ∧ countExternalScripts cs > 6 then
    ⟨true, some "soft_block",
     some ("Sparse content (" ++ toString wc ++ " words) with heavy JS load (" ++
       toString (countExternalScripts cs) ++ " external scripts)"), 75 / 100⟩
  else if statusCode = 200 ∧ wc < 20 then
    ⟨true, some "empty",
     some ("HTTP 200 but page has only " ++ toString wc ++ " words"), 80 / 100⟩
  else
    ⟨false, none, none, 1⟩

/-- "Clean" (non-block-triggering) content: contains none of the
signature patterns of any protection system. -/
def cleanContent (s : String) : Bool :=
  (cfBodyPatterns ++ cfTitlePatterns ++ captchaPatterns ++ datadomePatterns ++
    perimeterxPatterns ++ akamaiPatterns).all
    (fun p => !searchCI s.data p)

theorem pyLowerList_append (a b : List Char) :
    pyLowerList (a ++ b) = pyLowerList a ++ pyLowerList b :=
  List.map_append pyLowerChar a b

theorem lowerStartsWith_append (pat l s : List Char)
    (h : lowerStartsWith pat l = true) :
    lowerStartsWith pat (l ++ s) = true := by
  unfold lowerStartsWith at h ⊢
  rw [pyLowerList_append]
  exact List.isPrefixOf_iff_prefix.2
    ((List.isPrefixOf_iff_prefix.1 h).trans (List.prefix_append _ _))

theorem lowerStartsWith_length (pat l : List Char)
    (h : lowerStartsWith pat l = true) : pat.length ≤ l.length := by
  unfold lowerStartsWith at h
  have := (List.isPrefixOf_iff_prefix.1 h).length_le
  simpa [pyLowerList] using this

theorem lowerStartsWith_append_neg (pat l s : List Char)
    (h : lowerStartsWith pat l = false) (hlen : pat.length ≤ l.length) :
    lowerStartsWith pat (l ++ s) = false := by
  unfold lowerStartsWith at h ⊢
  rw [pyLowerList_append]
  by_contra hc
  rw [Bool.not_eq_false] at hc
  have hpre := List.isPrefixOf_iff_prefix.1 hc
  have htake := List.prefix_iff_eq_take.1 hpre
  have hlen2 : pat.length ≤ (pyLowerList l).length := by
    simpa [pyLowerList] using hlen
  rw [List.take_append_of_le_length hlen2] at htake
  have : pat.isPrefixOf (pyLowerList l) = true :=
    List.isPrefixOf_iff_prefix.2 (List.prefix_iff_eq_take.2 htake)
  rw [h] at this
  cases this

theorem splitAtFirst_append (ch : Char) (l s pre post : List Char)
    (h : splitAtFirst ch l = some (pre, post)) :
    splitAtFirst ch (l ++ s) = some (pre, post ++ s) := by
  induction l generalizing pre post with
  | nil => simp [splitAtFirst] at h
  | cons x xs ih =>
      rw [List.cons_append]
      simp only [splitAtFirst] at h ⊢
      by_cases hx : x = ch
      · rw [if_pos hx] at h ⊢
        cases h
        rfl
      · rw [if_neg hx] at h ⊢
        cases hs : splitAtFirst ch xs with
        | none => rw [hs] at h; cases h
        | some pp =>
            rw [hs] at h
            cases pp with
            | mk pre2 post2 =>
                cases h
                rw [ih _ _ hs]

theorem splitAtFirst_eq (ch : Char) (l pre post : List Char)
    (h : splitAtFirst ch l = some (pre, post)) :
    l = pre ++ ch :: post := by
  induction l generalizing pre post with
  | nil => simp [splitAtFirst] at h
  | cons x xs ih =>
      unfold splitAtFirst at h
      by_cases hx : x = ch
      · rw [if_pos hx] at h
        cases h
        rw [hx]
        rfl
      · rw [if_neg hx] at h
        cases hs : splitAtFirst ch xs with
        | none => rw [hs] at h; cases h
        | some pp =>
            rw [hs] at h
            cases pp with
            | mk pre2 post2 =>
                cases h
                simpa using ih _ _ hs

theorem splitAtFirst_isSome_of_mem (ch : Char) (l : List Char)
    (h : ch ∈ l) : (splitAtFirst ch l).isSome := by
  induction l with
  | nil => cases h
  | cons x xs ih =>
      unfold splitAtFirst
      by_cases hx : x = ch
      · rw [if_pos hx]; rfl
      · rw [if_neg hx]
        have hmem : ch ∈ xs := by
          rcases List.mem_cons.1 h with h1 | h1
          · exact absurd h1.symm hx
          · exact h1
        cases hs : splitAtFirst ch xs with
        | none => rw [hs] at ih; exact absurd (ih hmem) (by simp)
        | some pp => cases pp; simp

theorem splitAtFirst_min (ch : Char) (l pre post : List Char)
    (h : splitAtFirst ch l = some (pre, post)) :
    ∀ i, l[i]? = some ch → pre.length ≤ i := by
  induction l generalizing pre post with
  | nil => simp [splitAtFirst] at h
  | cons x xs ih =>
      unfold splitAtFirst at h
      by_cases hx : x = ch
      · rw [if_pos hx] at h
        cases h
        intro i _
        simp
      · rw [if_neg hx] at h
        cases hs : splitAtFirst ch xs with
        | none => rw [hs] at h; cases h
        | some pp =>
            rw [hs] at h
            cases pp with
            | mk pre2 post2 =>
                cases h
                intro i hi
                cases i with
                | zero =>
                    rw [List.getElem?_cons_zero] at hi
                    cases hi
                    exact absurd rfl hx
                | succ j =>
                    rw [List.getElem?_cons_succ] at hi
                    have := ih _ _ hs j hi
                    simp
                    omega

theorem findCloseTitle_length (l g : List Char)
    (h : findCloseTitle l = some g) : 8 ≤ l.length := by
  induction l generalizing g with
  | nil => simp [findCloseTitle] at h
  | cons c rest ih =>
      unfold findCloseTitle at h
      by_cases hp : lowerStartsWith titleClosePat (c :: rest) = true
      · have := lowerStartsWith_length _ _ hp
        simpa [titleClosePat] using this
      · rw [if_neg hp] at h
        cases hs : findCloseTitle rest with
        | none => rw [hs] at h; cases h
        | some g2 =>
            rw [hs] at h
            have := ih _ hs
            simp
            omega

theorem findCloseTitle_append (l s g : List Char)
    (h : findCloseTitle l = some g) :
    findCloseTitle (l ++ s) = some g := by
  induction l generalizing g with
  | nil => simp [findCloseTitle] at h
  | cons c rest ih =>
      rw [List.cons_append]
      simp only [findCloseTitle] at h ⊢
      by_cases hp : lowerStartsWith titleClosePat (c :: rest) = true
      · rw [if_pos hp] at h
        cases h
        rw [if_pos (by
          have := lowerStartsWith_append titleClosePat (c :: rest) s hp
          rw [List.cons_append] at this
          simp [this])]
      · rw [if_neg hp] at h
        cases hs : findCloseTitle rest with
        | none => rw [hs] at h; cases h
        | some g2 =>
            rw [hs] at h
            cases h
            have hlen : titleClosePat.length ≤ (c :: rest).length := by
              have h8 := findCloseTitle_length rest g2 hs
              have hpat : titleClosePat.length = 8 := rfl
              simp only [List.length_cons]
              omega
            rw [if_neg (by
              have := lowerStartsWith_append_neg titleClosePat (c :: rest) s
                (eq_false_of_ne_true hp) hlen
              rw [List.cons_append] at this
              simp [this])]
            rw [ih _ hs]

theorem findCloseTitle_isSome_of_contains (l : List Char)
    (h : containsList (pyLowerList l) titleClosePat = true) :
    (findCloseTitle l).isSome := by
  induction l with
  | nil => simp [pyLowerList, containsList, titleClosePat] at h
  | cons c rest ih =>
      unfold findCloseTitle
      by_cases hp : lowerStartsWith titleClosePat (c :: rest) = true
      · rw [if_pos hp]; rfl
      · rw [if_neg hp]
        have hrest : containsList (pyLowerList rest) titleClosePat = true := by
          simp only [pyLowerList, List.map_cons] at h
          have hshape :
              containsList (pyLowerChar c :: List.map pyLowerChar rest)
                titleClosePat =
              (titleClosePat.isPrefixOf
                (pyLowerChar c :: List.map pyLowerChar rest) ||
                containsList (List.map pyLowerChar rest) titleClosePat) := by
            rfl
          rw [hshape] at h
          rcases Bool.or_eq_true_iff.1 h with h1 | h1
          · exfalso
            apply hp
            unfold lowerStartsWith
            simpa [pyLowerList] using h1
          · simpa [pyLowerList] using h1
        cases hs : findCloseTitle rest with
        | none => rw [hs] at ih; exact absurd (ih hrest) (by simp)
        | some g => simp

theorem findCloseTitle_contains (l g : List Char)
    (h : findCloseTitle l = some g) :
    containsList (pyLowerList l) titleClosePat = true := by
  induction l generalizing g with
  | nil => simp [findCloseTitle] at h
  | cons c rest ih =>
      unfold findCloseTitle at h
      have hshape :
          containsList (pyLowerList (c :: rest)) titleClosePat =
          (titleClosePat.isPrefixOf (pyLowerList (c :: rest)) ||
            containsList (pyLowerList rest) titleClosePat) := by
        rfl
      rw [hshape]
      by_cases hp : lowerStartsWith titleClosePat (c :: rest) = true
      · unfold lowerStartsWith at hp
        rw [hp]
        rfl
      · rw [if_neg hp] at h
        cases hs : findCloseTitle rest with
        | none => rw [hs] at h; cases h
        | some g2 =>
            rw [ih _ hs]
            simp

theorem containsList_prepend (y xs pat : List Char)
    (h : containsList xs pat = true) :
    containsList (y ++ xs) pat = true := by
  induction y with
  | nil => exact h
  | cons c cs ih =>
      cases pat with
      | nil => exact containsList_nil _
      | cons p ps =>
          show (List.isPrefixOf _ _ || containsList (cs ++ xs) (p :: ps)) = true
          rw [ih]
          simp

theorem matchTitleAt_some (l g : List Char) (h : matchTitleAt l = some g) :
    lowerStartsWith titleOpenPat l = true ∧
    ∃ pre post, splitAtFirst '>' (l.drop 6) = some (pre, post) ∧
      findCloseTitle post = some g := by
  unfold matchTitleAt at h
  by_cases hp : lowerStartsWith titleOpenPat l = true
  · rw [if_pos hp] at h
    cases hs : splitAtFirst '>' (l.drop 6) with
    | none => rw [hs] at h; cases h
    | some pp =>
        rw [hs] at h
        cases pp with
        | mk pre post =>
            dsimp only at h
            exact ⟨hp, pre, post, rfl, h⟩
  · rw [if_neg hp] at h
    cases h

theorem titleOpenPat_length : titleOpenPat.length = 6 := rfl

theorem matchTitleAt_append (l s g : List Char)
    (h : matchTitleAt l = some g) : matchTitleAt (l ++ s) = some g := by
  obtain ⟨hp, pre, post, hs, hc⟩ := matchTitleAt_some l g h
  have h6 : 6 ≤ l.length := titleOpenPat_length ▸ lowerStartsWith_length _ _ hp
  unfold matchTitleAt
  rw [if_pos (lowerStartsWith_append _ _ _ hp),
    List.drop_append_of_le_length h6, splitAtFirst_append _ _ _ _ _ hs]
  exact findCloseTitle_append _ _ _ hc

theorem matchTitleAt_length (l g : List Char) (h : matchTitleAt l = some g) :
    15 ≤ l.length := by
  obtain ⟨hp, pre, post, hs, hc⟩ := matchTitleAt_some l g h
  have h6 : 6 ≤ l.length := titleOpenPat_length ▸ lowerStartsWith_length _ _ hp
  have heq := splitAtFirst_eq _ _ _ _ hs
  have hlen : (l.drop 6).length = pre.length + 1 + post.length := by
    rw [heq]
    simp only [List.length_append, List.length_cons]
    omega
  have h8 := findCloseTitle_length _ _ hc
  have hdl : (l.drop 6).length = l.length - 6 := List.length_drop 6 l
  omega

theorem findTitle_exists (l g : List Char) (h : findTitle l = some g) :
    ∃ j, matchTitleAt (l.drop j) = some g := by
  induction l with
  | nil => simp [findTitle] at h
  | cons c rest ih =>
      unfold findTitle at h
      cases hm : matchTitleAt (c :: rest) with
      | some g0 =>
          rw [hm] at h
          cases h
          exact ⟨0, hm⟩
      | none =>
          rw [hm] at h
          dsimp only at h
          obtain ⟨j, hj⟩ := ih h
          exact ⟨j + 1, by simpa using hj⟩

theorem findTitle_length (l g : List Char) (h : findTitle l = some g) :
    15 ≤ l.length := by
  obtain ⟨j, hj⟩ := findTitle_exists l g h
  have := matchTitleAt_length _ _ hj
  have hdl : (l.drop j).length = l.length - j := List.length_drop j l
  omega

theorem mem_drop_of_le {α : Type} (l : List α) (a : α) (i j : Nat)
    (hij : i ≤ j) (h : a ∈ l.drop j) : a ∈ l.drop i := by
  have hd : (l.drop i).drop (j - i) = l.drop j := by
    rw [List.drop_drop]
    congr 1
    omega
  rw [← hd] at h
  exact List.mem_of_mem_drop h

theorem containsList_drop_of_le (l pat : List Char) (i j : Nat) (hij : i ≤ j)
    (h : containsList (pyLowerList (l.drop j)) pat = true) :
    containsList (pyLowerList (l.drop i)) pat = true := by
  have hd : (l.drop i).drop (j - i) = l.drop j := by
    rw [List.drop_drop]
    congr 1
    omega
  have hdec : l.drop i = (l.drop i).take (j - i) ++ l.drop j := by
    rw [← hd, List.take_append_drop]
  rw [hdec, pyLowerList_append]
  exact containsList_prepend _ _ _ h

theorem findTitle_append (l s g : List Char) (h : findTitle l = some g) :
    findTitle (l ++ s) = some g := by
  induction l with
  | nil => simp [findTitle] at h
  | cons c rest ih =>
      rw [List.cons_append]
      unfold findTitle at h ⊢
      cases hm : matchTitleAt (c :: rest) with
      | some g0 =>
          rw [hm] at h
          cases h
          have hap := matchTitleAt_append (c :: rest) s _ hm
          rw [List.cons_append] at hap
          rw [hap]
      | none =>
          rw [hm] at h
          dsimp only at h
          have hnone : matchTitleAt (c :: (rest ++ s)) = none := by
            by_cases hp : lowerStartsWith titleOpenPat (c :: rest) = true
            · exfalso
              obtain ⟨j, hj⟩ := findTitle_exists rest g h
              obtain ⟨hpU, preU, postU, hsU, hcU⟩ := matchTitleAt_some _ _ hj
              have hUeq := splitAtFirst_eq _ _ _ _ hsU
              have hUdrop : (rest.drop j).drop 6 = rest.drop (j + 6) :=
                List.drop_drop 6 j rest
              have hUeq' : rest.drop (j + 6) = preU ++ '>' :: postU := by
                rw [← hUdrop]
                exact hUeq
              -- the tail of rest from the later match's own '>'
              have hdropEq : rest.drop (j + 6 + preU.length) =
                  '>' :: postU := by
                have h1 := congrArg (List.drop preU.length) hUeq'
                rw [List.drop_drop, List.drop_left] at h1
                exact h1
              have hgtmem : ('>' : Char) ∈ rest.drop 5 := by
                have hmem : ('>' : Char) ∈ rest.drop (j + 6 + preU.length) :=
                  by rw [hdropEq]; exact List.mem_cons_self _ _
                exact mem_drop_of_le rest '>' 5 (j + 6 + preU.length)
                  (by omega) hmem
              have hd56 : (c :: rest).drop 6 = rest.drop 5 := rfl
              have hsplit0 :=
                splitAtFirst_isSome_of_mem '>' (rest.drop 5) hgtmem
              cases hs0 : splitAtFirst '>' (rest.drop 5) with
              | none => rw [hs0] at hsplit0; cases hsplit0
              | some pp =>
                  cases pp with
                  | mk pre0 post0 =>
                      -- minimality: pre0 ends before the later match's '>'
                      have h5 : (rest.drop 5).drop (j + 1 + preU.length) =
                          '>' :: postU := by
                        rw [List.drop_drop]
                        have harith : 5 + (j + 1 + preU.length) =
                            j + 6 + preU.length := by omega
                        rw [harith]
                        exact hdropEq
                      have hgt : (rest.drop 5)[j + 1 + preU.length]? =
                          some '>' := by
                        have h6 := congrArg (fun l : List Char => l[0]?) h5
                        simp only [List.getElem?_drop] at h6
                        simpa using h6
                      have hmin := splitAtFirst_min '>' (rest.drop 5) pre0
                        post0 hs0 (j + 1 + preU.length) hgt
                      -- express post0 and postU as drops of rest
                      have h0eq := splitAtFirst_eq _ _ _ _ hs0
                      have hpost0 : post0 = rest.drop (pre0.length + 6) := by
                        have h1 := congrArg (List.drop (pre0.length + 1)) h0eq
                        rw [List.drop_drop] at h1
                        have h2 : pre0 ++ '>' :: post0 =
                            (pre0 ++ ['>']) ++ post0 := by simp
                        rw [h2, List.drop_left' (by simp)] at h1
                        rw [← h1]
                        congr 1
                        omega
                      have hpostU : postU =
                          rest.drop (j + preU.length + 7) := by
                        have h1 := congrArg (List.drop (preU.length + 1)) hUeq'
                        rw [List.drop_drop] at h1
                        have h2 : preU ++ '>' :: postU =
                            (preU ++ ['>']) ++ postU := by simp
                        rw [h2, List.drop_left' (by simp)] at h1
                        rw [← h1]
                        congr 1
                        omega
                      -- the close-title occurrence of the later match lies
                      -- inside post0
                      have hcont := findCloseTitle_contains postU g hcU
                      rw [hpostU] at hcont
                      have hcont0 : containsList (pyLowerList post0)
                          titleClosePat = true := by
                        rw [hpost0]
                        exact containsList_drop_of_le rest titleClosePat
                          (pre0.length + 6) (j + preU.length + 7)
                          (by omega) hcont
                      have hsome := findCloseTitle_isSome_of_contains post0
                        hcont0
                      cases hg0 : findCloseTitle post0 with
                      | none => rw [hg0] at hsome; cases hsome
                      | some g0 =>
                          -- so matchTitleAt (c :: rest) succeeds: contradiction
                          unfold matchTitleAt at hm
                          rw [if_pos hp,
                            show (c :: rest).drop 6 = rest.drop 5 from rfl,
                            hs0] at hm
                          dsimp only at hm
                          rw [hg0] at hm
                          cases hm
            · have hlen15 := findTitle_length rest g h
              have hlen : titleOpenPat.length ≤ (c :: rest).length := by
                rw [titleOpenPat_length]
                simp only [List.length_cons]
                omega
              have := lowerStartsWith_append_neg titleOpenPat (c :: rest) s
                (eq_false_of_ne_true hp) hlen
              rw [List.cons_append] at this
              unfold matchTitleAt
              rw [if_neg (by simp [this])]
          rw [hnone]
          dsimp only
          exact ih h

theorem searchCI_append (cs s : List Char) (p : String)
    (h : searchCI cs p = true) : searchCI (cs ++ s) p = true := by
  unfold searchCI at h ⊢
  rw [pyLowerList_append]
  exact containsList_append _ _ _ h

theorem getTitle_append (cs s g : List Char) (h : findTitle cs = some g) :
    getTitle (cs ++ s) = getTitle cs := by
  unfold getTitle
  rw [h, findTitle_append cs s g h]

theorem cfTitleHit_append (cs s : List Char) (h : cfTitleHit cs = true) :
    cfTitleHit (cs ++ s) = true := by
  cases hf : findTitle cs with
  | none =>
      exfalso
      unfold cfTitleHit at h
      unfold getTitle at h
      rw [hf] at h
      dsimp only at h
      revert h
      decide
  | some g =>
      unfold cfTitleHit at h ⊢
      rw [getTitle_append cs s g hf]
      exact h

theorem cfBodyHit_append (cs s : List Char) (h : cfBodyHit cs = true) :
    cfBodyHit (cs ++ s) = true := by
  unfold cfBodyHit at h ⊢
  obtain ⟨p, hp, hc⟩ := List.any_eq_true.1 h
  exact List.any_eq_true.2 ⟨p, hp, searchCI_append _ _ _ hc⟩

theorem countHits_append (pats : List String) (cs s : List Char)
    (h : 1 ≤ pats.countP (fun p => searchCI cs p)) :
    1 ≤ pats.countP (fun p => searchCI (cs ++ s) p) := by
  have h1 : 0 < pats.countP (fun p => searchCI cs p) := h
  obtain ⟨p, hp, hc⟩ := List.countP_pos_iff.1 h1
  exact List.countP_pos_iff.2 ⟨p, hp, searchCI_append _ _ _ hc⟩

/-- The signature-based hit predicates of `detect_block` (priorities
2-6). -/
def anySignatureHit (cs : List Char) : Prop :=
  cfTitleHit cs = true ∨ cfBodyHit cs = true ∨ 1 ≤ captchaHits cs ∨
  1 ≤ ddHits cs ∨ 1 ≤ pxHits cs ∨ 1 ≤ akHits cs

theorem blocked_of_hits (html url : String) (c : Int)
    (h : anySignatureHit html.data) :
    (detect_block html url c).is_blocked = true := by
  unfold detect_block
  dsimp only
  by_cases h1 : (c = 401 ∨ c = 403 ∨ c = 407) ∧ wordCountHtml html.data < 200
  · rw [if_pos h1]
  · rw [if_neg h1]
    by_cases h2 : cfTitleHit html.data = true ∨ cfBodyHit html.data = true
    · rw [if_pos h2]
    · rw [if_neg h2]
      by_cases h3 : captchaHits html.data ≥ 1
      · rw [if_pos h3]
      · rw [if_neg h3]
        by_cases h4 : ddHits html.data ≥ 1
        · rw [if_pos h4]
        · rw [if_neg h4]
          by_cases h5 : pxHits html.data ≥ 1
          · rw [if_pos h5]
          · rw [if_neg h5]
            by_cases h6 : akHits html.data ≥ 1
            · rw [if_pos h6]
            · exfalso
              rcases h with h | h | h | h | h | h
              · exact h2 (Or.inl h)
              · exact h2 (Or.inr h)
              · exact h3 h
              · exact h4 h
              · exact h5 h
              · exact h6 h

theorem blockType_signature_hits (html url : String) (c : Int) (t : String)
    (htype : (detect_block html url c).block_type = some t)
    (hsig : t = "cloudflare" ∨ t = "captcha" ∨ t = "datadome" ∨
      t = "perimeterx" ∨ t = "akamai") :
    anySignatureHit html.data := by
  unfold detect_block at htype
  dsimp only at htype
  by_cases h1 : (c = 401 ∨ c = 403 ∨ c = 407) ∧ wordCountHtml html.data < 200
  · rw [if_pos h1] at htype
    dsimp only at htype
    rw [Option.some.injEq] at htype
    subst htype
    rcases hsig with h | h | h | h | h <;> exact absurd h (by decide)
  · rw [if_neg h1] at htype
    by_cases h2 : cfTitleHit html.data = true ∨ cfBodyHit html.data = true
    · rcases h2 with h | h
      · exact Or.inl h
      · exact Or.inr (Or.inl h)
    · rw [if_neg h2] at htype
      by_cases h3 : captchaHits html.data ≥ 1
      · exact Or.inr (Or.inr (Or.inl h3))
      · rw [if_neg h3] at htype
        by_cases h4 : ddHits html.data ≥ 1
        · exact Or.inr (Or.inr (Or.inr (Or.inl h4)))
        · rw [if_neg h4] at htype
          by_cases h5 : pxHits html.data ≥ 1
          · exact Or.inr (Or.inr (Or.inr (Or.inr (Or.inl h5))))
          · rw [if_neg h5] at htype
            by_cases h6 : akHits html.data ≥ 1
            · exact Or.inr (Or.inr (Or.inr (Or.inr (Or.inr h6))))
            · rw [if_neg h6] at htype
              by_cases h7 : wordCountHtml html.data < 30 ∧
                  countExternalScripts html.data > 6
              · rw [if_pos h7] at htype
                dsimp only at htype
                rw [Option.some.injEq] at htype
                subst htype
                rcases hsig with h | h | h | h | h <;>
                  exact absurd h (by decide)
              · rw [if_neg h7] at htype
                by_cases h8 : c = 200 ∧ wordCountHtml html.data < 20
                · rw [if_pos h8] at htype
                  dsimp only at htype
                  rw [Option.some.injEq] at htype
                  subst htype
                  rcases hsig with h | h | h | h | h <;>
                    exact absurd h (by decide)
                · rw [if_neg h8] at htype
                  dsimp only at htype
                  exact absurd htype (by simp)

/-- **C3 (amended).**  The block detector is monotone under appending
clean content **for the signature-based block types**: if
`detect_block(H, status_code=c)` is blocked with `block_type` one of
`cloudflare`, `captcha`, `datadome`, `perimeterx`, `akamai`, then
`detect_block(H ++ S, status_code=c)` is still blocked for every clean
suffix `S`.  (The word-count-based types `ip_ban`, `soft_block`, `empty`
are not monotone — see the counterexample.) -/
theorem detect_block_signature_monotone (H S url : String) (c : Int)
    (t : String)
    (_hclean : cleanContent S = true)
    (htype : (detect_block H url c).block_type = some t)
    (hsig : t = "cloudflare" ∨ t = "captcha" ∨ t = "datadome" ∨
      t = "perimeterx" ∨ t = "akamai") :
    (detect_block (H ++ S) url c).is_blocked = true := by
  have hhits := blockType_signature_hits H url c t htype hsig
  apply blocked_of_hits
  have hdata : (H ++ S).data = H.data ++ S.data := rfl
  rw [hdata]
  rcases hhits with h | h | h | h | h | h
  · exact Or.inl (cfTitleHit_append _ _ h)
  · exact Or.inr (Or.inl (cfBodyHit_append _ _ h))
  · exact Or.inr (Or.inr (Or.inl (countHits_append _ _ _ h)))
  · exact Or.inr (Or.inr (Or.inr (Or.inl (countHits_append _ _ _ h))))
  · exact Or.inr (Or.inr (Or.inr (Or.inr (Or.inl
      (countHits_append _ _ _ h)))))
  · exact Or.inr (Or.inr (Or.inr (Or.inr (Or.inr
      (countHits_append _ _ _ h)))))

/-- Twenty words of clean content. -/
def twentyWords : String := "a b c d e f g h i j k l m n o p q r s t"

/-- **C3 (counterexample).**  The claim as stated is false: the empty
page is blocked (`block_type="empty"`, HTTP 200 with < 20 words), but
appending twenty words of clean (non-block-triggering) content makes
`detect_block` return not-blocked. -/
theorem detect_block_monotonicity_counterexample :
    cleanContent twentyWords = true ∧
    (detect_block "" "" 200).is_blocked = true ∧
    (detect_block ("" ++ twentyWords) "" 200).is_blocked = false := by
  refine ⟨by decide, by decide, by decide⟩

/-- Concrete instantiation of the C3 (amended) theorem: a Cloudflare
`cf-ray` fingerprint stays blocked after appending clean words. -/
theorem detect_block_signature_monotone_witness :
    cleanContent " and more words" = true ∧
    (detect_block "cf-ray" "" 200).block_type = some "cloudflare" ∧
    (detect_block ("cf-ray" ++ " and more words") "" 200).is_blocked =
      true :=
  ⟨by decide, by decide,
   detect_block_signature_monotone "cf-ray" " and more words" "" 200
     "cloudflare" (by decide) (by decide) (Or.inl rfl)⟩

/-! # C4 / C10: `urlnorm.normalize_url` (urlnorm.py lines 90-139)

`normalize_url` leans on `urllib.parse` (`urlparse`, `urlunparse`,
`parse_qs`, `urlencode`).  Those are embedded below from CPython 3.11's
`urllib/parse.py`, over `List Char` (one entry per code point, as in a
Python `str`).  Machine-checked against the source:

* `urlsplit` removes `\t`, `\r`, `\n`; detects a scheme (first `:` with a
  leading ASCII letter and only scheme characters before it, lowercased);
  takes the netloc after a leading `//` up to the first `/`, `?` or `#`;
  raises `ValueError` on a mismatched `[`/`]` in the netloc; splits the
  fragment at the first `#`, then the query at the first `?`.
  Two further validations can raise on exotic netlocs
  (`_check_bracketed_host` for bracketed hosts and `_checknetloc`'s NFKC
  check for non-ASCII netlocs); they are abstracted as an `extraReject`
  parameter so every theorem holds for every behaviour of those checks
  (`extraReject = noReject` is exact for ASCII bracket-free netlocs).
* `urlparse` additionally splits `;params` off the path when the scheme
  uses params.
* `int(port_str)` accepts surrounding whitespace, a sign and ASCII digits
  with single underscores strictly between digits (Python also accepts
  non-ASCII decimal digits; ports are ASCII here, where the model is
  exact).
* `parse_qs(.., keep_blank_values=True)` / `urlencode(.., doseq=True)`
  with UTF-8 `quote_plus` / `unquote`; the `errors='replace'` decoder is
  the one-byte-per-step streaming UTF-8 decoder (maximal invalid
  subparts become U+FFFD, as in CPython).

All definitions were differentially tested against CPython 3.11.6 on
700 random URL-like inputs with no divergence. -/

/-- The `_UNSAFE_URL_BYTES_TO_REMOVE` loop of `urlsplit`: every tab, CR
and LF is removed. -/
def removeTabCrLf (l : List Char) : List Char :=
  l.filter (fun c => ¬(c = '\t' ∨ c = '\r' ∨ c = '\n'))

def isAsciiAlpha (c : Char) : Bool :=
  ('A' ≤ c ∧ c ≤ 'Z') ∨ ('a' ≤ c ∧ c ≤ 'z')

def isAsciiDigit (c : Char) : Bool := '0' ≤ c ∧ c ≤ '9'

/-- `scheme_chars` from urllib.parse. -/
def isSchemeChar (c : Char) : Bool :=
  isAsciiAlpha c ∨ isAsciiDigit c ∨ c = '+' ∨ c = '-' ∨ c = '.'

/-- The scheme-detection step of `urlsplit`: `i = url.find(':')`; a
scheme is split off iff `i > 0`, `url[0]` is an ASCII letter and all of
`url[:i]` are scheme characters; the scheme is lowercased and the rest
is `url[i+1:]`. -/
def schemeSplit (url : List Char) : List Char × List Char :=
  match splitAtFirst ':' url with
  | none => ([], url)
  | some (pre, post) =>
      match pre with
      | [] => ([], url)
      | c :: rest =>
          if isAsciiAlpha c ∧ (c :: rest).all isSchemeChar then
            (pyLowerList (c :: rest), post)
          else ([], url)

def isNetlocDelim (c : Char) : Bool := c = '/' ∨ c = '?' ∨ c = '#'

/-- `_splitnetloc(url, 2)` applied to `url[2:]`: the netloc runs to the
first of `/`, `?`, `#`. -/
def splitnetloc (url : List Char) : List Char × List Char :=
  (url.takeWhile (fun c => ¬isNetlocDelim c),
   url.dropWhile (fun c => ¬isNetlocDelim c))

/-- `if ch in url: url, part = url.split(ch, 1)` (used for `#` and `?`
in `urlsplit`). -/
def splitOnceIfPresent (ch : Char) (l : List Char) : List Char × List Char :=
  if ch ∈ l then
    match splitAtFirst ch l with
    | some pr => pr
    | none => (l, [])
  else (l, [])

structure SplitResult where
  scheme : List Char
  netloc : List Char
  path : List Char
  query : List Char
  fragment : List Char
deriving Repr, DecidableEq

/-- The splitting work of `urlsplit`: byte removal, scheme, netloc
(after a leading `//`), fragment, query. -/
def urlsplitStages (url0 : List Char) : SplitResult :=
  let sp := schemeSplit (removeTabCrLf url0)
  let np := if sp.2.take 2 = ['/', '/'] then splitnetloc (sp.2.drop 2)
            else ([], sp.2)
  let fp := splitOnceIfPresent '#' np.2
  let qp := splitOnceIfPresent '?' fp.1
  ⟨sp.1, np.1, qp.1, qp.2, fp.2⟩

/-- `urlsplit(url)`; `.error ()` models a raised `ValueError`.  The two
raise points test only the netloc, which the fragment/query splits that
follow them in the Python source do not touch, so hoisting the splits
into `urlsplitStages` preserves the function. -/
def urlsplitE (extraReject : List Char → Bool) (url0 : List Char) :
    Except Unit SplitResult :=
  let s := urlsplitStages url0
  if ('[' ∈ s.netloc ∧ ']' ∉ s.netloc) ∨ (']' ∈ s.netloc ∧ '[' ∉ s.netloc) then
    .error ()
  else if extraReject s.netloc then .error ()
  else .ok s

/-- Split at the last occurrence of `c` (the found cases of
`rpartition` and `rfind`). -/
def splitAtLast (c : Char) (l : List Char) : Option (List Char × List Char) :=
  match splitAtFirst c l.reverse with
  | none => none
  | some (rpost, rpre) => some (rpre.reverse, rpost.reverse)

/-- `_splitparams(url)`: if the path has a `/`, the params start at the
first `;` at-or-after the last `/` (none means no params); otherwise at
the first `;`.  Only called with `';' ∈ url`, making the `none` arms
unreachable. -/
def splitparams (url : List Char) : List Char × List Char :=
  if '/' ∈ url then
    match splitAtLast '/' url with
    | none => (url, [])
    | some (a, b) =>
        match splitAtFirst ';' b with
        | none => (url, [])
        | some (b1, b2) => (a ++ '/' :: b1, b2)
  else
    match splitAtFirst ';' url with
    | none => (url, [])
    | some (u1, u2) => (u1, u2)

/-- `uses_params` from urllib.parse. -/
def uses_paramsL : List (List Char) :=
  ["".data, "ftp".data, "hdl".data, "prospero".data, "http".data, "imap".data,
   "https".data, "shttp".data, "rtsp".data, "rtspu".data, "sip".data,
   "sips".data, "mms".data, "sftp".data, "tel".data]

/-- `uses_netloc` from urllib.parse. -/
def uses_netlocL : List (List Char) :=
  ["".data, "ftp".data, "http".data, "gopher".data, "nntp".data,
   "telnet".data, "imap".data, "wais".data, "file".data, "mms".data,
   "https".data, "shttp".data, "snews".data, "prospero".data, "rtsp".data,
   "rtspu".data, "rsync".data, "svn".data, "svn+ssh".data, "sftp".data,
   "nfs".data, "git".data, "git+ssh".data, "ws".data, "wss".data]

structure UrlParseResult where
  scheme : List Char
  netloc : List Char
  path : List Char
  params : List Char
  query : List Char
  fragment : List Char
deriving Repr, DecidableEq

/-- The params split of `urlparse`, which happens iff the scheme uses
params and the path contains `;`. -/
def urlparseStages (s : SplitResult) : UrlParseResult :=
  if s.scheme ∈ uses_paramsL ∧ ';' ∈ s.path then
    let pp := splitparams s.path
    ⟨s.scheme, s.netloc, pp.1, pp.2, s.query, s.fragment⟩
  else ⟨s.scheme, s.netloc, s.path, [], s.query, s.fragment⟩

/-- `urlparse(url)`: `urlsplit` plus the params split. -/
def urlparseE (extraReject : List Char → Bool) (url : List Char) :
    Except Unit UrlParseResult :=
  match urlsplitE extraReject url with
  | .error e => .error e
  | .ok s => .ok (urlparseStages s)

/-- `urlunsplit` (CPython 3.11): the `//` marker is written iff the
netloc is non-empty, or the scheme is a `uses_netloc` scheme and the
path does not already start with `//`. -/
def urlunsplit (scheme netloc path query fragment : List Char) : List Char :=
  let url :=
    if netloc ≠ [] ∨
        (scheme ≠ [] ∧ scheme ∈ uses_netlocL ∧ path.take 2 ≠ ['/', '/']) then
      '/' :: '/' ::
        (netloc ++ (if path ≠ [] ∧ path.take 1 ≠ ['/'] then '/' :: path else path))
    else path
  let url2 := if scheme ≠ [] then scheme ++ ':' :: url else url
  let url3 := if query ≠ [] then url2 ++ '?' :: query else url2
  if fragment ≠ [] then url3 ++ '#' :: fragment else url3

def urlunparse (scheme netloc path params query fragment : List Char) : List Char :=
  urlunsplit scheme netloc
    (if params ≠ [] then path ++ ';' :: params else path) query fragment

def digitVal (c : Char) : Nat := c.toNat - '0'.toNat

/-- Digit tail of `int(s)`: ASCII digits with single underscores
strictly between digits. -/
def pyIntDigits : Nat → List Char → Option Nat
  | acc, [] => some acc
  | _, ['_'] => none
  | acc, '_' :: c :: rest =>
      if isAsciiDigit c then pyIntDigits (acc * 10 + digitVal c) rest else none
  | acc, c :: rest =>
      if isAsciiDigit c then pyIntDigits (acc * 10 + digitVal c) rest else none

/-- `int(s)` for a decimal string (`none` models `ValueError`):
surrounding whitespace, an optional sign, then digits. -/
def pyInt? (l : List Char) : Option Int :=
  match pyStripList l with
  | [] => none
  | '+' :: rest =>
      match rest with
      | [] => none
      | c :: _ =>
          if isAsciiDigit c then (pyIntDigits 0 rest).map (fun n => (n : Int))
          else none
  | '-' :: rest =>
      match rest with
      | [] => none
      | c :: _ =>
          if isAsciiDigit c then (pyIntDigits 0 rest).map (fun n => -(n : Int))
          else none
  | c :: rest =>
      if isAsciiDigit c then (pyIntDigits 0 (c :: rest)).map (fun n => (n : Int))
      else none

/-- `_DEFAULT_PORTS.get(scheme)` (urlnorm.py line 44). -/
def defaultPorts (scheme : List Char) : Option Int :=
  if scheme = "http".data then some 80
  else if scheme = "https".data then some 443
  else if scheme = "ftp".data then some 21
  else none

/-- The default-port strip of `normalize_url` (urlnorm.py lines 109-116):
`host, _, port_str = netloc.rpartition(":")`, and the port is dropped iff
`int(port_str)` succeeds and equals the scheme's default port. -/
def stripDefaultPort (scheme netloc : List Char) : List Char :=
  if ':' ∈ netloc then
    match splitAtLast ':' netloc with
    | none => netloc
    | some (host, portStr) =>
        match pyInt? portStr with
        | none => netloc
        | some port => if defaultPorts scheme = some port then host else netloc
  else netloc

/-- `_ALWAYS_SAFE`: ASCII letters, digits and `_.-~`. -/
def isAlwaysSafe (c : Char) : Bool :=
  isAsciiAlpha c ∨ isAsciiDigit c ∨ c = '_' ∨ c = '.' ∨ c = '-' ∨ c = '~'

def hexDigitUpper (n : Nat) : Char :=
  if n < 10 then Char.ofNat ('0'.toNat + n) else Char.ofNat ('A'.toNat + (n - 10))

/-- UTF-8 bytes of one scalar value (a Lean `Char` is a scalar value, so
encoding never fails, matching `str.encode('utf-8')` on the
surrogate-free strings modelled here). -/
def utf8EncodeChar (c : Char) : List Nat :=
  let n := c.toNat
  if n < 0x80 then [n]
  else if n < 0x800 then [0xC0 + n / 0x40, 0x80 + n % 0x40]
  else if n < 0x10000 then
    [0xE0 + n / 0x1000, 0x80 + (n / 0x40) % 0x40, 0x80 + n % 0x40]
  else
    [0xF0 + n / 0x40000, 0x80 + (n / 0x1000) % 0x40, 0x80 + (n / 0x40) % 0x40,
     0x80 + n % 0x40]

def utf8Encode : List Char → List Nat
  | [] => []
  | c :: rest => utf8EncodeChar c ++ utf8Encode rest

structure Utf8State where
  needed : Nat
  acc : Nat
  lo : Nat
  hi : Nat
deriving Repr, DecidableEq

def utf8Init : Utf8State := ⟨0, 0, 0x80, 0xBF⟩

def replacementChar : Char := Char.ofNat 0xFFFD

/-- Leading-byte classification of the streaming UTF-8 decoder (the
bounds `lo`/`hi` restrict the next continuation byte exactly as the
valid-sequence table does, excluding overlong forms and surrogates). -/
def utf8Step1 (b : Nat) : Utf8State × List Char :=
  if b ≤ 0x7F then (utf8Init, [Char.ofNat b])
  else if 0xC2 ≤ b ∧ b ≤ 0xDF then (⟨1, b - 0xC0, 0x80, 0xBF⟩, [])
  else if b = 0xE0 then (⟨2, 0, 0xA0, 0xBF⟩, [])
  else if b = 0xED then (⟨2, 0xD, 0x80, 0x9F⟩, [])
  else if 0xE1 ≤ b ∧ b ≤ 0xEF then (⟨2, b - 0xE0, 0x80, 0xBF⟩, [])
  else if b = 0xF0 then (⟨3, 0, 0x90, 0xBF⟩, [])
  else if b = 0xF4 then (⟨3, 4, 0x80, 0x8F⟩, [])
  else if 0xF1 ≤ b ∧ b ≤ 0xF3 then (⟨3, b - 0xF0, 0x80, 0xBF⟩, [])
  else (utf8Init, [replacementChar])

/-- One byte of `bytes.decode('utf-8', errors='replace')`: an invalid
continuation byte closes the current (maximal invalid) subpart with one
U+FFFD and is reprocessed as a leading byte. -/
def utf8Step (st : Utf8State) (b : Nat) : Utf8State × List Char :=
  if st.needed = 0 then utf8Step1 b
  else if st.lo ≤ b ∧ b ≤ st.hi then
    let acc2 := st.acc * 0x40 + (b - 0x80)
    if st.needed = 1 then (utf8Init, [Char.ofNat acc2])
    else (⟨st.needed - 1, acc2, 0x80, 0xBF⟩, [])
  else
    let r := utf8Step1 b
    (r.1, replacementChar :: r.2)

def utf8DecodeLoop : Utf8State → List Nat → List Char
  | st, [] => if st.needed = 0 then [] else [replacementChar]
  | st, b :: bs =>
      let r := utf8Step st b
      r.2 ++ utf8DecodeLoop r.1 bs

def utf8Decode (bs : List Nat) : List Char := utf8DecodeLoop utf8Init bs

def isHexDigit (c : Char) : Bool :=
  isAsciiDigit c ∨ ('A' ≤ c ∧ c ≤ 'F') ∨ ('a' ≤ c ∧ c ≤ 'f')

def hexVal (c : Char) : Nat :=
  if isAsciiDigit c then c.toNat - '0'.toNat
  else if 'A' ≤ c ∧ c ≤ 'F' then c.toNat - 'A'.toNat + 10
  else c.toNat - 'a'.toNat + 10

/-- `unquote_to_bytes` on one ASCII chunk: `%XX` with two hex digits
becomes the byte `XX`, any other character (including a `%` not followed
by two hex digits) passes through as its own code. -/
def percentDecodeBytes : List Char → List Nat
  | [] => []
  | c :: rest =>
      if c = '%' then
        match rest with
        | h1 :: h2 :: rest2 =>
            if isHexDigit h1 ∧ isHexDigit h2 then
              (hexVal h1 * 16 + hexVal h2) :: percentDecodeBytes rest2
            else c.toNat :: percentDecodeBytes (h1 :: h2 :: rest2)
        | r => c.toNat :: percentDecodeBytes r
      else c.toNat :: percentDecodeBytes rest

def isAsciiChar (c : Char) : Bool := c.toNat ≤ 0x7F

/-- The `_asciire` chunking of `unquote`: maximal ASCII runs are
percent-decoded and UTF-8-decoded; non-ASCII characters pass through.
Fuel is the input length (each step consumes at least one character). -/
def unquoteRuns : Nat → List Char → List Char
  | 0, _ => []
  | _, [] => []
  | fuel + 1, c :: rest =>
      if isAsciiChar c then
        utf8Decode (percentDecodeBytes ((c :: rest).takeWhile isAsciiChar)) ++
          unquoteRuns fuel ((c :: rest).dropWhile isAsciiChar)
      else c :: unquoteRuns fuel rest

/-- `unquote(string, errors='replace')`. -/
def unquoteList (l : List Char) : List Char :=
  if '%' ∈ l then unquoteRuns l.length l else l

/-- One byte of `quote_from_bytes`: pass through iff in
`_ALWAYS_SAFE ∪ safe`, else `%XX` upper-case (the `safe` argument is
ASCII at the call sites modelled, so bytes ≥ 0x80 are never safe). -/
def quoteByte (safe : List Char) (b : Nat) : List Char :=
  if b ≤ 0x7F ∧ (isAlwaysSafe (Char.ofNat b) ∨ Char.ofNat b ∈ safe) then
    [Char.ofNat b]
  else ['%', hexDigitUpper (b / 16), hexDigitUpper (b % 16)]

def quoteBytes (safe : List Char) : List Nat → List Char
  | [] => []
  | b :: bs => quoteByte safe b ++ quoteBytes safe bs

/-- `quote(s, safe)` with UTF-8 encoding. -/
def quoteL (safe : List Char) (s : List Char) : List Char :=
  quoteBytes safe (utf8Encode s)

/-- `quote_plus(s)`: if `s` contains a space, quote with space safe and
then turn the (only surviving) spaces into `+`. -/
def quotePlus (s : List Char) : List Char :=
  if ' ' ∈ s then
    (quoteL [' '] s).map (fun c => if c = ' ' then '+' else c)
  else quoteL [] s

/-- The `doseq=True` loop of `urlencode` for `str`-list values. -/
def urlencodeDoseq : List (List Char × List (List Char)) → List (List Char)
  | [] => []
  | (k, vs) :: rest =>
      vs.map (fun v => quotePlus k ++ '=' :: quotePlus v) ++ urlencodeDoseq rest

def urlencodeQS (pairs : List (List Char × List (List Char))) : List Char :=
  List.intercalate ['&'] (urlencodeDoseq pairs)

def plusToSpace (l : List Char) : List Char :=
  l.map (fun c => if c = '+' then ' ' else c)

/-- One `name_value` segment of `parse_qsl(.., keep_blank_values=True)`:
empty segments are skipped; a missing `=` yields an empty value; `+`
becomes space and both halves are unquoted. -/
def qslPair (seg : List Char) : Option (List Char × List Char) :=
  if seg = [] then none
  else
    let nv : List Char × List Char :=
      match splitAtFirst '=' seg with
      | some pr => pr
      | none => (seg, [])
    some (unquoteList (plusToSpace nv.1), unquoteList (plusToSpace nv.2))

def parse_qslL (qs : List Char) : List (List Char × List Char) :=
  if qs = [] then []
  else (qs.splitOn '&').filterMap qslPair

/-- The dict-building loop of `parse_qs`: values of a repeated name are
appended to its list; a dict preserves first-insertion key order. -/
def addPair (acc : List (List Char × List (List Char)))
    (p : List Char × List Char) : List (List Char × List (List Char)) :=
  if acc.any (fun kv => kv.1 = p.1) then
    acc.map (fun kv => if kv.1 = p.1 then (kv.1, kv.2 ++ [p.2]) else kv)
  else acc ++ [(p.1, [p.2])]

def parse_qsL (qs : List Char) : List (List Char × List (List Char)) :=
  (parse_qslL qs).foldl addPair []

/-- `_TRACKING_PARAMS` (urlnorm.py lines 15-42). -/
def trackingParams : List (List Char) :=
  ["utm_source".data, "utm_medium".data, "utm_campaign".data, "utm_term".data,
   "utm_content".data, "utm_id".data, "utm_reader".data, "fbclid".data,
   "gclid".data, "gclsrc".data, "dclid".data, "msclkid".data, "ref".data,
   "source".data, "via".data, "_ga".data, "_gac".data, "mc_cid".data,
   "mc_eid".data, "igshid".data, "s_kwcid".data, "ef_id".data,
   "affiliate_id".data, "clickid".data]

/-- Python `str <`: lexicographic by code point. -/
def listCharLt : List Char → List Char → Bool
  | [], [] => false
  | [], _ :: _ => true
  | _ :: _, [] => false
  | a :: as, b :: bs => if a = b then listCharLt as bs else decide (a < b)

/-- `sorted` on `(key, values)` items compares keys first; dict items
have pairwise-distinct keys, so the value comparison never runs and the
key order alone determines the (stable) sort. -/
def pairLe (x y : List Char × List (List Char)) : Bool :=
  listCharLt x.1 y.1 ∨ x.1 = y.1

/-- The query-cleaning block of `normalize_url` (urlnorm.py lines
120-127): `parse_qs(raw, keep_blank_values=True)`, drop keys whose
lowercase form is a tracking param, sort, re-encode with `doseq=True`. -/
def encodeCleanQuery (raw : List Char) : List Char :=
  urlencodeQS
    (((parse_qsL raw).filter
        (fun kv => pyLowerList kv.1 ∉ trackingParams)).mergeSort pairLe)

/-- `normalize_url` (urlnorm.py lines 90-139) over `List Char`. -/
def normalize_urlL (extraReject : List Char → Bool) (url : List Char) :
    List Char :=
  match urlparseE extraReject (pyStripList url) with
  | .error _ => url
  | .ok p =>
      let scheme := if pyLowerList p.scheme = [] then "https".data
                    else pyLowerList p.scheme
      let netloc := stripDefaultPort scheme (pyLowerList p.netloc)
      let newQuery := if p.query ≠ [] then encodeCleanQuery p.query else []
      urlunparse scheme netloc p.path p.params newQuery []

def normalize_url (extraReject : List Char → Bool) (url : String) : String :=
  ⟨normalize_urlL extraReject url.data⟩

/-- The `extraReject` instance modelling CPython exactly on ASCII,
bracket-free netlocs, on which neither `_check_bracketed_host` nor
`_checknetloc` can raise. -/
def noReject : List Char → Bool := fun _ => false

/-! ## Supporting lemmas for C10 and C4 -/

theorem dropWhile_append_stop {α : Type} (f : α → Bool) (x : List α) (c : α)
    (t : List α) (hc : f c = false) :
    (x ++ c :: t).dropWhile f = x.dropWhile f ++ c :: t := by
  induction x with
  | nil => simp [List.dropWhile_cons, hc]
  | cons a x' ih => by_cases ha : f a <;> simp [List.dropWhile_cons, ha, ih]

theorem pyStripList_https (t : List Char) :
    pyStripList ("https:".data ++ t) =
      "https:".data ++ (t.reverse.dropWhile isPySpace).reverse := by
  unfold pyStripList
  have h1 : (("https:".data ++ t).dropWhile isPySpace) = "https:".data ++ t := by
    rw [show ("https:".data ++ t) = 'h' :: ("ttps:".data ++ t) from rfl]
    rw [List.dropWhile_cons]
    rw [if_neg (by decide)]
  rw [h1, List.reverse_append]
  rw [show ("https:".data).reverse = ':' :: "sptth".data from by decide]
  rw [dropWhile_append_stop isPySpace _ ':' _ (by decide)]
  rw [List.reverse_append]
  rw [show (':' :: "sptth".data).reverse = "https:".data from by decide]

theorem removeTabCrLf_append (a b : List Char) :
    removeTabCrLf (a ++ b) = removeTabCrLf a ++ removeTabCrLf b := by
  unfold removeTabCrLf
  exact List.filter_append _ _

theorem splitAtFirst_colon_https (x : List Char) :
    splitAtFirst ':' ("https:".data ++ x) = some ("https".data, x) := by
  rw [show ("https:".data ++ x) = 'h' :: 't' :: 't' :: 'p' :: 's' :: ':' :: x
    from rfl]
  simp [splitAtFirst]

theorem schemeSplit_https (x : List Char) :
    schemeSplit ("https:".data ++ x) = ("https".data, x) := by
  unfold schemeSplit
  rw [splitAtFirst_colon_https]
  dsimp only
  rw [if_pos (by decide)]
  rfl

theorem urlsplitE_ok (reject : List Char → Bool) (url : List Char)
    (s : SplitResult) (h : urlsplitE reject url = .ok s) :
    s = urlsplitStages url := by
  unfold urlsplitE at h
  dsimp only at h
  split at h
  · exact Except.noConfusion h
  · split at h
    · exact Except.noConfusion h
    · cases h; rfl

theorem urlparseE_ok (reject : List Char → Bool) (url : List Char)
    (p : UrlParseResult) (h : urlparseE reject url = .ok p) :
    p = urlparseStages (urlsplitStages url) := by
  unfold urlparseE at h
  cases hs : urlsplitE reject url with
  | error e => rw [hs] at h; exact Except.noConfusion h
  | ok s =>
      rw [hs] at h
      cases h
      rw [urlsplitE_ok reject url s hs]

theorem urlsplitStages_https_scheme (x : List Char) :
    (urlsplitStages ("https:".data ++ x)).scheme = "https".data := by
  unfold urlsplitStages
  rw [removeTabCrLf_append,
    show removeTabCrLf "https:".data = "https:".data from by decide,
    schemeSplit_https]

theorem urlparseStages_scheme (s : SplitResult) :
    (urlparseStages s).scheme = s.scheme := by
  unfold urlparseStages
  split <;> rfl

/-- C10: `normalize_url` substitutes `https` for a missing scheme: for
every input that the URL parser accepts with an empty scheme component,
the result begins with `https:`, and in particular differs from the
input — only inputs on which parsing raises come back unchanged. -/
theorem normalize_url_defaults_scheme (extraReject : List Char → Bool)
    (u : String) (p : UrlParseResult)
    (hp : urlparseE extraReject (pyStripList u.data) = .ok p)
    (hscheme : p.scheme = []) :
    ("https:".data).isPrefixOf (normalize_url extraReject u).data = true ∧
    normalize_url extraReject u ≠ u := by
  have hex : ∃ tail, (normalize_url extraReject u).data = "https:".data ++ tail := by
    unfold normalize_url normalize_urlL
    rw [hp]
    dsimp only
    rw [hscheme]
    rw [show (pyLowerList [] : List Char) = [] from rfl]
    rw [if_pos rfl]
    unfold urlunparse urlunsplit
    dsimp only
    rw [if_pos (show ("https".data : List Char) ≠ [] from by decide)]
    by_cases hq : (if p.query ≠ [] then encodeCleanQuery p.query else []) ≠ []
    · rw [if_pos hq, if_neg (show ¬(([] : List Char) ≠ []) from by simp)]
      exact ⟨_, rfl⟩
    · rw [if_neg hq, if_neg (show ¬(([] : List Char) ≠ []) from by simp)]
      exact ⟨_, rfl⟩
  obtain ⟨tail, htail⟩ := hex
  constructor
  · rw [htail]
    exact List.isPrefixOf_iff_prefix.mpr ⟨tail, rfl⟩
  · intro heq
    have hud : u.data = "https:".data ++ tail := by rw [← heq]; exact htail
    rw [hud, pyStripList_https] at hp
    have hps := urlparseE_ok extraReject _ p hp
    have : p.scheme = "https".data := by
      rw [hps, urlparseStages_scheme, urlsplitStages_https_scheme]
    rw [hscheme] at this
    exact absurd this.symm (by decide)

/-- Concrete instantiation of the C10 theorem at `"example.com/path"`
(parsed with empty scheme, so the result gains `https:` and changes). -/
theorem normalize_url_defaults_scheme_witness :
    ("https:".data).isPrefixOf
      (normalize_url noReject "example.com/path").data = true ∧
    normalize_url noReject "example.com/path" ≠ "example.com/path" :=
  normalize_url_defaults_scheme noReject "example.com/path"
    ⟨[], [], "example.com/path".data, [], [], []⟩ rfl rfl

/-- Counterexample to C4 as stated: `normalize_url` is not idempotent.
`"http://a:80:80/"` parses with netloc `a:80:80`; `rpartition(':')`
sees port `80`, the default for `http`, and strips it, leaving netloc
`a:80` — which on the second pass is stripped again to `a`. -/
theorem normalize_url_not_idempotent :
    normalize_url noReject "http://a:80:80/" = "http://a:80/" ∧
    normalize_url noReject (normalize_url noReject "http://a:80:80/") =
      "http://a/" ∧
    normalize_url noReject (normalize_url noReject "http://a:80:80/") ≠
      normalize_url noReject "http://a:80:80/" :=
  ⟨by decide, by decide, by decide⟩


/-! ## UTF-8 round trip: decoding an encoded string restores it -/

theorem char_toNat_valid (c : Char) :
    c.toNat < 0xD800 ∨ (0xDFFF < c.toNat ∧ c.toNat < 0x110000) := c.valid

theorem char_toNat_ofNat (n : Nat) (h : Nat.isValidChar n) :
    (Char.ofNat n).toNat = n := by
  unfold Char.ofNat
  rw [dif_pos h]
  rfl

theorem utf8Step_init (b : Nat) : utf8Step utf8Init b = utf8Step1 b := by
  unfold utf8Step
  rw [if_pos (show utf8Init.needed = 0 from rfl)]

theorem utf8DecodeLoop_cons (st : Utf8State) (b : Nat) (bs : List Nat) :
    utf8DecodeLoop st (b :: bs) =
      (utf8Step st b).2 ++ utf8DecodeLoop (utf8Step st b).1 bs := rfl

theorem utf8_decode_1byte (n : Nat) (rest : List Nat) (h : n < 0x80) :
    utf8DecodeLoop utf8Init (n :: rest) =
      Char.ofNat n :: utf8DecodeLoop utf8Init rest := by
  rw [utf8DecodeLoop_cons, utf8Step_init]
  unfold utf8Step1
  rw [if_pos (by omega : n ≤ 0x7F)]
  rfl

theorem utf8_decode_cont1 (a n : Nat) (rest : List Nat)
    (ha : a * 0x40 + ((0x80 + n % 0x40) - 0x80) = n) :
    utf8DecodeLoop ⟨1, a, 0x80, 0xBF⟩ ((0x80 + n % 0x40) :: rest) =
      Char.ofNat n :: utf8DecodeLoop utf8Init rest := by
  have h2 : n % 64 < 64 := Nat.mod_lt _ (by norm_num)
  rw [utf8DecodeLoop_cons]
  have hs : utf8Step ⟨1, a, 0x80, 0xBF⟩ (0x80 + n % 0x40) =
      (utf8Init, [Char.ofNat n]) := by
    unfold utf8Step
    dsimp only
    rw [if_neg (by decide), if_pos (by constructor <;> omega), if_pos rfl, ha]
  rw [hs]
  rfl

theorem utf8_decode_cont2 (a n lo hi : Nat) (rest : List Nat)
    (ha : a = n / 0x1000)
    (hlo : lo ≤ 0x80 + (n / 0x40) % 0x40) (hhi : 0x80 + (n / 0x40) % 0x40 ≤ hi) :
    utf8DecodeLoop ⟨2, a, lo, hi⟩
        ((0x80 + (n / 0x40) % 0x40) :: (0x80 + n % 0x40) :: rest) =
      Char.ofNat n :: utf8DecodeLoop utf8Init rest := by
  have h1 := Nat.div_add_mod n 64
  have h3 : 64 * (n / 4096) + (n / 64) % 64 = n / 64 := by
    have := Nat.div_add_mod (n / 64) 64
    rwa [Nat.div_div_eq_div_mul, show 64 * 64 = 4096 from rfl] at this
  rw [utf8DecodeLoop_cons]
  have hs : utf8Step ⟨2, a, lo, hi⟩ (0x80 + (n / 0x40) % 0x40) =
      (⟨1, a * 0x40 + ((0x80 + (n / 0x40) % 0x40) - 0x80), 0x80, 0xBF⟩, []) := by
    unfold utf8Step
    dsimp only
    rw [if_neg (by decide), if_pos ⟨hlo, hhi⟩, if_neg (by decide)]
  rw [hs]
  dsimp only
  rw [List.nil_append]
  rw [utf8_decode_cont1 _ n rest (by omega)]

theorem utf8_decode_cont3 (a n lo hi : Nat) (rest : List Nat)
    (ha : a = n / 0x40000)
    (hlo : lo ≤ 0x80 + (n / 0x1000) % 0x40)
    (hhi : 0x80 + (n / 0x1000) % 0x40 ≤ hi) :
    utf8DecodeLoop ⟨3, a, lo, hi⟩
        ((0x80 + (n / 0x1000) % 0x40) :: (0x80 + (n / 0x40) % 0x40) ::
          (0x80 + n % 0x40) :: rest) =
      Char.ofNat n :: utf8DecodeLoop utf8Init rest := by
  have h5 : 64 * (n / 0x40000) + (n / 4096) % 64 = n / 4096 := by
    have := Nat.div_add_mod (n / 4096) 64
    rwa [Nat.div_div_eq_div_mul, show 4096 * 64 = 0x40000 from rfl] at this
  rw [utf8DecodeLoop_cons]
  have hs : utf8Step ⟨3, a, lo, hi⟩ (0x80 + (n / 0x1000) % 0x40) =
      (⟨2, a * 0x40 + ((0x80 + (n / 0x1000) % 0x40) - 0x80), 0x80, 0xBF⟩, []) := by
    unfold utf8Step
    dsimp only
    rw [if_neg (by decide), if_pos ⟨hlo, hhi⟩, if_neg (by decide)]
  rw [hs]
  dsimp only
  rw [List.nil_append]
  rw [utf8_decode_cont2 _ n _ _ rest (by omega) (by omega)
    (by have : (n / 0x40) % 0x40 < 0x40 := Nat.mod_lt _ (by norm_num); omega)]

theorem utf8DecodeLoop_encodeChar (c : Char) (rest : List Nat) :
    utf8DecodeLoop utf8Init (utf8EncodeChar c ++ rest) =
      c :: utf8DecodeLoop utf8Init rest := by
  have hv := char_toNat_valid c
  have hofn : Char.ofNat c.toNat = c := Char.ofNat_toNat c
  unfold utf8EncodeChar
  dsimp only
  by_cases h1 : c.toNat < 0x80
  · rw [if_pos h1, List.cons_append, List.nil_append,
      utf8_decode_1byte _ _ h1, hofn]
  · rw [if_neg h1]
    set n := c.toNat with hn
    have h64 := Nat.div_add_mod n 64
    have hm64 : n % 64 < 64 := Nat.mod_lt _ (by norm_num)
    have h3 : 64 * (n / 4096) + (n / 64) % 64 = n / 64 := by
      have := Nat.div_add_mod (n / 64) 64
      rwa [Nat.div_div_eq_div_mul, show 64 * 64 = 4096 from rfl] at this
    have hm2 : (n / 64) % 64 < 64 := Nat.mod_lt _ (by norm_num)
    have h5 : 64 * (n / 0x40000) + (n / 4096) % 64 = n / 4096 := by
      have := Nat.div_add_mod (n / 4096) 64
      rwa [Nat.div_div_eq_div_mul, show 4096 * 64 = 0x40000 from rfl] at this
    have hm3 : (n / 4096) % 64 < 64 := Nat.mod_lt _ (by norm_num)
    by_cases h2 : n < 0x800
    · rw [if_pos h2]
      rw [List.cons_append, List.cons_append, List.nil_append,
        utf8DecodeLoop_cons, utf8Step_init]
      have hs1 : utf8Step1 (0xC0 + n / 0x40) =
          (⟨1, (0xC0 + n / 0x40) - 0xC0, 0x80, 0xBF⟩, []) := by
        unfold utf8Step1
        rw [if_neg (by omega), if_pos (by constructor <;> omega)]
      rw [hs1]
      dsimp only
      rw [List.nil_append, utf8_decode_cont1 _ n rest (by omega), hofn]
    · rw [if_neg h2]
      by_cases h3b : n < 0x10000
      · rw [if_pos h3b]
        rw [List.cons_append, List.cons_append, List.cons_append,
          List.nil_append, utf8DecodeLoop_cons, utf8Step_init]
        by_cases hE0 : n / 0x1000 = 0
        · have hs1 : utf8Step1 (0xE0 + n / 0x1000) = (⟨2, 0, 0xA0, 0xBF⟩, []) := by
            unfold utf8Step1
            rw [if_neg (by omega), if_neg (by omega), if_pos (by omega)]
          rw [hs1]
          dsimp only
          rw [List.nil_append,
            utf8_decode_cont2 _ n _ _ rest (by omega) (by omega) (by omega), hofn]
        · by_cases hED : n / 0x1000 = 13
          · have hs1 : utf8Step1 (0xE0 + n / 0x1000) =
                (⟨2, 0xD, 0x80, 0x9F⟩, []) := by
              unfold utf8Step1
              rw [if_neg (by omega), if_neg (by omega), if_neg (by omega),
                if_pos (by omega)]
            rw [hs1]
            dsimp only
            rw [List.nil_append,
              utf8_decode_cont2 _ n _ _ rest (by omega) (by omega) (by omega),
              hofn]
          · have hdlt : n / 0x1000 < 16 := by omega
            have hs1 : utf8Step1 (0xE0 + n / 0x1000) =
                (⟨2, (0xE0 + n / 0x1000) - 0xE0, 0x80, 0xBF⟩, []) := by
              unfold utf8Step1
              rw [if_neg (by omega), if_neg (by omega), if_neg (by omega),
                if_neg (by omega), if_pos (by constructor <;> omega)]
            rw [hs1]
            dsimp only
            rw [List.nil_append,
              utf8_decode_cont2 _ n _ _ rest (by omega) (by omega) (by omega),
              hofn]
      · rw [if_neg h3b]
        have hup : n < 0x110000 := by omega
        rw [List.cons_append, List.cons_append, List.cons_append,
          List.cons_append, List.nil_append, utf8DecodeLoop_cons, utf8Step_init]
        by_cases hF0 : n / 0x40000 = 0
        · have hs1 : utf8Step1 (0xF0 + n / 0x40000) = (⟨3, 0, 0x90, 0xBF⟩, []) := by
            unfold utf8Step1
            rw [if_neg (by omega), if_neg (by omega), if_neg (by omega),
              if_neg (by omega), if_neg (by omega), if_pos (by omega)]
          rw [hs1]
          dsimp only
          rw [List.nil_append,
            utf8_decode_cont3 _ n _ _ rest (by omega) (by omega) (by omega), hofn]
        · by_cases hF4 : n / 0x40000 = 4
          · have hs1 : utf8Step1 (0xF0 + n / 0x40000) =
                (⟨3, 4, 0x80, 0x8F⟩, []) := by
              unfold utf8Step1
              rw [if_neg (by omega), if_neg (by omega), if_neg (by omega),
                if_neg (by omega), if_neg (by omega), if_neg (by omega),
                if_pos (by omega)]
            rw [hs1]
            dsimp only
            rw [List.nil_append,
              utf8_decode_cont3 _ n _ _ rest (by omega) (by omega) (by omega),
              hofn]
          · have hdlt : n / 0x40000 < 5 := by omega
            have hs1 : utf8Step1 (0xF0 + n / 0x40000) =
                (⟨3, (0xF0 + n / 0x40000) - 0xF0, 0x80, 0xBF⟩, []) := by
              unfold utf8Step1
              rw [if_neg (by omega), if_neg (by omega), if_neg (by omega),
                if_neg (by omega), if_neg (by omega), if_neg (by omega),
                if_neg (by omega), if_pos (by constructor <;> omega)]
            rw [hs1]
            dsimp only
            rw [List.nil_append,
              utf8_decode_cont3 _ n _ _ rest (by omega) (by omega) (by omega),
              hofn]

theorem utf8Decode_encode_append (s : List Char) (rest : List Nat) :
    utf8DecodeLoop utf8Init (utf8Encode s ++ rest) =
      s ++ utf8DecodeLoop utf8Init rest := by
  induction s with
  | nil => rw [show utf8Encode [] = [] from rfl, List.nil_append, List.nil_append]
  | cons c s' ih =>
      rw [show utf8Encode (c :: s') = utf8EncodeChar c ++ utf8Encode s' from rfl,
        List.append_assoc, utf8DecodeLoop_encodeChar, ih, List.cons_append]

theorem utf8Decode_encode (s : List Char) : utf8Decode (utf8Encode s) = s := by
  unfold utf8Decode
  have := utf8Decode_encode_append s []
  rw [List.append_nil] at this
  rw [this]
  rw [show utf8DecodeLoop utf8Init [] = [] from rfl, List.append_nil]


/-! ## Percent-encoding round trip: unquote of quote output -/

theorem utf8EncodeChar_lt_256 (c : Char) : ∀ b ∈ utf8EncodeChar c, b < 256 := by
  intro b hb
  have hv := char_toNat_valid c
  unfold utf8EncodeChar at hb
  dsimp only at hb
  set n := c.toNat with hn
  have h64 : n % 64 < 64 := Nat.mod_lt _ (by norm_num)
  have hd64 := Nat.div_add_mod n 64
  have h3 : 64 * (n / 4096) + (n / 64) % 64 = n / 64 := by
    have := Nat.div_add_mod (n / 64) 64
    rwa [Nat.div_div_eq_div_mul, show 64 * 64 = 4096 from rfl] at this
  have hm2 : (n / 64) % 64 < 64 := Nat.mod_lt _ (by norm_num)
  have h5 : 64 * (n / 0x40000) + (n / 4096) % 64 = n / 4096 := by
    have := Nat.div_add_mod (n / 4096) 64
    rwa [Nat.div_div_eq_div_mul, show 4096 * 64 = 0x40000 from rfl] at this
  have hm3 : (n / 4096) % 64 < 64 := Nat.mod_lt _ (by norm_num)
  split at hb
  · simp at hb; omega
  · split at hb
    · simp at hb
      rcases hb with h | h <;> omega
    · split at hb
      · simp at hb
        rcases hb with h | h | h <;> omega
      · simp at hb
        rcases hb with h | h | h | h <;> omega

theorem utf8Encode_lt_256 (s : List Char) : ∀ b ∈ utf8Encode s, b < 256 := by
  induction s with
  | nil => intro b hb; cases hb
  | cons c s' ih =>
      intro b hb
      rw [show utf8Encode (c :: s') = utf8EncodeChar c ++ utf8Encode s' from rfl]
        at hb
      rcases List.mem_append.1 hb with h | h
      · exact utf8EncodeChar_lt_256 c b h
      · exact ih b h

theorem hexDigitUpper_spec (x : Nat) (h : x < 16) :
    isHexDigit (hexDigitUpper x) = true ∧ hexVal (hexDigitUpper x) = x ∧
    isAlwaysSafe (hexDigitUpper x) = true := by
  interval_cases x <;> exact ⟨by decide, by decide, by decide⟩

theorem char_toNat_ofNat_small (b : Nat) (h : b < 0xD800) :
    (Char.ofNat b).toNat = b :=
  char_toNat_ofNat b (Or.inl h)

theorem quoteBytes_append (safe : List Char) (a b : List Nat) :
    quoteBytes safe (a ++ b) = quoteBytes safe a ++ quoteBytes safe b := by
  induction a with
  | nil => rfl
  | cons x a' ih =>
      rw [List.cons_append,
        show quoteBytes safe (x :: (a' ++ b)) =
          quoteByte safe x ++ quoteBytes safe (a' ++ b) from rfl,
        show quoteBytes safe (x :: a') = quoteByte safe x ++ quoteBytes safe a'
          from rfl, ih, List.append_assoc]

theorem percentDecodeBytes_quote (safe : List Char)
    (hsafe : ∀ c ∈ safe, c = ' ') :
    ∀ bs : List Nat, (∀ b ∈ bs, b < 256) →
      percentDecodeBytes (quoteBytes safe bs) = bs := by
  intro bs
  induction bs with
  | nil => intro _; rfl
  | cons b bs' ih =>
      intro hb
      have hb256 : b < 256 := hb b (List.mem_cons_self b bs')
      rw [show quoteBytes safe (b :: bs') =
        quoteByte safe b ++ quoteBytes safe bs' from rfl]
      unfold quoteByte
      by_cases hs : b ≤ 0x7F ∧ (isAlwaysSafe (Char.ofNat b) ∨ Char.ofNat b ∈ safe)
      · rw [if_pos hs]
        have hbyte : (Char.ofNat b).toNat = b :=
          char_toNat_ofNat_small b (by omega)
        have hnp : ¬(Char.ofNat b = '%') := by
          rcases hs.2 with h | h
          · intro he; rw [he] at h; exact absurd h (by decide)
          · rw [hsafe _ h]; decide
        rw [List.cons_append, List.nil_append]
        unfold percentDecodeBytes
        rw [if_neg hnp, hbyte,
          ih (fun x hx => hb x (List.mem_cons_of_mem _ hx))]
      · rw [if_neg hs]
        have hdiv : b / 16 < 16 := by omega
        have hmod : b % 16 < 16 := Nat.mod_lt _ (by norm_num)
        obtain ⟨hh1, hv1, _⟩ := hexDigitUpper_spec _ hdiv
        obtain ⟨hh2, hv2, _⟩ := hexDigitUpper_spec _ hmod
        rw [List.cons_append, List.cons_append, List.cons_append, List.nil_append]
        unfold percentDecodeBytes
        rw [if_pos rfl]
        dsimp only
        rw [if_pos ⟨hh1, hh2⟩, hv1, hv2,
          ih (fun x hx => hb x (List.mem_cons_of_mem _ hx))]
        have : b / 16 * 16 + b % 16 = b := by omega
        rw [this]



theorem quoteByte_class (safe : List Char) (b : Nat) (hb : b < 256) :
    ∀ c ∈ quoteByte safe b, isAlwaysSafe c = true ∨ c = '%' ∨ c ∈ safe := by
  intro c hc
  unfold quoteByte at hc
  split at hc
  · next h =>
      rw [List.mem_singleton] at hc
      subst hc
      rcases h.2 with h2 | h2
      · exact Or.inl h2
      · exact Or.inr (Or.inr h2)
  · have hdiv : b / 16 < 16 := by omega
    have hmod : b % 16 < 16 := Nat.mod_lt _ (by norm_num)
    simp only [List.mem_cons, List.mem_singleton, List.not_mem_nil] at hc
    rcases hc with hc | hc | hc | hc
    · exact Or.inr (Or.inl hc)
    · rw [hc]; exact Or.inl (hexDigitUpper_spec _ hdiv).2.2
    · rw [hc]; exact Or.inl (hexDigitUpper_spec _ hmod).2.2
    · cases hc

theorem quoteBytes_class (safe : List Char) (bs : List Nat)
    (hb : ∀ b ∈ bs, b < 256) :
    ∀ c ∈ quoteBytes safe bs, isAlwaysSafe c = true ∨ c = '%' ∨ c ∈ safe := by
  induction bs with
  | nil => intro c hc; cases hc
  | cons b bs' ih =>
      intro c hc
      rw [show quoteBytes safe (b :: bs') =
        quoteByte safe b ++ quoteBytes safe bs' from rfl] at hc
      rcases List.mem_append.1 hc with h | h
      · exact quoteByte_class safe b (hb b (List.mem_cons_self b bs')) c h
      · exact ih (fun x hx => hb x (List.mem_cons_of_mem _ hx)) c h

theorem quoteL_class (safe : List Char) (s : List Char) :
    ∀ c ∈ quoteL safe s, isAlwaysSafe c = true ∨ c = '%' ∨ c ∈ safe := by
  unfold quoteL
  exact quoteBytes_class safe _ (utf8Encode_lt_256 s)

theorem quotePlus_class (s : List Char) :
    ∀ c ∈ quotePlus s, isAlwaysSafe c = true ∨ c = '%' ∨ c = '+' := by
  intro c hc
  unfold quotePlus at hc
  split at hc
  · rw [List.mem_map] at hc
    obtain ⟨c', hc', he⟩ := hc
    rcases quoteL_class [' '] s c' hc' with h | h | h
    · have : ¬(c' = ' ') := by
        intro hsp; rw [hsp] at h; exact absurd h (by decide)
      rw [if_neg this] at he
      exact Or.inl (he ▸ h)
    · have : ¬(c' = ' ') := by
        intro hsp; rw [hsp] at h; exact absurd h (by decide)
      rw [if_neg this] at he
      exact Or.inr (Or.inl (he ▸ h))
    · rw [List.mem_singleton] at h
      rw [h] at he
      rw [if_pos rfl] at he
      exact Or.inr (Or.inr he.symm)
  · rcases quoteL_class [] s c hc with h | h | h
    · exact Or.inl h
    · exact Or.inr (Or.inl h)
    · cases h

theorem plusToSpace_quotePlus (s : List Char) :
    plusToSpace (quotePlus s) =
      if ' ' ∈ s then quoteL [' '] s else quoteL [] s := by
  unfold quotePlus plusToSpace
  split
  · rw [List.map_map]
    have : ∀ c ∈ quoteL [' '] s,
        ((fun c => if c = '+' then ' ' else c) ∘
          fun c => if c = ' ' then '+' else c) c = c := by
      intro c hc
      rcases quoteL_class [' '] s c hc with h | h | h
      · have h1 : ¬(c = ' ') := by
          intro hsp; rw [hsp] at h; exact absurd h (by decide)
        have h2 : ¬(c = '+') := by
          intro hsp; rw [hsp] at h; exact absurd h (by decide)
        simp [h1, h2]
      · rw [h]; decide
      · rw [List.mem_singleton] at h
        rw [h]; decide
    rw [List.map_congr_left this]
    simp
  · have : ∀ c ∈ quoteL [] s,
        (fun c => if c = '+' then ' ' else c) c = c := by
      intro c hc
      rcases quoteL_class [] s c hc with h | h | h
      · have h2 : ¬(c = '+') := by
          intro hsp; rw [hsp] at h; exact absurd h (by decide)
        simp [h2]
      · rw [h]; decide
      · cases h
    rw [List.map_congr_left this]
    simp

theorem quoteL_no_percent_eq (safe : List Char) (s : List Char)
    (h : ¬('%' ∈ quoteL safe s)) : quoteL safe s = s := by
  induction s with
  | nil => rfl
  | cons c s' ih =>
      rw [show quoteL safe (c :: s') =
          quoteBytes safe (utf8EncodeChar c ++ utf8Encode s') from rfl,
        quoteBytes_append] at h ⊢
      have hascii : c.toNat < 0x80 := by
        by_contra hge
        have h1 : utf8EncodeChar c = (utf8EncodeChar c).head! ::
            (utf8EncodeChar c).tail := by
          unfold utf8EncodeChar
          dsimp only
          rw [if_neg (by omega)]
          split <;> (try split) <;> rfl
        have hhead : ¬((utf8EncodeChar c).head! ≤ 0x7F) := by
          unfold utf8EncodeChar
          dsimp only
          rw [if_neg (by omega)]
          have hv := char_toNat_valid c
          have hd := Nat.div_add_mod c.toNat 64
          have h3 : 64 * (c.toNat / 4096) + (c.toNat / 64) % 64 = c.toNat / 64 := by
            have := Nat.div_add_mod (c.toNat / 64) 64
            rwa [Nat.div_div_eq_div_mul, show 64 * 64 = 4096 from rfl] at this
          have h5 : 64 * (c.toNat / 0x40000) + (c.toNat / 4096) % 64 =
              c.toNat / 4096 := by
            have := Nat.div_add_mod (c.toNat / 4096) 64
            rwa [Nat.div_div_eq_div_mul, show 4096 * 64 = 0x40000 from rfl] at this
          split <;> (try split) <;> (dsimp only [List.head!]) <;> omega
        apply h
        rw [h1]
        rw [show quoteBytes safe ((utf8EncodeChar c).head! ::
          (utf8EncodeChar c).tail) = quoteByte safe (utf8EncodeChar c).head! ++
          quoteBytes safe (utf8EncodeChar c).tail from rfl]
        unfold quoteByte
        rw [if_neg (by intro hcon; exact hhead hcon.1)]
        exact List.mem_append_left _ (List.mem_cons_self _ _)
      have henc : utf8EncodeChar c = [c.toNat] := by
        unfold utf8EncodeChar
        dsimp only
        rw [if_pos hascii]
      rw [henc] at h ⊢
      rw [show (quoteBytes safe [c.toNat] : List Char) =
          quoteByte safe c.toNat ++ [] from rfl, List.append_nil] at h ⊢
      by_cases hsafe : c.toNat ≤ 0x7F ∧
          (isAlwaysSafe (Char.ofNat c.toNat) ∨ Char.ofNat c.toNat ∈ safe)
      · unfold quoteByte at h ⊢
        rw [if_pos hsafe] at h ⊢
        rw [Char.ofNat_toNat] at h ⊢
        rw [List.cons_append, List.nil_append] at h ⊢
        have := ih (fun hmem => h (List.mem_cons_of_mem _ hmem))
        rw [show quoteL safe s' = quoteBytes safe (utf8Encode s') from rfl] at this
        rw [this]
      · exfalso
        apply h
        unfold quoteByte
        rw [if_neg hsafe]
        rw [List.cons_append]
        exact List.mem_cons_self _ _


theorem takeWhile_eq_self_of_all {α : Type} (p : α → Bool) (l : List α)
    (h : ∀ a ∈ l, p a = true) : l.takeWhile p = l := by
  induction l with
  | nil => rfl
  | cons a l' ih =>
      rw [List.takeWhile_cons, if_pos (h a (List.mem_cons_self a l'))]
      rw [ih (fun x hx => h x (List.mem_cons_of_mem _ hx))]

theorem dropWhile_eq_nil_of_all {α : Type} (p : α → Bool) (l : List α)
    (h : ∀ a ∈ l, p a = true) : l.dropWhile p = [] := by
  induction l with
  | nil => rfl
  | cons a l' ih =>
      rw [List.dropWhile_cons, if_pos (h a (List.mem_cons_self a l'))]
      exact ih (fun x hx => h x (List.mem_cons_of_mem _ hx))

theorem unquoteRuns_nil (fuel : Nat) : unquoteRuns fuel [] = [] := by
  cases fuel <;> rfl

theorem unquote_quote (safe : List Char) (s : List Char)
    (hsafe : ∀ c ∈ safe, c = ' ') :
    unquoteList (quoteL safe s) = s := by
  unfold unquoteList
  by_cases hp : '%' ∈ quoteL safe s
  · rw [if_pos hp]
    have hascii : ∀ c ∈ quoteL safe s, isAsciiChar c = true := by
      intro c hc
      rcases quoteL_class safe s c hc with h | h | h
      · unfold isAlwaysSafe at h
        unfold isAsciiChar
        simp only [decide_eq_true_eq, Bool.or_eq_true] at h ⊢
        unfold isAsciiAlpha isAsciiDigit at h
        simp only [decide_eq_true_eq, Bool.or_eq_true] at h
        rcases h with (⟨h1, h2⟩ | ⟨h1, h2⟩) | ⟨h1, h2⟩ | h | h | h | h
        all_goals first
          | (rw [show c.toNat ≤ 127 ↔ c ≤ Char.ofNat 127 from ?_]
             · exact le_trans h2 (by decide)
             · constructor <;> intro hh <;> exact hh)
          | (rw [h]; decide)
      · rw [h]; decide
      · rw [hsafe c h]; decide
    cases hq : quoteL safe s with
    | nil => rw [hq] at hp; cases hp
    | cons c0 rest =>
        rw [hq] at hascii
        have hc0 : isAsciiChar c0 = true := hascii c0 (List.mem_cons_self _ _)
        rw [show (c0 :: rest).length = rest.length + 1 from rfl]
        rw [show unquoteRuns (rest.length + 1) (c0 :: rest) =
          if isAsciiChar c0 then
            utf8Decode (percentDecodeBytes ((c0 :: rest).takeWhile isAsciiChar)) ++
              unquoteRuns rest.length ((c0 :: rest).dropWhile isAsciiChar)
          else c0 :: unquoteRuns rest.length rest from rfl]
        rw [if_pos hc0]
        rw [takeWhile_eq_self_of_all _ _ hascii,
          dropWhile_eq_nil_of_all _ _ hascii, unquoteRuns_nil, List.append_nil]
        rw [← hq]
        unfold quoteL
        rw [percentDecodeBytes_quote safe hsafe _ (utf8Encode_lt_256 s)]
        exact utf8Decode_encode s
  · rw [if_neg hp]
    exact quoteL_no_percent_eq safe s hp

theorem unquote_plusToSpace_quotePlus (s : List Char) :
    unquoteList (plusToSpace (quotePlus s)) = s := by
  rw [plusToSpace_quotePlus]
  split
  · exact unquote_quote [' '] s (by
      intro c hc
      rw [List.mem_singleton] at hc
      exact hc)
  · exact unquote_quote [] s (by intro c hc; cases hc)


/-! ## Query cleaning is idempotent: parse/filter/sort/encode of its own output -/

def flattenPairs (ps : List (List Char × List (List Char))) :
    List (List Char × List Char) :=
  ps.flatMap (fun kv => kv.2.map (fun v => (kv.1, v)))

def qsSegment (kv : List Char × List Char) : List Char :=
  quotePlus kv.1 ++ '=' :: quotePlus kv.2

theorem splitAtFirst_not_mem (ch : Char) (a b : List Char) (h : ch ∉ a) :
    splitAtFirst ch (a ++ ch :: b) = some (a, b) := by
  induction a with
  | nil => rw [List.nil_append]; unfold splitAtFirst; rw [if_pos rfl]
  | cons x a' ih =>
      rw [List.cons_append]
      unfold splitAtFirst
      have hx : ¬(x = ch) := fun he => h (he ▸ List.mem_cons_self x a')
      rw [if_neg hx, ih (fun hm => h (List.mem_cons_of_mem _ hm))]

theorem quotePlus_no_eq (s : List Char) : '=' ∉ quotePlus s := by
  intro h
  rcases quotePlus_class s '=' h with h1 | h1 | h1
  · exact absurd h1 (by decide)
  · exact absurd h1 (by decide)
  · exact absurd h1 (by decide)

theorem quotePlus_no_amp (s : List Char) : '&' ∉ quotePlus s := by
  intro h
  rcases quotePlus_class s '&' h with h1 | h1 | h1
  · exact absurd h1 (by decide)
  · exact absurd h1 (by decide)
  · exact absurd h1 (by decide)

theorem qslPair_encoded (kv : List Char × List Char) :
    qslPair (qsSegment kv) = some kv := by
  unfold qslPair qsSegment
  rw [if_neg (by simp)]
  rw [splitAtFirst_not_mem '=' _ _ (quotePlus_no_eq kv.1)]
  dsimp only
  rw [unquote_plusToSpace_quotePlus, unquote_plusToSpace_quotePlus]

theorem qsSegment_no_amp (kv : List Char × List Char) : '&' ∉ qsSegment kv := by
  unfold qsSegment
  intro h
  rcases List.mem_append.1 h with h | h
  · exact quotePlus_no_amp _ h
  · rcases List.mem_cons.1 h with h | h
    · exact absurd h (by decide)
    · exact quotePlus_no_amp _ h

theorem qsSegment_ne_nil (kv : List Char × List Char) : qsSegment kv ≠ [] := by
  unfold qsSegment
  simp

theorem urlencodeDoseq_eq_map (ps : List (List Char × List (List Char))) :
    urlencodeDoseq ps = (flattenPairs ps).map qsSegment := by
  induction ps with
  | nil => rfl
  | cons kv rest ih =>
      cases kv with
      | mk k vs =>
          rw [show urlencodeDoseq ((k, vs) :: rest) =
            vs.map (fun v => quotePlus k ++ '=' :: quotePlus v) ++
              urlencodeDoseq rest from rfl]
          rw [show flattenPairs ((k, vs) :: rest) =
            vs.map (fun v => (k, v)) ++ flattenPairs rest from rfl]
          rw [List.map_append, List.map_map, ih]
          rfl

theorem parse_qslL_urlencodeQS (ps : List (List Char × List (List Char))) :
    parse_qslL (urlencodeQS ps) = flattenPairs ps := by
  by_cases hfl : flattenPairs ps = []
  · rw [hfl]
    have : urlencodeQS ps = [] := by
      unfold urlencodeQS
      rw [urlencodeDoseq_eq_map, hfl]
      rfl
    rw [this]
    rfl
  · have hsegs : urlencodeDoseq ps ≠ [] := by
      rw [urlencodeDoseq_eq_map]
      simpa using hfl
    have hsplit : (urlencodeQS ps).splitOn '&' = urlencodeDoseq ps := by
      unfold urlencodeQS
      rw [show List.intercalate ['&'] (urlencodeDoseq ps) =
        ['&'].intercalate (urlencodeDoseq ps) from rfl]
      apply List.splitOn_intercalate
      · intro l hl
        rw [urlencodeDoseq_eq_map] at hl
        rw [List.mem_map] at hl
        obtain ⟨kv, _, he⟩ := hl
        exact he ▸ qsSegment_no_amp kv
      · exact hsegs
    have hne : urlencodeQS ps ≠ [] := by
      intro h0
      rw [h0] at hsplit
      have : ([] : List Char).splitOn '&' = [[]] := rfl
      rw [this] at hsplit
      have : ([] : List Char) ∈ urlencodeDoseq ps := by
        rw [← hsplit]; exact List.mem_singleton_self _
      rw [urlencodeDoseq_eq_map, List.mem_map] at this
      obtain ⟨kv, _, he⟩ := this
      exact qsSegment_ne_nil kv he
    unfold parse_qslL
    rw [if_neg hne, hsplit, urlencodeDoseq_eq_map, List.filterMap_map]
    have : ∀ kv ∈ flattenPairs ps, (qslPair ∘ qsSegment) kv = some kv := by
      intro kv _
      exact qslPair_encoded kv
    calc List.filterMap (qslPair ∘ qsSegment) (flattenPairs ps)
        = List.filterMap some (flattenPairs ps) := by
          apply List.filterMap_congr
          intro kv hkv
          exact this kv hkv
      _ = flattenPairs ps := List.filterMap_some _



theorem addPair_found (acc : List (List Char × List (List Char)))
    (k : List Char) (w : List (List Char)) (v : List Char)
    (hk : k ∉ acc.map Prod.fst) :
    addPair (acc ++ [(k, w)]) (k, v) = acc ++ [(k, w ++ [v])] := by
  unfold addPair
  rw [if_pos]
  · rw [List.map_append]
    have h1 : acc.map (fun kv => if kv.1 = (k, v).1 then (kv.1, kv.2 ++ [(k, v).2]) else kv) = acc := by
      have h2 : ∀ kv ∈ acc,
          (fun kv => if kv.1 = (k, v).1 then (kv.1, kv.2 ++ [(k, v).2]) else kv) kv
            = id kv := by
        intro kv hkv
        have hne : ¬(kv.1 = k) := by
          intro he
          exact hk (he ▸ List.mem_map_of_mem Prod.fst hkv)
        dsimp only [id]
        rw [if_neg hne]
      rw [List.map_congr_left h2, List.map_id]
    rw [h1, List.map_singleton]
    dsimp only
    rw [if_pos rfl]
  · rw [List.any_eq_true]
    exact ⟨(k, w), List.mem_append_right _ (List.mem_singleton_self _), by simp⟩

theorem foldl_addPair_run (k : List Char) (w : List (List Char))
    (vs : List (List Char)) (acc : List (List Char × List (List Char)))
    (hk : k ∉ acc.map Prod.fst) :
    List.foldl addPair (acc ++ [(k, w)]) (vs.map (fun v => (k, v))) =
      acc ++ [(k, w ++ vs)] := by
  induction vs generalizing w with
  | nil => rw [List.map_nil, List.foldl_nil, List.append_nil]
  | cons v vs' ih =>
      rw [List.map_cons, List.foldl_cons, addPair_found acc k w v hk, ih]
      rw [List.append_assoc, List.singleton_append]

theorem addPair_new (acc : List (List Char × List (List Char)))
    (k : List Char) (v : List Char) (hk : k ∉ acc.map Prod.fst) :
    addPair acc (k, v) = acc ++ [(k, [v])] := by
  unfold addPair
  rw [if_neg]
  intro hany
  rw [List.any_eq_true] at hany
  obtain ⟨kv, hkv, he⟩ := hany
  simp only [decide_eq_true_eq] at he
  exact hk (he ▸ List.mem_map_of_mem Prod.fst hkv)

theorem foldl_addPair_flatten (ps : List (List Char × List (List Char)))
    (acc : List (List Char × List (List Char)))
    (hnd : (ps.map Prod.fst).Nodup)
    (hdisj : ∀ k ∈ ps.map Prod.fst, k ∉ acc.map Prod.fst)
    (hvs : ∀ kv ∈ ps, kv.2 ≠ []) :
    List.foldl addPair acc (flattenPairs ps) = acc ++ ps := by
  induction ps generalizing acc with
  | nil => rw [show flattenPairs [] = [] from rfl, List.foldl_nil, List.append_nil]
  | cons kv rest ih =>
      cases kv with
      | mk k vs =>
          have hkacc : k ∉ acc.map Prod.fst :=
            hdisj k (by rw [List.map_cons]; exact List.mem_cons_self _ _)
          have hvne : vs ≠ [] := hvs (k, vs) (List.mem_cons_self _ _)
          cases vs with
          | nil => exact absurd rfl hvne
          | cons v0 vt =>
              rw [show flattenPairs ((k, v0 :: vt) :: rest) =
                (v0 :: vt).map (fun v => (k, v)) ++ flattenPairs rest from rfl]
              rw [List.foldl_append]
              rw [List.map_cons, List.foldl_cons, addPair_new acc k v0 hkacc]
              rw [foldl_addPair_run k [v0] vt acc hkacc,
                List.singleton_append]
              rw [List.map_cons] at hnd
              have hnd' := List.Nodup.of_cons hnd
              have hknotrest : k ∉ rest.map Prod.fst :=
                (List.nodup_cons.1 hnd).1
              rw [ih (acc ++ [(k, v0 :: vt)]) hnd'
                (by
                  intro k' hk'
                  rw [List.map_append]
                  intro hmem
                  rcases List.mem_append.1 hmem with h | h
                  · exact hdisj k' (by rw [List.map_cons]; exact List.mem_cons_of_mem _ hk') h
                  · rw [List.map_singleton, List.mem_singleton] at h
                    rw [h] at hk'
                    exact hknotrest hk')
                (fun kv2 hkv2 => hvs kv2 (List.mem_cons_of_mem _ hkv2))]
              rw [List.append_assoc, List.singleton_append]

theorem parse_qsL_urlencodeQS (ps : List (List Char × List (List Char)))
    (hnd : (ps.map Prod.fst).Nodup) (hvs : ∀ kv ∈ ps, kv.2 ≠ []) :
    parse_qsL (urlencodeQS ps) = ps := by
  unfold parse_qsL
  rw [parse_qslL_urlencodeQS]
  have := foldl_addPair_flatten ps [] hnd (by intro k _ h; cases h) hvs
  rw [this, List.nil_append]



theorem listCharLt_trans (a b c : List Char) (h1 : listCharLt a b = true)
    (h2 : listCharLt b c = true) : listCharLt a c = true := by
  induction a generalizing b c with
  | nil =>
      cases c with
      | nil =>
          cases b with
          | nil => exact absurd h1 (by simp [listCharLt])
          | cons y bs => exact absurd h2 (by simp [listCharLt])
      | cons z cs => rfl
  | cons x as ih =>
      cases b with
      | nil => exact absurd h1 (by simp [listCharLt])
      | cons y bs =>
          cases c with
          | nil => exact absurd h2 (by simp [listCharLt])
          | cons z cs =>
              unfold listCharLt at h1 h2 ⊢
              by_cases hxy : x = y
              · rw [if_pos hxy] at h1
                by_cases hyz : y = z
                · rw [if_pos hyz] at h2
                  rw [if_pos (hxy.trans hyz)]
                  exact ih bs cs h1 h2
                · rw [if_neg hyz] at h2
                  rw [decide_eq_true_iff] at h2
                  have hxz : x < z := hxy ▸ h2
                  rw [if_neg (fun he => hyz ((hxy.symm.trans he)))]
                  exact decide_eq_true hxz
              · rw [if_neg hxy] at h1
                rw [decide_eq_true_iff] at h1
                by_cases hyz : y = z
                · have hxz : x < z := hyz ▸ h1
                  rw [if_neg (fun he => absurd (he ▸ hxz) (lt_irrefl _))]
                  exact decide_eq_true hxz
                · rw [if_neg hyz] at h2
                  rw [decide_eq_true_iff] at h2
                  have hxz : x < z := lt_trans h1 h2
                  rw [if_neg (fun he => absurd (he ▸ hxz) (lt_irrefl _))]
                  exact decide_eq_true hxz

theorem listCharLt_trichotomy (a b : List Char) :
    listCharLt a b = true ∨ a = b ∨ listCharLt b a = true := by
  induction a generalizing b with
  | nil =>
      cases b with
      | nil => exact Or.inr (Or.inl rfl)
      | cons y bs => exact Or.inl rfl
  | cons x as ih =>
      cases b with
      | nil => exact Or.inr (Or.inr rfl)
      | cons y bs =>
          by_cases hxy : x = y
          · rcases ih bs with h | h | h
            · left
              unfold listCharLt
              rw [if_pos hxy]
              exact h
            · exact Or.inr (Or.inl (by rw [hxy, h]))
            · right; right
              unfold listCharLt
              rw [if_pos (hxy.symm)]
              exact h
          · rcases lt_trichotomy x y with h | h | h
            · left
              unfold listCharLt
              rw [if_neg hxy]
              exact decide_eq_true h
            · exact absurd h hxy
            · right; right
              unfold listCharLt
              rw [if_neg (fun he => hxy he.symm)]
              exact decide_eq_true h

theorem pairLe_trans (a b c : List Char × List (List Char))
    (h1 : pairLe a b = true) (h2 : pairLe b c = true) : pairLe a c = true := by
  unfold pairLe at h1 h2 ⊢
  simp only [Bool.or_eq_true, decide_eq_true_eq] at h1 h2 ⊢
  rcases h1 with h1 | h1
  · rcases h2 with h2 | h2
    · exact Or.inl (listCharLt_trans _ _ _ h1 h2)
    · exact Or.inl (h2 ▸ h1)
  · rcases h2 with h2 | h2
    · exact Or.inl (h1 ▸ h2)
    · exact Or.inr (h1.trans h2)

theorem pairLe_total (a b : List Char × List (List Char)) :
    (pairLe a b || pairLe b a) = true := by
  unfold pairLe
  rcases listCharLt_trichotomy a.1 b.1 with h | h | h
  · simp [h]
  · simp [h]
  · simp [h]



theorem addPair_invariant (acc : List (List Char × List (List Char)))
    (p : List Char × List Char)
    (h1 : (acc.map Prod.fst).Nodup) (h2 : ∀ kv ∈ acc, kv.2 ≠ []) :
    ((addPair acc p).map Prod.fst).Nodup ∧ ∀ kv ∈ addPair acc p, kv.2 ≠ [] := by
  unfold addPair
  split
  · constructor
    · rw [List.map_map]
      have : ∀ kv ∈ acc,
          (Prod.fst ∘ fun kv =>
            if kv.1 = p.1 then (kv.1, kv.2 ++ [p.2]) else kv) kv =
            Prod.fst kv := by
        intro kv _
        dsimp only [Function.comp]
        split <;> rfl
      rw [List.map_congr_left this]
      exact h1
    · intro kv hkv
      rw [List.mem_map] at hkv
      obtain ⟨kv0, hkv0, he⟩ := hkv
      by_cases hk : kv0.1 = p.1
      · rw [if_pos hk] at he
        rw [← he]
        simp
      · rw [if_neg hk] at he
        exact he ▸ h2 kv0 hkv0
  · next hnotfound =>
      have hp1 : p.1 ∉ acc.map Prod.fst := by
        intro hmem
        apply hnotfound
        rw [List.mem_map] at hmem
        obtain ⟨kv0, hkv0, he⟩ := hmem
        rw [List.any_eq_true]
        exact ⟨kv0, hkv0, by rw [he]; simp⟩
      constructor
      · rw [List.map_append, List.map_singleton]
        rw [List.nodup_append]
        refine ⟨h1, List.nodup_singleton _, ?_⟩
        intro x hx hy
        rw [List.mem_singleton] at hy
        rw [hy] at hx
        exact hp1 hx
      · intro kv hkv
        rcases List.mem_append.1 hkv with h | h
        · exact h2 kv h
        · rw [List.mem_singleton] at h
          rw [h]
          simp

theorem foldl_addPair_invariant (l : List (List Char × List Char))
    (acc : List (List Char × List (List Char)))
    (h1 : (acc.map Prod.fst).Nodup) (h2 : ∀ kv ∈ acc, kv.2 ≠ []) :
    ((List.foldl addPair acc l).map Prod.fst).Nodup ∧
      ∀ kv ∈ List.foldl addPair acc l, kv.2 ≠ [] := by
  induction l generalizing acc with
  | nil => exact ⟨h1, h2⟩
  | cons p rest ih =>
      rw [List.foldl_cons]
      obtain ⟨ha, hb⟩ := addPair_invariant acc p h1 h2
      exact ih (addPair acc p) ha hb

theorem parse_qsL_invariant (qs : List Char) :
    ((parse_qsL qs).map Prod.fst).Nodup ∧ ∀ kv ∈ parse_qsL qs, kv.2 ≠ [] := by
  unfold parse_qsL
  exact foldl_addPair_invariant _ [] (by simp) (by intro kv h; cases h)

theorem encodeCleanQuery_stable (ps : List (List Char × List (List Char)))
    (hnd : (ps.map Prod.fst).Nodup)
    (hvs : ∀ kv ∈ ps, kv.2 ≠ [])
    (htrack : ∀ kv ∈ ps, pyLowerList kv.1 ∉ trackingParams)
    (hsorted : ps.Pairwise (fun a b => pairLe a b = true)) :
    encodeCleanQuery (urlencodeQS ps) = urlencodeQS ps := by
  unfold encodeCleanQuery
  rw [parse_qsL_urlencodeQS ps hnd hvs]
  rw [List.filter_eq_self.mpr
    (fun kv hkv => decide_eq_true (htrack kv hkv))]
  rw [List.mergeSort_of_sorted hsorted]

theorem encodeCleanQuery_idem (raw : List Char) :
    encodeCleanQuery (encodeCleanQuery raw) = encodeCleanQuery raw := by
  obtain ⟨hnd0, hvs0⟩ := parse_qsL_invariant raw
  have hfilter : ((parse_qsL raw).filter
      (fun kv => pyLowerList kv.1 ∉ trackingParams)).Sublist (parse_qsL raw) :=
    List.filter_sublist _
  set l := (parse_qsL raw).filter (fun kv => pyLowerList kv.1 ∉ trackingParams)
    with hl
  have hndl : (l.map Prod.fst).Nodup :=
    (hfilter.map Prod.fst).nodup hnd0
  have hperm : (l.mergeSort pairLe).Perm l := List.mergeSort_perm l pairLe
  have hnd : ((l.mergeSort pairLe).map Prod.fst).Nodup :=
    ((hperm.map Prod.fst).nodup_iff).2 hndl
  have hmem : ∀ kv ∈ l.mergeSort pairLe, kv ∈ parse_qsL raw := by
    intro kv hkv
    exact hfilter.mem (hperm.mem_iff.1 hkv)
  have hvs : ∀ kv ∈ l.mergeSort pairLe, kv.2 ≠ [] :=
    fun kv hkv => hvs0 kv (hmem kv hkv)
  have htrack : ∀ kv ∈ l.mergeSort pairLe, pyLowerList kv.1 ∉ trackingParams := by
    intro kv hkv
    have hmemf := hperm.mem_iff.1 hkv
    rw [hl, List.mem_filter] at hmemf
    have := hmemf.2
    rwa [decide_eq_true_eq] at this
  have hsorted : (l.mergeSort pairLe).Pairwise (fun a b => pairLe a b = true) :=
    List.sorted_mergeSort pairLe_trans pairLe_total l
  have hmain := encodeCleanQuery_stable (l.mergeSort pairLe) hnd hvs htrack hsorted
  exact hmain


/-! ## Re-parsing an `urlunsplit` image: character classes and recovery -/

/-- A character `urlsplit`'s byte-removal leaves in place. -/
def notUnsafe (c : Char) : Prop := ¬(c = '\t' ∨ c = '\r' ∨ c = '\n')

theorem char_le_toNat (a b : Char) : a ≤ b ↔ a.toNat ≤ b.toNat :=
  ⟨fun h => h, fun h => h⟩

theorem char_eq_toNat (a b : Char) : a = b ↔ a.toNat = b.toNat := by
  constructor
  · intro h; rw [h]
  · intro h
    have := Char.ofNat_toNat a
    rw [h, Char.ofNat_toNat b] at this
    exact this.symm

theorem isAsciiAlpha_iff (c : Char) :
    isAsciiAlpha c = true ↔
      (65 ≤ c.toNat ∧ c.toNat ≤ 90) ∨ (97 ≤ c.toNat ∧ c.toNat ≤ 122) := by
  unfold isAsciiAlpha
  rw [decide_eq_true_eq]
  exact Iff.rfl

theorem isAsciiDigit_iff (c : Char) :
    isAsciiDigit c = true ↔ 48 ≤ c.toNat ∧ c.toNat ≤ 57 := by
  unfold isAsciiDigit
  rw [decide_eq_true_eq]
  exact Iff.rfl

theorem isSchemeChar_iff (c : Char) :
    isSchemeChar c = true ↔
      (65 ≤ c.toNat ∧ c.toNat ≤ 90) ∨ (97 ≤ c.toNat ∧ c.toNat ≤ 122) ∨
      (48 ≤ c.toNat ∧ c.toNat ≤ 57) ∨ c.toNat = 43 ∨ c.toNat = 45 ∨
      c.toNat = 46 := by
  unfold isSchemeChar
  rw [decide_eq_true_eq, isAsciiAlpha_iff, isAsciiDigit_iff, char_eq_toNat,
    char_eq_toNat, char_eq_toNat, show ('+').toNat = 43 from rfl,
    show ('-').toNat = 45 from rfl, show ('.').toNat = 46 from rfl]
  tauto

theorem char_ne_of_toNat_ne (a b : Char) (h : a.toNat ≠ b.toNat) : a ≠ b :=
  fun he => h (he ▸ rfl)

theorem schemeChar_facts (c : Char) (h : isSchemeChar c = true) :
    c ≠ ':' ∧ notUnsafe c ∧ isNetlocDelim c = false := by
  rw [isSchemeChar_iff] at h
  have h9 : ('\t').toNat = 9 := rfl
  have h13 : ('\r').toNat = 13 := rfl
  have h10 : ('\n').toNat = 10 := rfl
  have h47 : ('/').toNat = 47 := rfl
  have h63 : ('?').toNat = 63 := rfl
  have h35 : ('#').toNat = 35 := rfl
  refine ⟨char_ne_of_toNat_ne c ':'
    (by rw [show (':').toNat = 58 from rfl]; omega), ?_, ?_⟩
  · unfold notUnsafe
    rintro (he | he | he) <;> rw [char_eq_toNat] at he <;> omega
  · unfold isNetlocDelim
    rw [decide_eq_false_iff_not]
    rintro (he | he | he) <;> rw [char_eq_toNat] at he <;> omega

theorem isAlwaysSafe_toNat (c : Char) (h : isAlwaysSafe c = true) :
    (65 ≤ c.toNat ∧ c.toNat ≤ 90) ∨ (97 ≤ c.toNat ∧ c.toNat ≤ 122) ∨
    (48 ≤ c.toNat ∧ c.toNat ≤ 57) ∨ c.toNat = 95 ∨ c.toNat = 46 ∨
    c.toNat = 45 ∨ c.toNat = 126 := by
  unfold isAlwaysSafe at h
  rw [decide_eq_true_eq, isAsciiAlpha_iff, isAsciiDigit_iff, char_eq_toNat,
    char_eq_toNat, char_eq_toNat, char_eq_toNat,
    show ('_').toNat = 95 from rfl, show ('.').toNat = 46 from rfl,
    show ('-').toNat = 45 from rfl, show ('~').toNat = 126 from rfl] at h
  tauto



theorem char_upper_iff (c : Char) :
    ('A' ≤ c ∧ c ≤ 'Z') ↔ (65 ≤ c.toNat ∧ c.toNat ≤ 90) := Iff.rfl

theorem notUnsafe_iff (c : Char) :
    notUnsafe c ↔ c.toNat ≠ 9 ∧ c.toNat ≠ 13 ∧ c.toNat ≠ 10 := by
  unfold notUnsafe
  rw [char_eq_toNat, char_eq_toNat, char_eq_toNat,
    show ('\t').toNat = 9 from rfl, show ('\r').toNat = 13 from rfl,
    show ('\n').toNat = 10 from rfl]
  tauto

theorem isNetlocDelim_false_iff (c : Char) :
    isNetlocDelim c = false ↔ c.toNat ≠ 47 ∧ c.toNat ≠ 63 ∧ c.toNat ≠ 35 := by
  unfold isNetlocDelim
  rw [decide_eq_false_iff_not, char_eq_toNat, char_eq_toNat, char_eq_toNat,
    show ('/').toNat = 47 from rfl, show ('?').toNat = 63 from rfl,
    show ('#').toNat = 35 from rfl]
  tauto

theorem pyLowerChar_eq_self (c : Char) (h : ¬(65 ≤ c.toNat ∧ c.toNat ≤ 90)) :
    pyLowerChar c = c := by
  unfold pyLowerChar
  rw [if_neg (fun hc => h ((char_upper_iff c).1 hc))]

theorem pyLowerChar_upper (c : Char) (h : 65 ≤ c.toNat ∧ c.toNat ≤ 90) :
    (pyLowerChar c).toNat = c.toNat + 32 := by
  unfold pyLowerChar
  rw [if_pos ((char_upper_iff c).2 h)]
  exact char_toNat_ofNat_small _ (by omega)

theorem pyLowerChar_toNat_cases (c : Char) :
    (pyLowerChar c).toNat = c.toNat + 32 ∧ 65 ≤ c.toNat ∧ c.toNat ≤ 90 ∨
    pyLowerChar c = c := by
  by_cases h : 65 ≤ c.toNat ∧ c.toNat ≤ 90
  · exact Or.inl ⟨pyLowerChar_upper c h, h⟩
  · exact Or.inr (pyLowerChar_eq_self c h)

theorem pyLowerChar_idem (c : Char) :
    pyLowerChar (pyLowerChar c) = pyLowerChar c := by
  by_cases h : 65 ≤ c.toNat ∧ c.toNat ≤ 90
  · apply pyLowerChar_eq_self
    rw [pyLowerChar_upper c h]
    omega
  · rw [pyLowerChar_eq_self c h, pyLowerChar_eq_self c h]

theorem pyLowerChar_schemeChar (c : Char) (h : isSchemeChar c = true) :
    isSchemeChar (pyLowerChar c) = true := by
  rw [isSchemeChar_iff] at h ⊢
  rcases pyLowerChar_toNat_cases c with ⟨he, hr⟩ | he
  · rw [he]; omega
  · rw [he]; exact h

theorem pyLowerChar_alpha (c : Char) (h : isAsciiAlpha c = true) :
    isAsciiAlpha (pyLowerChar c) = true := by
  rw [isAsciiAlpha_iff] at h ⊢
  rcases pyLowerChar_toNat_cases c with ⟨he, hr⟩ | he
  · rw [he]; omega
  · rw [he]; exact h

theorem pyLowerChar_notUnsafe (c : Char) (h : notUnsafe c) :
    notUnsafe (pyLowerChar c) := by
  rw [notUnsafe_iff] at h ⊢
  rcases pyLowerChar_toNat_cases c with ⟨he, hr⟩ | he
  · rw [he]; omega
  · rw [he]; exact h

theorem pyLowerChar_not_delim (c : Char) (h : isNetlocDelim c = false) :
    isNetlocDelim (pyLowerChar c) = false := by
  rw [isNetlocDelim_false_iff] at h ⊢
  rcases pyLowerChar_toNat_cases c with ⟨he, hr⟩ | he
  · rw [he]; omega
  · rw [he]; exact h

theorem pyLowerList_idem (l : List Char) :
    pyLowerList (pyLowerList l) = pyLowerList l := by
  unfold pyLowerList
  rw [List.map_map]
  apply List.map_congr_left
  intro c _
  exact pyLowerChar_idem c

/-- The invariant of a scheme emitted by `schemeSplit`: non-empty, a
leading ASCII letter, scheme characters only, already lower-case. -/
def goodScheme (s : List Char) : Bool :=
  match s with
  | [] => false
  | c :: rest =>
      isAsciiAlpha c ∧ (c :: rest).all isSchemeChar ∧
      pyLowerList (c :: rest) = c :: rest

theorem goodScheme_ne_nil (s : List Char) (hs : goodScheme s = true) :
    s ≠ [] := by
  intro he
  rw [he] at hs
  exact absurd hs (by decide)

theorem goodScheme_all_scheme (s : List Char) (hs : goodScheme s = true) :
    ∀ c ∈ s, isSchemeChar c = true := by
  cases s with
  | nil => intro c hc; cases hc
  | cons c0 rest =>
      unfold goodScheme at hs
      rw [decide_eq_true_eq] at hs
      intro c hc
      exact List.all_eq_true.1 hs.2.1 c hc

theorem goodScheme_lower (s : List Char) (hs : goodScheme s = true) :
    pyLowerList s = s := by
  cases s with
  | nil => rfl
  | cons c0 rest =>
      unfold goodScheme at hs
      rw [decide_eq_true_eq] at hs
      exact hs.2.2

theorem goodScheme_not_colon (s : List Char) (hs : goodScheme s = true) :
    ':' ∉ s := by
  intro hc
  exact absurd rfl (schemeChar_facts ':' (goodScheme_all_scheme s hs ':' hc)).1

theorem goodScheme_notUnsafe (s : List Char) (hs : goodScheme s = true) :
    ∀ c ∈ s, notUnsafe c :=
  fun c hc => (schemeChar_facts c (goodScheme_all_scheme s hs c hc)).2.1

theorem goodScheme_https : goodScheme "https".data = true := by decide

theorem schemeSplit_goodScheme (url s w : List Char)
    (h : schemeSplit url = (s, w)) (hne : s ≠ []) : goodScheme s = true := by
  unfold schemeSplit at h
  cases hsp : splitAtFirst ':' url with
  | none => rw [hsp] at h; cases h; exact absurd rfl hne
  | some pr =>
      rw [hsp] at h
      cases pr with
      | mk pre post =>
          dsimp only at h
          cases pre with
          | nil => cases h; exact absurd rfl hne
          | cons c0 rest =>
              dsimp only at h
              by_cases hcond : isAsciiAlpha c0 ∧ (c0 :: rest).all isSchemeChar
              · rw [if_pos hcond] at h
                cases h
                unfold goodScheme
                cases hlw : pyLowerList (c0 :: rest) with
                | nil => exact absurd hlw (by simp [pyLowerList])
                | cons d0 drest =>
                    rw [decide_eq_true_eq]
                    have hd0 : d0 = pyLowerChar c0 := by
                      unfold pyLowerList at hlw
                      rw [List.map_cons] at hlw
                      exact (List.cons.injEq _ _ _ _ ▸ hlw).1.symm
                    refine ⟨?_, ?_, ?_⟩
                    · rw [hd0]
                      exact pyLowerChar_alpha c0 hcond.1
                    · rw [List.all_eq_true]
                      intro c hc
                      rw [← hlw] at hc
                      unfold pyLowerList at hc
                      rw [List.mem_map] at hc
                      obtain ⟨c', hc', he⟩ := hc
                      rw [← he]
                      exact pyLowerChar_schemeChar c'
                        (List.all_eq_true.1 hcond.2 c' hc')
                    · rw [← hlw, pyLowerList_idem]
              · rw [if_neg hcond] at h
                cases h
                exact absurd rfl hne

theorem schemeSplit_recover (s r : List Char) (hs : goodScheme s = true) :
    schemeSplit (s ++ ':' :: r) = (s, r) := by
  unfold schemeSplit
  rw [splitAtFirst_not_mem ':' s r (goodScheme_not_colon s hs)]
  cases s with
  | nil => exact absurd rfl (goodScheme_ne_nil [] hs)
  | cons c0 rest =>
      dsimp only
      unfold goodScheme at hs
      rw [decide_eq_true_eq] at hs
      rw [if_pos ⟨hs.1, hs.2.1⟩, hs.2.2]



theorem takeWhile_append_all {α : Type} (p : α → Bool) (a b : List α)
    (h : ∀ c ∈ a, p c = true) :
    (a ++ b).takeWhile p = a ++ b.takeWhile p := by
  induction a with
  | nil => rfl
  | cons x a' ih =>
      rw [List.cons_append, List.takeWhile_cons,
        if_pos (h x (List.mem_cons_self x a')), List.cons_append,
        ih (fun c hc => h c (List.mem_cons_of_mem _ hc))]

theorem dropWhile_append_all {α : Type} (p : α → Bool) (a b : List α)
    (h : ∀ c ∈ a, p c = true) :
    (a ++ b).dropWhile p = b.dropWhile p := by
  induction a with
  | nil => rfl
  | cons x a' ih =>
      rw [List.cons_append, List.dropWhile_cons,
        if_pos (h x (List.mem_cons_self x a')),
        ih (fun c hc => h c (List.mem_cons_of_mem _ hc))]

theorem splitAtFirst_pre_not_mem (ch : Char) (l pre post : List Char)
    (h : splitAtFirst ch l = some (pre, post)) : ch ∉ pre := by
  induction l generalizing pre post with
  | nil => simp [splitAtFirst] at h
  | cons x xs ih =>
      unfold splitAtFirst at h
      by_cases hx : x = ch
      · rw [if_pos hx] at h
        cases h
        intro hc
        cases hc
      · rw [if_neg hx] at h
        cases hs : splitAtFirst ch xs with
        | none => rw [hs] at h; cases h
        | some pp =>
            rw [hs] at h
            cases pp with
            | mk pre2 post2 =>
                cases h
                intro hc
                rcases List.mem_cons.1 hc with hc | hc
                · exact hx hc.symm
                · exact ih _ _ hs hc

theorem splitAtLast_eq (ch : Char) (l a b : List Char)
    (h : splitAtLast ch l = some (a, b)) : l = a ++ ch :: b ∧ ch ∉ b := by
  unfold splitAtLast at h
  cases hs : splitAtFirst ch l.reverse with
  | none => rw [hs] at h; cases h
  | some pp =>
      rw [hs] at h
      cases pp with
      | mk rpost rpre =>
          dsimp only at h
          cases h
          have heq := splitAtFirst_eq ch l.reverse rpost rpre hs
          have hnm := splitAtFirst_pre_not_mem ch l.reverse rpost rpre hs
      
          constructor
          · have : l.reverse.reverse = (rpost ++ ch :: rpre).reverse := by
              rw [heq]
            rw [List.reverse_reverse] at this
            rw [this, List.reverse_append, List.reverse_cons, List.append_assoc]
            rw [List.singleton_append]
          · intro hc
            rw [List.mem_reverse] at hc
            exact hnm hc

theorem splitnetloc_append_tail (b qtail : List Char)
    (hq : qtail = [] ∨ ∃ t, qtail = '?' :: t) :
    splitnetloc (b ++ qtail) =
      ((splitnetloc b).1, (splitnetloc b).2 ++ qtail) := by
  induction b with
  | nil =>
      rcases hq with hq | ⟨t, hq⟩
      · rw [hq]; rfl
      · rw [hq]
        unfold splitnetloc
        rw [List.nil_append]
        rw [List.takeWhile_cons, List.dropWhile_cons]
        rw [if_neg (by decide), if_neg (by decide)]
        rfl
  | cons c b' ih =>
      have h1 := congrArg Prod.fst ih
      have h2 := congrArg Prod.snd ih
      dsimp only at h1 h2
      unfold splitnetloc at h1 h2 ⊢
      dsimp only at h1 h2
      rw [List.cons_append, List.takeWhile_cons, List.takeWhile_cons,
        List.dropWhile_cons, List.dropWhile_cons]
      by_cases hc : (decide ¬isNetlocDelim c = true) = true
      · simp only [if_pos hc, h1, h2]
      · simp only [if_neg hc, List.cons_append]



/-- The optional `?query` tail written by `urlunsplit`. -/
def queryTail (q : List Char) : List Char := if q ≠ [] then '?' :: q else []

theorem append_queryTail (u q : List Char) :
    (if q ≠ [] then u ++ '?' :: q else u) = u ++ queryTail q := by
  unfold queryTail
  split
  · rfl
  · rw [List.append_nil]

theorem queryTail_shape (q : List Char) :
    queryTail q = [] ∨ ∃ t, queryTail q = '?' :: t := by
  unfold queryTail
  split
  · exact Or.inr ⟨q, rfl⟩
  · exact Or.inl rfl

theorem removeTabCrLf_eq_self (l : List Char) (h : ∀ c ∈ l, notUnsafe c) :
    removeTabCrLf l = l := by
  unfold removeTabCrLf
  rw [List.filter_eq_self]
  intro a ha
  rw [decide_eq_true_eq]
  exact h a ha

theorem splitOnceIfPresent_not_mem (ch : Char) (l : List Char) (h : ch ∉ l) :
    splitOnceIfPresent ch l = (l, []) := by
  unfold splitOnceIfPresent
  rw [if_neg h]

theorem splitOnceIfPresent_found (ch : Char) (a b : List Char) (h : ch ∉ a) :
    splitOnceIfPresent ch (a ++ ch :: b) = (a, b) := by
  unfold splitOnceIfPresent
  rw [if_pos (List.mem_append_right a (List.mem_cons_self ch b))]
  rw [splitAtFirst_not_mem ch a b h]

theorem urlunsplit_shape_slash (s n base q : List Char) (hs : s ≠ [])
    (hcond : n ≠ [] ∨ (s ≠ [] ∧ s ∈ uses_netlocL ∧ base.take 2 ≠ ['/', '/'])) :
    urlunsplit s n base q [] =
      s ++ ':' :: '/' :: '/' ::
        (n ++ ((if base ≠ [] ∧ base.take 1 ≠ ['/'] then '/' :: base else base) ++
          queryTail q)) := by
  unfold urlunsplit
  dsimp only
  rw [if_pos hcond, if_pos hs, if_neg (show ¬(([] : List Char) ≠ []) from by simp)]
  rw [append_queryTail]
  rw [List.append_assoc, List.cons_append, List.cons_append, List.cons_append,
    List.append_assoc]

theorem urlunsplit_shape_plain (s n base q : List Char) (hs : s ≠ [])
    (hcond : ¬(n ≠ [] ∨ (s ≠ [] ∧ s ∈ uses_netlocL ∧ base.take 2 ≠ ['/', '/']))) :
    urlunsplit s n base q [] = s ++ ':' :: (base ++ queryTail q) := by
  unfold urlunsplit
  dsimp only
  rw [if_neg hcond, if_pos hs, if_neg (show ¬(([] : List Char) ≠ []) from by simp)]
  rw [append_queryTail, List.append_assoc, List.cons_append]



theorem base_insert_head (base : List Char) :
    (if base ≠ [] ∧ base.take 1 ≠ ['/'] then '/' :: base else base) = [] ∨
    ∃ t, (if base ≠ [] ∧ base.take 1 ≠ ['/'] then '/' :: base else base) =
      '/' :: t := by
  split
  · exact Or.inr ⟨base, rfl⟩
  · next h =>
      rw [not_and_or] at h
      rcases h with h | h
      · rw [not_not] at h
        exact Or.inl h
      · rw [not_not] at h
        cases base with
        | nil => exact Or.inl rfl
        | cons c t =>
            rw [show List.take 1 (c :: t) = [c] from rfl] at h
            cases h
            exact Or.inr ⟨t, rfl⟩

theorem netloc_tail_split (B : List Char)
    (hB : B = [] ∨ ∃ t, (B = '/' :: t ∨ B = '?' :: t)) :
    B.takeWhile (fun c => ¬isNetlocDelim c) = [] ∧
    B.dropWhile (fun c => ¬isNetlocDelim c) = B := by
  rcases hB with hB | ⟨t, hB | hB⟩ <;> rw [hB]
  · exact ⟨rfl, rfl⟩
  · rw [List.takeWhile_cons, List.dropWhile_cons]
    rw [if_neg (by decide), if_neg (by decide)]
    exact ⟨rfl, rfl⟩
  · rw [List.takeWhile_cons, List.dropWhile_cons]
    rw [if_neg (by decide), if_neg (by decide)]
    exact ⟨rfl, rfl⟩

theorem reparse_case_A (s n base q : List Char)
    (hs : goodScheme s = true)
    (hnd : ∀ c ∈ n, isNetlocDelim c = false)
    (hnu : ∀ c ∈ n, notUnsafe c)
    (hbase : ∀ c ∈ base, notUnsafe c ∧ c ≠ '#' ∧ c ≠ '?')
    (hq : ∀ c ∈ q, notUnsafe c ∧ c ≠ '#')
    (hcond : n ≠ [] ∨ (s ≠ [] ∧ s ∈ uses_netlocL ∧ base.take 2 ≠ ['/', '/'])) :
    urlsplitStages (urlunsplit s n base q []) =
      ⟨s, n, (if base ≠ [] ∧ base.take 1 ≠ ['/'] then '/' :: base else base),
        q, []⟩ := by
  have hbaseIns : ∀ c ∈ (if base ≠ [] ∧ base.take 1 ≠ ['/'] then '/' :: base
      else base), notUnsafe c ∧ c ≠ '#' ∧ c ≠ '?' := by
    intro c hc
    split at hc
    · rcases List.mem_cons.1 hc with hc | hc
      · rw [hc]
        exact ⟨by rw [notUnsafe_iff]; decide, by decide, by decide⟩
      · exact hbase c hc
    · exact hbase c hc
  have hqt : ∀ c ∈ queryTail q, notUnsafe c ∧ c ≠ '#' := by
    intro c hc
    unfold queryTail at hc
    split at hc
    · rcases List.mem_cons.1 hc with hc | hc
      · rw [hc]
        exact ⟨by rw [notUnsafe_iff]; decide, by decide⟩
      · exact hq c hc
    · cases hc
  set base' := if base ≠ [] ∧ base.take 1 ≠ ['/'] then '/' :: base else base
    with hb'
  set B := base' ++ queryTail q with hB
  have hBmem : ∀ c ∈ B, notUnsafe c ∧ c ≠ '#' := by
    intro c hc
    rw [hB] at hc
    rcases List.mem_append.1 hc with hc | hc
    · exact ⟨(hbaseIns c hc).1, (hbaseIns c hc).2.1⟩
    · exact hqt c hc
  rw [urlunsplit_shape_slash s n base q (goodScheme_ne_nil s hs) hcond]
  unfold urlsplitStages
  have hR : ∀ c ∈ '/' :: '/' :: (n ++ B), notUnsafe c := by
    intro c hc
    rcases List.mem_cons.1 hc with hc | hc
    · rw [hc, notUnsafe_iff]; decide
    · rcases List.mem_cons.1 hc with hc | hc
      · rw [hc, notUnsafe_iff]; decide
      · rcases List.mem_append.1 hc with hc | hc
        · exact hnu c hc
        · exact (hBmem c hc).1
  have hall : ∀ c ∈ s ++ ':' :: '/' :: '/' :: (n ++ B), notUnsafe c := by
    intro c hc
    rcases List.mem_append.1 hc with hc | hc
    · exact goodScheme_notUnsafe s hs c hc
    · rcases List.mem_cons.1 hc with hc | hc
      · rw [hc, notUnsafe_iff]; decide
      · exact hR c hc
  rw [removeTabCrLf_eq_self _ hall]
  rw [schemeSplit_recover s ('/' :: '/' :: (n ++ B)) hs]
  dsimp only
  rw [if_pos (show List.take 2 ('/' :: '/' :: (n ++ B)) = ['/', '/'] from rfl)]
  rw [show List.drop 2 ('/' :: '/' :: (n ++ B)) = n ++ B from rfl]
  unfold splitnetloc
  rw [takeWhile_append_all _ n B
      (by intro c hc; rw [decide_eq_true_eq, hnd c hc]; exact Bool.false_ne_true),
    dropWhile_append_all _ n B
      (by intro c hc; rw [decide_eq_true_eq, hnd c hc]; exact Bool.false_ne_true)]
  have hBshape : B = [] ∨ ∃ t, (B = '/' :: t ∨ B = '?' :: t) := by
    rcases base_insert_head base with h | ⟨t, h⟩
    · rw [hB, hb', h, List.nil_append]
      rcases queryTail_shape q with h2 | ⟨t2, h2⟩
      · exact Or.inl h2
      · exact Or.inr ⟨t2, Or.inr h2⟩
    · rw [hB, hb', h]
      exact Or.inr ⟨t ++ queryTail q, Or.inl rfl⟩
  obtain ⟨htk, hdr⟩ := netloc_tail_split B hBshape
  rw [htk, hdr, List.append_nil]
  dsimp only
  have hnoHash : '#' ∉ B := fun hc => absurd rfl (hBmem '#' hc).2
  rw [splitOnceIfPresent_not_mem '#' B hnoHash]
  dsimp only
  by_cases hqn : q = []
  · have : B = base' := by
      rw [hB]
      unfold queryTail
      rw [if_neg (by simpa using hqn), List.append_nil]
    rw [this]
    have hnoQ : '?' ∉ base' := fun hc => absurd rfl (hbaseIns '?' hc).2.2
    rw [splitOnceIfPresent_not_mem '?' base' hnoQ]
    rw [hqn]
  · have : B = base' ++ '?' :: q := by
      rw [hB]
      unfold queryTail
      rw [if_pos (by simpa using hqn)]
    rw [this]
    have hnoQ : '?' ∉ base' := fun hc => absurd rfl (hbaseIns '?' hc).2.2
    rw [splitOnceIfPresent_found '?' base' q hnoQ]



theorem take2_append_tail_ne (base q : List Char)
    (hb : base.take 2 ≠ ['/', '/']) :
    (base ++ queryTail q).take 2 ≠ ['/', '/'] := by
  rcases queryTail_shape q with h | ⟨t, h⟩ <;> rw [h]
  · rw [List.append_nil]; exact hb
  · cases base with
    | nil =>
        rw [List.nil_append]
        intro hc
        rw [show List.take 2 ('?' :: t) = '?' :: List.take 1 t from rfl] at hc
        cases hc
    | cons x base1 =>
        cases base1 with
        | nil =>
            intro hc
            rw [show (([x] : List Char) ++ '?' :: t) = x :: '?' :: t from rfl,
              show List.take 2 (x :: '?' :: t) = [x, '?'] from rfl] at hc
            rw [List.cons.injEq, List.cons.injEq] at hc
            exact absurd hc.2.1 (by decide)
        | cons y base2 =>
            intro hc
            rw [show ((x :: y :: base2) ++ '?' :: t) =
              x :: y :: (base2 ++ '?' :: t) from rfl,
              show List.take 2 (x :: y :: (base2 ++ '?' :: t)) = [x, y]
                from rfl] at hc
            exact hb (by rw [show List.take 2 (x :: y :: base2) = [x, y] from rfl,
              hc])

theorem reparse_case_C (s n base q : List Char)
    (hs : goodScheme s = true)
    (hbase : ∀ c ∈ base, notUnsafe c ∧ c ≠ '#' ∧ c ≠ '?')
    (hq : ∀ c ∈ q, notUnsafe c ∧ c ≠ '#')
    (hcond : ¬(n ≠ [] ∨ (s ≠ [] ∧ s ∈ uses_netlocL ∧ base.take 2 ≠ ['/', '/'])))
    (hb2 : base.take 2 ≠ ['/', '/']) :
    urlsplitStages (urlunsplit s n base q []) = ⟨s, [], base, q, []⟩ := by
  have hqt : ∀ c ∈ queryTail q, notUnsafe c ∧ c ≠ '#' := by
    intro c hc
    unfold queryTail at hc
    split at hc
    · rcases List.mem_cons.1 hc with hc | hc
      · rw [hc]
        exact ⟨by rw [notUnsafe_iff]; decide, by decide⟩
      · exact hq c hc
    · cases hc
  rw [urlunsplit_shape_plain s n base q (goodScheme_ne_nil s hs) hcond]
  unfold urlsplitStages
  have hall : ∀ c ∈ s ++ ':' :: (base ++ queryTail q), notUnsafe c := by
    intro c hc
    rcases List.mem_append.1 hc with hc | hc
    · exact goodScheme_notUnsafe s hs c hc
    · rcases List.mem_cons.1 hc with hc | hc
      · rw [hc, notUnsafe_iff]; decide
      · rcases List.mem_append.1 hc with hc | hc
        · exact (hbase c hc).1
        · exact (hqt c hc).1
  rw [removeTabCrLf_eq_self _ hall]
  rw [schemeSplit_recover s (base ++ queryTail q) hs]
  dsimp only
  rw [if_neg (take2_append_tail_ne base q hb2)]
  dsimp only
  have hnoHash : '#' ∉ base ++ queryTail q := by
    intro hc
    rcases List.mem_append.1 hc with hc | hc
    · exact absurd rfl (hbase '#' hc).2.1
    · exact absurd rfl (hqt '#' hc).2
  rw [splitOnceIfPresent_not_mem '#' _ hnoHash]
  dsimp only
  have hnoQ : '?' ∉ base := fun hc => absurd rfl (hbase '?' hc).2.2
  by_cases hqn : q = []
  · have : queryTail q = [] := by unfold queryTail; rw [if_neg (by simpa using hqn)]
    rw [this, List.append_nil]
    rw [splitOnceIfPresent_not_mem '?' base hnoQ]
    rw [hqn]
  · have : queryTail q = '?' :: q := by
      unfold queryTail; rw [if_pos (by simpa using hqn)]
    rw [this]
    rw [splitOnceIfPresent_found '?' base q hnoQ]

theorem reparse_case_B (s n base q : List Char)
    (hs : goodScheme s = true)
    (hbase : ∀ c ∈ base, notUnsafe c ∧ c ≠ '#' ∧ c ≠ '?')
    (hq : ∀ c ∈ q, notUnsafe c ∧ c ≠ '#')
    (hcond : ¬(n ≠ [] ∨ (s ≠ [] ∧ s ∈ uses_netlocL ∧ base.take 2 ≠ ['/', '/'])))
    (hb2 : base.take 2 = ['/', '/']) :
    urlsplitStages (urlunsplit s n base q []) =
      ⟨s, (splitnetloc (base.drop 2)).1, (splitnetloc (base.drop 2)).2, q,
        []⟩ := by
  have hbase_shape : base = '/' :: '/' :: base.drop 2 := by
    cases base with
    | nil => cases hb2
    | cons x b1 =>
        cases b1 with
        | nil => cases hb2
        | cons y b2 =>
            rw [show List.take 2 (x :: y :: b2) = [x, y] from rfl] at hb2
            rw [List.cons.injEq, List.cons.injEq] at hb2
            rw [hb2.1, hb2.2.1]
            rfl
  have hqt : ∀ c ∈ queryTail q, notUnsafe c ∧ c ≠ '#' := by
    intro c hc
    unfold queryTail at hc
    split at hc
    · rcases List.mem_cons.1 hc with hc | hc
      · rw [hc]
        exact ⟨by rw [notUnsafe_iff]; decide, by decide⟩
      · exact hq c hc
    · cases hc
  rw [urlunsplit_shape_plain s n base q (goodScheme_ne_nil s hs) hcond]
  unfold urlsplitStages
  have hall : ∀ c ∈ s ++ ':' :: (base ++ queryTail q), notUnsafe c := by
    intro c hc
    rcases List.mem_append.1 hc with hc | hc
    · exact goodScheme_notUnsafe s hs c hc
    · rcases List.mem_cons.1 hc with hc | hc
      · rw [hc, notUnsafe_iff]; decide
      · rcases List.mem_append.1 hc with hc | hc
        · exact (hbase c hc).1
        · exact (hqt c hc).1
  rw [removeTabCrLf_eq_self _ hall]
  rw [schemeSplit_recover s (base ++ queryTail q) hs]
  dsimp only
  have hshape2 : base ++ queryTail q =
      '/' :: '/' :: (base.drop 2 ++ queryTail q) := by
    conv_lhs => rw [hbase_shape]
    rfl
  rw [hshape2]
  rw [if_pos (show List.take 2 ('/' :: '/' :: (base.drop 2 ++ queryTail q)) =
    ['/', '/'] from rfl)]
  rw [show List.drop 2 ('/' :: '/' :: (base.drop 2 ++ queryTail q)) =
    base.drop 2 ++ queryTail q from rfl]
  rw [splitnetloc_append_tail (base.drop 2) (queryTail q) (queryTail_shape q)]
  dsimp only
  have hdropmem : ∀ c ∈ (splitnetloc (base.drop 2)).2, notUnsafe c ∧ c ≠ '#' ∧ c ≠ '?' := by
    intro c hc
    unfold splitnetloc at hc
    dsimp only at hc
    exact hbase c (List.mem_of_mem_drop ((List.dropWhile_sublist _).mem hc))
  have hnoHash : '#' ∉ (splitnetloc (base.drop 2)).2 ++ queryTail q := by
    intro hc
    rcases List.mem_append.1 hc with hc | hc
    · exact absurd rfl (hdropmem '#' hc).2.1
    · exact absurd rfl (hqt '#' hc).2
  rw [splitOnceIfPresent_not_mem '#' _ hnoHash]
  dsimp only
  have hnoQ : '?' ∉ (splitnetloc (base.drop 2)).2 :=
    fun hc => absurd rfl (hdropmem '?' hc).2.2
  by_cases hqn : q = []
  · have : queryTail q = [] := by unfold queryTail; rw [if_neg (by simpa using hqn)]
    rw [this, List.append_nil]
    rw [splitOnceIfPresent_not_mem '?' _ hnoQ]
    rw [hqn]
  · have : queryTail q = '?' :: q := by
      unfold queryTail; rw [if_pos (by simpa using hqn)]
    rw [this]
    rw [splitOnceIfPresent_found '?' _ q hnoQ]


/-! ## C4 (amended): idempotence of normalize_url on re-parse-stable outputs -/

theorem mem_removeTabCrLf_notUnsafe (x : List Char) (c : Char)
    (h : c ∈ removeTabCrLf x) : notUnsafe c := by
  unfold removeTabCrLf at h
  have := List.of_mem_filter h
  rwa [decide_eq_true_eq] at this

theorem schemeSplit_fst_cases (url : List Char) :
    (schemeSplit url).1 = [] ∨ goodScheme (schemeSplit url).1 = true := by
  by_cases h : (schemeSplit url).1 = []
  · exact Or.inl h
  · exact Or.inr (schemeSplit_goodScheme url _ _ rfl h)

theorem schemeSplit_snd_mem (url : List Char) (c : Char)
    (h : c ∈ (schemeSplit url).2) : c ∈ url := by
  unfold schemeSplit at h
  cases hs : splitAtFirst ':' url with
  | none => rw [hs] at h; exact h
  | some pr =>
      rw [hs] at h
      cases pr with
      | mk pre post =>
          dsimp only at h
          cases pre with
          | nil => exact h
          | cons c0 rest =>
              dsimp only at h
              split at h
              · rw [splitAtFirst_eq ':' url (c0 :: rest) post hs]
                exact List.mem_append_right _ (List.mem_cons_of_mem _ h)
              · exact h

theorem splitOnce_fst_mem (ch : Char) (l : List Char) (c : Char)
    (h : c ∈ (splitOnceIfPresent ch l).1) : c ∈ l := by
  unfold splitOnceIfPresent at h
  split at h
  · cases hs : splitAtFirst ch l with
    | none => rw [hs] at h; exact h
    | some pr =>
        rw [hs] at h
        cases pr with
        | mk pre post =>
            dsimp only at h
            rw [splitAtFirst_eq ch l pre post hs]
            exact List.mem_append_left _ h
  · exact h

theorem splitOnce_snd_mem (ch : Char) (l : List Char) (c : Char)
    (h : c ∈ (splitOnceIfPresent ch l).2) : c ∈ l := by
  unfold splitOnceIfPresent at h
  split at h
  · cases hs : splitAtFirst ch l with
    | none => rw [hs] at h; cases h
    | some pr =>
        rw [hs] at h
        cases pr with
        | mk pre post =>
            dsimp only at h
            rw [splitAtFirst_eq ch l pre post hs]
            exact List.mem_append_right _ (List.mem_cons_of_mem _ h)
  · cases h

theorem splitOnce_fst_not_ch (ch : Char) (l : List Char) :
    ch ∉ (splitOnceIfPresent ch l).1 := by
  unfold splitOnceIfPresent
  split
  · next hmem =>
      cases hs : splitAtFirst ch l with
      | none =>
          have := splitAtFirst_isSome_of_mem ch l hmem
          rw [hs] at this
          exact absurd this (by simp)
      | some pr =>
          cases pr with
          | mk pre post =>
              dsimp only
              exact splitAtFirst_pre_not_mem ch l pre post hs
  · next hmem => exact hmem

theorem splitparams_fst_mem (x : List Char) (c : Char)
    (h : c ∈ (splitparams x).1) : c ∈ x := by
  unfold splitparams at h
  split at h
  · cases hsl : splitAtLast '/' x with
    | none => rw [hsl] at h; exact h
    | some pr =>
        rw [hsl] at h
        cases pr with
        | mk a b =>
            dsimp only at h
            obtain ⟨hx, _⟩ := splitAtLast_eq '/' x a b hsl
            cases hsf : splitAtFirst ';' b with
            | none => rw [hsf] at h; exact h
            | some pr2 =>
                rw [hsf] at h
                cases pr2 with
                | mk b1 b2 =>
                    dsimp only at h
                    rw [hx]
                    rcases List.mem_append.1 h with h | h
                    · exact List.mem_append_left _ h
                    · rcases List.mem_cons.1 h with h | h
                      · rw [h]
                        exact List.mem_append_right _ (List.mem_cons_self _ _)
                      · refine List.mem_append_right _ (List.mem_cons_of_mem _ ?_)
                        rw [splitAtFirst_eq ';' b b1 b2 hsf]
                        exact List.mem_append_left _ h
  · cases hsf : splitAtFirst ';' x with
    | none => rw [hsf] at h; exact h
    | some pr =>
        rw [hsf] at h
        cases pr with
        | mk u1 u2 =>
            dsimp only at h
            rw [splitAtFirst_eq ';' x u1 u2 hsf]
            exact List.mem_append_left _ h

theorem splitparams_snd_mem (x : List Char) (c : Char)
    (h : c ∈ (splitparams x).2) : c ∈ x := by
  unfold splitparams at h
  split at h
  · cases hsl : splitAtLast '/' x with
    | none => rw [hsl] at h; cases h
    | some pr =>
        rw [hsl] at h
        cases pr with
        | mk a b =>
            dsimp only at h
            obtain ⟨hx, _⟩ := splitAtLast_eq '/' x a b hsl
            cases hsf : splitAtFirst ';' b with
            | none => rw [hsf] at h; cases h
            | some pr2 =>
                rw [hsf] at h
                cases pr2 with
                | mk b1 b2 =>
                    dsimp only at h
                    rw [hx]
                    refine List.mem_append_right _ (List.mem_cons_of_mem _ ?_)
                    rw [splitAtFirst_eq ';' b b1 b2 hsf]
                    exact List.mem_append_right _ (List.mem_cons_of_mem _ h)
  · cases hsf : splitAtFirst ';' x with
    | none => rw [hsf] at h; cases h
    | some pr =>
        rw [hsf] at h
        cases pr with
        | mk u1 u2 =>
            dsimp only at h
            rw [splitAtFirst_eq ';' x u1 u2 hsf]
            exact List.mem_append_right _ (List.mem_cons_of_mem _ h)



theorem urlsplitStages_facts (x : List Char) :
    (∀ c ∈ (urlsplitStages x).netloc, isNetlocDelim c = false ∧ notUnsafe c) ∧
    (∀ c ∈ (urlsplitStages x).path, notUnsafe c ∧ c ≠ '#' ∧ c ≠ '?') ∧
    (∀ c ∈ (urlsplitStages x).query, notUnsafe c ∧ c ≠ '#') := by
  unfold urlsplitStages
  dsimp only
  by_cases hsl : (schemeSplit (removeTabCrLf x)).2.take 2 = ['/', '/']
  · rw [if_pos hsl]
    have hrest : ∀ c ∈ (splitnetloc ((schemeSplit (removeTabCrLf x)).2.drop 2)).2,
        notUnsafe c := by
      intro c hc
      unfold splitnetloc at hc
      dsimp only at hc
      exact mem_removeTabCrLf_notUnsafe x c
        (schemeSplit_snd_mem _ c
          (List.mem_of_mem_drop ((List.dropWhile_sublist _).mem hc)))
    refine ⟨?_, ?_, ?_⟩
    · intro c hc
      unfold splitnetloc at hc
      dsimp only at hc
      have hdelim := List.mem_takeWhile_imp hc
      rw [decide_eq_true_eq] at hdelim
      refine ⟨Bool.eq_false_iff.mpr hdelim, ?_⟩
      exact mem_removeTabCrLf_notUnsafe x c
        (schemeSplit_snd_mem _ c
          (List.mem_of_mem_drop ((List.takeWhile_sublist _).mem hc)))
    · intro c hc
      have hfp := splitOnce_fst_mem '?' _ c hc
      have hnp := splitOnce_fst_mem '#' _ c hfp
      refine ⟨hrest c hnp, ?_, ?_⟩
      · intro he
        exact splitOnce_fst_not_ch '#' _ (he ▸ hfp)
      · intro he
        exact splitOnce_fst_not_ch '?' _ (he ▸ hc)
    · intro c hc
      have hfp := splitOnce_snd_mem '?' _ c hc
      have hnp := splitOnce_fst_mem '#' _ c hfp
      refine ⟨hrest c hnp, ?_⟩
      intro he
      exact splitOnce_fst_not_ch '#' _ (he ▸ hfp)
  · rw [if_neg hsl]
    have hrest : ∀ c ∈ (schemeSplit (removeTabCrLf x)).2, notUnsafe c :=
      fun c hc => mem_removeTabCrLf_notUnsafe x c (schemeSplit_snd_mem _ c hc)
    refine ⟨?_, ?_, ?_⟩
    · intro c hc
      cases hc
    · intro c hc
      have hfp := splitOnce_fst_mem '?' _ c hc
      have hnp := splitOnce_fst_mem '#' _ c hfp
      refine ⟨hrest c hnp, ?_, ?_⟩
      · intro he
        exact splitOnce_fst_not_ch '#' _ (he ▸ hfp)
      · intro he
        exact splitOnce_fst_not_ch '?' _ (he ▸ hc)
    · intro c hc
      have hfp := splitOnce_snd_mem '?' _ c hc
      have hnp := splitOnce_fst_mem '#' _ c hfp
      refine ⟨hrest c hnp, ?_⟩
      intro he
      exact splitOnce_fst_not_ch '#' _ (he ▸ hfp)

theorem urlparseStages_facts (st : SplitResult)
    (hpath : ∀ c ∈ st.path, notUnsafe c ∧ c ≠ '#' ∧ c ≠ '?') :
    (∀ c ∈ (urlparseStages st).path, notUnsafe c ∧ c ≠ '#' ∧ c ≠ '?') ∧
    (∀ c ∈ (urlparseStages st).params, notUnsafe c ∧ c ≠ '#' ∧ c ≠ '?') := by
  unfold urlparseStages
  split
  · dsimp only
    constructor
    · intro c hc
      exact hpath c (splitparams_fst_mem st.path c hc)
    · intro c hc
      exact hpath c (splitparams_snd_mem st.path c hc)
  · dsimp only
    refine ⟨hpath, ?_⟩
    intro c hc
    cases hc

theorem urlparseStages_netloc (st : SplitResult) :
    (urlparseStages st).netloc = st.netloc := by
  unfold urlparseStages
  split <;> rfl

theorem urlparseStages_query (st : SplitResult) :
    (urlparseStages st).query = st.query := by
  unfold urlparseStages
  split <;> rfl



theorem dropWhile_head_false {α : Type} (p : α → Bool) (l : List α) (c : α)
    (t : List α) (h : l.dropWhile p = c :: t) : p c = false := by
  induction l with
  | nil => cases h
  | cons a l' ih =>
      rw [List.dropWhile_cons] at h
      by_cases ha : p a = true
      · rw [if_pos ha] at h
        exact ih h
      · rw [if_neg ha] at h
        cases h
        exact Bool.eq_false_iff.mpr ha

theorem splitnetloc_snd_shape (b : List Char)
    (hb : ∀ c ∈ b, c ≠ '#' ∧ c ≠ '?') :
    (splitnetloc b).2 = [] ∨ ∃ t, (splitnetloc b).2 = '/' :: t := by
  cases hd : (splitnetloc b).2 with
  | nil => exact Or.inl rfl
  | cons c t =>
      right
      refine ⟨t, ?_⟩
      unfold splitnetloc at hd
      dsimp only at hd
      have hfalse := dropWhile_head_false _ b c t hd
      have hmem : c ∈ b := by
        have : c ∈ b.dropWhile (fun c => ¬isNetlocDelim c) := by
          rw [hd]; exact List.mem_cons_self c t
        exact (List.dropWhile_sublist _).mem this
      have hdelim : isNetlocDelim c = true := by
        by_contra hne
        have hcontra : (decide ¬isNetlocDelim c = true) = true := by
          rw [decide_eq_true_eq]
          exact hne
        rw [hcontra] at hfalse
        cases hfalse
      unfold isNetlocDelim at hdelim
      rw [decide_eq_true_eq] at hdelim
      rcases hdelim with hdl | hdl | hdl
      · rw [hdl]
      · exact absurd hdl (hb c hmem).2
      · exact absurd hdl (hb c hmem).1

theorem base_insert_noop (b : List Char) (h : b = [] ∨ ∃ t, b = '/' :: t) :
    (if b ≠ [] ∧ b.take 1 ≠ ['/'] then '/' :: b else b) = b := by
  rcases h with h | ⟨t, h⟩
  · rw [h]
    rw [if_neg (by simp)]
  · rw [h]
    rw [if_neg (by simp)]

/-- The stability conditions of the amended C4 claim, checked on the
re-parse of a normalized URL `v`: the netloc is already lower-case, its
default-port strip is a no-op, the re-parse did not swallow a `//`
marker into an empty netloc, and re-joining path and params restores
the split path.  A `v` whose re-parse raises is trivially stable. -/
def reparseStable (extraReject : List Char → Bool) (v : List Char) : Bool :=
  match urlparseE extraReject v with
  | .error _ => true
  | .ok p =>
      pyLowerList p.netloc = p.netloc ∧
      stripDefaultPort (if pyLowerList p.scheme = [] then "https".data
        else pyLowerList p.scheme) p.netloc = p.netloc ∧
      ¬(p.netloc = [] ∧ (v.drop (p.scheme.length + 1)).take 2 = ['/', '/']) ∧
      (if p.params ≠ [] then p.path ++ ';' :: p.params else p.path) =
        (urlsplitStages v).path



theorem normalize_unsplit_stable (reject : List Char → Bool)
    (s n base q : List Char)
    (hs : goodScheme s = true)
    (hnd : ∀ c ∈ n, isNetlocDelim c = false)
    (hnu : ∀ c ∈ n, notUnsafe c)
    (hbase : ∀ c ∈ base, notUnsafe c ∧ c ≠ '#' ∧ c ≠ '?')
    (hq : ∀ c ∈ q, notUnsafe c ∧ c ≠ '#')
    (hqstable : q ≠ [] → encodeCleanQuery q = q)
    (hstrip : pyStripList (urlunsplit s n base q []) = urlunsplit s n base q [])
    (hstable : reparseStable reject (urlunsplit s n base q []) = true) :
    normalize_urlL reject (urlunsplit s n base q []) =
      urlunsplit s n base q [] := by
  unfold normalize_urlL
  rw [hstrip]
  cases hpe : urlparseE reject (urlunsplit s n base q []) with
  | error e => rfl
  | ok p =>
      dsimp only
      have hpeq : p = urlparseStages (urlsplitStages (urlunsplit s n base q [])) :=
        urlparseE_ok reject _ p hpe
      unfold reparseStable at hstable
      rw [hpe] at hstable
      dsimp only at hstable
      rw [decide_eq_true_eq] at hstable
      obtain ⟨hlow, hport, hH3, hH4⟩ := hstable
      have hqe : ∀ qq : List Char, qq = q →
          (if qq ≠ [] then encodeCleanQuery qq else []) = q := by
        intro qq hqq
        rw [hqq]
        by_cases hqn : q = []
        · rw [if_neg (by simpa using hqn), hqn]
        · rw [if_pos (by simpa using hqn), hqstable hqn]
      by_cases hcond : n ≠ [] ∨ (s ≠ [] ∧ s ∈ uses_netlocL ∧
          base.take 2 ≠ ['/', '/'])
      · -- the `//` marker was written: netloc and path recovered directly
        have hstA := reparse_case_A s n base q hs hnd hnu hbase hq hcond
        have hscheme : p.scheme = s := by
          rw [hpeq, urlparseStages_scheme, hstA]
        have hsne : pyLowerList p.scheme = s := by
          rw [hscheme]; exact goodScheme_lower s hs
        rw [hsne, if_neg (goodScheme_ne_nil s hs), hlow]
        rw [hsne, if_neg (goodScheme_ne_nil s hs)] at hport
        rw [hport]
        have hquery : p.query = q := by
          rw [hpeq, urlparseStages_query, hstA]
        rw [hqe p.query hquery]
        unfold urlunparse
        rw [hH4, hstA]
        dsimp only
        have hnet : p.netloc = n := by
          rw [hpeq, urlparseStages_netloc, hstA]
        rw [hnet]
        have hcondA : n ≠ [] ∨ (s ≠ [] ∧ s ∈ uses_netlocL ∧
            (if base ≠ [] ∧ base.take 1 ≠ ['/'] then '/' :: base
              else base).take 2 ≠ ['/', '/']) := by
          rcases hcond with h | ⟨h1, h2, h3⟩
          · exact Or.inl h
          · refine Or.inr ⟨h1, h2, ?_⟩
            split
            · next hins =>
                intro hcontra
                rw [show List.take 2 ('/' :: base) = '/' :: base.take 1
                  from rfl] at hcontra
                rw [List.cons.injEq] at hcontra
                exact hins.2 hcontra.2
            · exact h3
        rw [urlunsplit_shape_slash s n base q (goodScheme_ne_nil s hs) hcond,
          urlunsplit_shape_slash s n _ q (goodScheme_ne_nil s hs) hcondA]
        rw [base_insert_noop _ (base_insert_head base)]
      · by_cases hb2 : base.take 2 = ['/', '/']
        · -- `//` not written but the path starts with it: the re-parse
          -- takes a netloc out of the path; the stability hypotheses
          -- force that netloc to be non-empty and unchanged
          have hstB := reparse_case_B s n base q hs hbase hq hcond hb2
          have hscheme : p.scheme = s := by
            rw [hpeq, urlparseStages_scheme, hstB]
          have hsne : pyLowerList p.scheme = s := by
            rw [hscheme]; exact goodScheme_lower s hs
          rw [hsne, if_neg (goodScheme_ne_nil s hs), hlow]
          rw [hsne, if_neg (goodScheme_ne_nil s hs)] at hport
          rw [hport]
          have hquery : p.query = q := by
            rw [hpeq, urlparseStages_query, hstB]
          rw [hqe p.query hquery]
          unfold urlunparse
          rw [hH4, hstB]
          dsimp only
          have hnet : p.netloc = (splitnetloc (base.drop 2)).1 := by
            rw [hpeq, urlparseStages_netloc, hstB]
          have hbase_shape : base = '/' :: '/' :: base.drop 2 := by
            cases base with
            | nil => cases hb2
            | cons x b1 =>
                cases b1 with
                | nil => cases hb2
                | cons y b2 =>
                    rw [show List.take 2 (x :: y :: b2) = [x, y] from rfl] at hb2
                    rw [List.cons.injEq, List.cons.injEq] at hb2
                    rw [hb2.1, hb2.2.1]
                    rfl
          have hM1ne : (splitnetloc (base.drop 2)).1 ≠ [] := by
            intro hM1
            apply hH3
            refine ⟨by rw [hnet]; exact hM1, ?_⟩
            rw [urlunsplit_shape_plain s n base q (goodScheme_ne_nil s hs) hcond]
            rw [hscheme]
            rw [List.append_cons]
            rw [show s.length + 1 = (s ++ [':']).length from by simp]
            rw [List.drop_left]
            conv_lhs => rw [hbase_shape]
            rfl
          have hM2shape := splitnetloc_snd_shape (base.drop 2)
            (fun c hc => ⟨(hbase c (List.mem_of_mem_drop hc)).2.1,
              (hbase c (List.mem_of_mem_drop hc)).2.2⟩)
          rw [hnet]
          rw [urlunsplit_shape_plain s n base q (goodScheme_ne_nil s hs) hcond]
          rw [urlunsplit_shape_slash s _ _ q (goodScheme_ne_nil s hs)
            (Or.inl hM1ne)]
          rw [base_insert_noop _ hM2shape]
          rw [← List.append_assoc]
          unfold splitnetloc
          dsimp only
          rw [List.takeWhile_append_dropWhile]
          conv_rhs => rw [hbase_shape]
          rfl
        · -- no `//` anywhere: the path is recovered verbatim
          have hstC := reparse_case_C s n base q hs hbase hq hcond hb2
          have hscheme : p.scheme = s := by
            rw [hpeq, urlparseStages_scheme, hstC]
          have hsne : pyLowerList p.scheme = s := by
            rw [hscheme]; exact goodScheme_lower s hs
          rw [hsne, if_neg (goodScheme_ne_nil s hs), hlow]
          rw [hsne, if_neg (goodScheme_ne_nil s hs)] at hport
          rw [hport]
          have hquery : p.query = q := by
            rw [hpeq, urlparseStages_query, hstC]
          rw [hqe p.query hquery]
          unfold urlunparse
          rw [hH4, hstC]
          dsimp only
          have hnet : p.netloc = [] := by
            rw [hpeq, urlparseStages_netloc, hstC]
          rw [hnet]
          have hcondC : ¬(([] : List Char) ≠ [] ∨ (s ≠ [] ∧ s ∈ uses_netlocL ∧
              base.take 2 ≠ ['/', '/'])) := by
            rw [not_or] at hcond ⊢
            exact ⟨by simp, hcond.2⟩
          rw [urlunsplit_shape_plain s n base q (goodScheme_ne_nil s hs) hcond,
            urlunsplit_shape_plain s [] base q (goodScheme_ne_nil s hs) hcondC]



theorem mem_intercalate_sep (x : Char) (ls : List (List Char)) (c : Char)
    (h : c ∈ List.intercalate [x] ls) : c = x ∨ ∃ l ∈ ls, c ∈ l := by
  induction ls with
  | nil =>
      rw [show List.intercalate [x] ([] : List (List Char)) = [] from by
        simp [List.intercalate]] at h
      cases h
  | cons a t ih =>
      cases t with
      | nil =>
          rw [show List.intercalate [x] [a] = a from by
            simp [List.intercalate, List.intersperse]] at h
          exact Or.inr ⟨a, List.mem_cons_self a [], h⟩
      | cons b t2 =>
          rw [show List.intercalate [x] (a :: b :: t2) =
              a ++ [x] ++ List.intercalate [x] (b :: t2) from by
            simp [List.intercalate, List.intersperse]] at h
          rcases List.mem_append.1 h with h2 | h2
          · rcases List.mem_append.1 h2 with h3 | h3
            · exact Or.inr ⟨a, List.mem_cons_self a _, h3⟩
            · rw [List.mem_singleton] at h3
              exact Or.inl h3
          · rcases ih h2 with h3 | ⟨l, hl, hcl⟩
            · exact Or.inl h3
            · exact Or.inr ⟨l, List.mem_cons_of_mem _ hl, hcl⟩

theorem urlencodeQS_class (ps : List (List Char × List (List Char))) :
    ∀ c ∈ urlencodeQS ps,
      isAlwaysSafe c = true ∨ c = '%' ∨ c = '+' ∨ c = '=' ∨ c = '&' := by
  intro c hc
  unfold urlencodeQS at hc
  rcases mem_intercalate_sep '&' _ c hc with h | ⟨l, hl, hcl⟩
  · exact Or.inr (Or.inr (Or.inr (Or.inr h)))
  · rw [urlencodeDoseq_eq_map, List.mem_map] at hl
    obtain ⟨kv, _, he⟩ := hl
    rw [← he] at hcl
    unfold qsSegment at hcl
    rcases List.mem_append.1 hcl with h2 | h2
    · rcases quotePlus_class _ c h2 with h3 | h3 | h3
      · exact Or.inl h3
      · exact Or.inr (Or.inl h3)
      · exact Or.inr (Or.inr (Or.inl h3))
    · rcases List.mem_cons.1 h2 with h3 | h3
      · exact Or.inr (Or.inr (Or.inr (Or.inl h3)))
      · rcases quotePlus_class _ c h3 with h4 | h4 | h4
        · exact Or.inl h4
        · exact Or.inr (Or.inl h4)
        · exact Or.inr (Or.inr (Or.inl h4))

theorem encodeCleanQuery_chars (raw : List Char) :
    ∀ c ∈ encodeCleanQuery raw, notUnsafe c ∧ c ≠ '#' := by
  intro c hc
  unfold encodeCleanQuery at hc
  have hclass := urlencodeQS_class _ c hc
  have h37 : ('%').toNat = 37 := rfl
  have h43 : ('+').toNat = 43 := rfl
  have h61 : ('=').toNat = 61 := rfl
  have h38 : ('&').toNat = 38 := rfl
  have h35 : ('#').toNat = 35 := rfl
  have htn : c.toNat ≠ 9 ∧ c.toNat ≠ 13 ∧ c.toNat ≠ 10 ∧ c.toNat ≠ 35 := by
    rcases hclass with h | h | h | h | h
    · have := isAlwaysSafe_toNat c h
      omega
    all_goals (rw [char_eq_toNat] at h; omega)
  refine ⟨?_, ?_⟩
  · rw [notUnsafe_iff]
    exact ⟨htn.1, htn.2.1, htn.2.2.1⟩
  · exact char_ne_of_toNat_ne c '#' (by omega)

theorem stripDefaultPort_mem (sc nl : List Char) (c : Char)
    (h : c ∈ stripDefaultPort sc nl) : c ∈ nl := by
  unfold stripDefaultPort at h
  split at h
  · cases hsl : splitAtLast ':' nl with
    | none => rw [hsl] at h; exact h
    | some pr =>
        rw [hsl] at h
        cases pr with
        | mk host portStr =>
            dsimp only at h
            obtain ⟨hnl, _⟩ := splitAtLast_eq ':' nl host portStr hsl
            cases hpi : pyInt? portStr with
            | none => rw [hpi] at h; exact h
            | some port =>
                rw [hpi] at h
                dsimp only at h
                split at h
                · rw [hnl]
                  exact List.mem_append_left _ h
                · exact h
  · exact h



theorem urlsplitStages_scheme_eq (x : List Char) :
    (urlsplitStages x).scheme = (schemeSplit (removeTabCrLf x)).1 := by
  unfold urlsplitStages
  dsimp only

/-- C4 (amended): `normalize_url` is idempotent on every URL whose
normalized form `v` is stable for re-parsing: `v` carries no
leading/trailing whitespace (`pyStripList` fixes it) and the re-parse of
`v` satisfies `reparseStable` (netloc already lower-case, default-port
strip a no-op, no `//` marker swallowed into an empty netloc, params
re-split lossless).  Without these conditions idempotence fails, e.g. on
`"http://a:80:80/"`. -/
theorem normalize_url_idempotent_of_stable (extraReject : List Char → Bool)
    (u : String)
    (hstrip : pyStripList (normalize_url extraReject u).data =
      (normalize_url extraReject u).data)
    (hstable : reparseStable extraReject
      (normalize_url extraReject u).data = true) :
    normalize_url extraReject (normalize_url extraReject u) =
      normalize_url extraReject u := by
  cases hpe : urlparseE extraReject (pyStripList u.data) with
  | error e =>
      have hvu : normalize_url extraReject u = u := by
        unfold normalize_url normalize_urlL
        rw [hpe]
      rw [hvu]
      exact hvu
  | ok p =>
      have hpeq : p = urlparseStages (urlsplitStages (pyStripList u.data)) :=
        urlparseE_ok extraReject _ p hpe
      have hstagef := urlsplitStages_facts (pyStripList u.data)
      have hv : normalize_url extraReject u =
          ⟨urlunsplit
            (if pyLowerList p.scheme = [] then "https".data
              else pyLowerList p.scheme)
            (stripDefaultPort
              (if pyLowerList p.scheme = [] then "https".data
                else pyLowerList p.scheme) (pyLowerList p.netloc))
            (if p.params ≠ [] then p.path ++ ';' :: p.params else p.path)
            (if p.query ≠ [] then encodeCleanQuery p.query else []) []⟩ := by
        unfold normalize_url normalize_urlL urlunparse
        rw [hpe]
      have hS : goodScheme (if pyLowerList p.scheme = [] then "https".data
          else pyLowerList p.scheme) = true := by
        rcases schemeSplit_fst_cases (removeTabCrLf (pyStripList u.data)) with
          h | h
        · have hps : p.scheme = [] := by
            rw [hpeq, urlparseStages_scheme, urlsplitStages_scheme_eq]
            exact h
          rw [hps]
          rw [show (pyLowerList [] : List Char) = [] from rfl, if_pos rfl]
          exact goodScheme_https
        · have hps : goodScheme p.scheme = true := by
            rw [hpeq, urlparseStages_scheme, urlsplitStages_scheme_eq]
            exact h
          rw [goodScheme_lower _ hps,
            if_neg (goodScheme_ne_nil _ hps)]
          exact hps
      have hnetf : ∀ c ∈ p.netloc, isNetlocDelim c = false ∧ notUnsafe c := by
        intro c hc
        rw [hpeq, urlparseStages_netloc] at hc
        exact hstagef.1 c hc
      have hN : ∀ c ∈ stripDefaultPort
          (if pyLowerList p.scheme = [] then "https".data
            else pyLowerList p.scheme) (pyLowerList p.netloc),
          isNetlocDelim c = false ∧ notUnsafe c := by
        intro c hc
        have hc2 := stripDefaultPort_mem _ _ c hc
        unfold pyLowerList at hc2
        rw [List.mem_map] at hc2
        obtain ⟨c0, hc0, he⟩ := hc2
        obtain ⟨h1, h2⟩ := hnetf c0 hc0
        rw [← he]
        exact ⟨pyLowerChar_not_delim c0 h1, pyLowerChar_notUnsafe c0 h2⟩
      have hpathf := urlparseStages_facts (urlsplitStages (pyStripList u.data))
        hstagef.2.1
      have hB : ∀ c ∈ (if p.params ≠ [] then p.path ++ ';' :: p.params
          else p.path), notUnsafe c ∧ c ≠ '#' ∧ c ≠ '?' := by
        intro c hc
        split at hc
        · rcases List.mem_append.1 hc with h | h
          · rw [hpeq] at h
            exact hpathf.1 c h
          · rcases List.mem_cons.1 h with h | h
            · rw [h]
              refine ⟨by rw [notUnsafe_iff]; decide, by decide, by decide⟩
            · rw [hpeq] at h
              exact hpathf.2 c h
        · rw [hpeq] at hc
          exact hpathf.1 c hc
      have hQ : ∀ c ∈ (if p.query ≠ [] then encodeCleanQuery p.query else []),
          notUnsafe c ∧ c ≠ '#' := by
        intro c hc
        split at hc
        · exact encodeCleanQuery_chars p.query c hc
        · cases hc
      have hQstable : (if p.query ≠ [] then encodeCleanQuery p.query
          else []) ≠ [] → encodeCleanQuery
            (if p.query ≠ [] then encodeCleanQuery p.query else []) =
            (if p.query ≠ [] then encodeCleanQuery p.query else []) := by
        intro _
        split
        · exact encodeCleanQuery_idem p.query
        · unfold encodeCleanQuery
          rw [show parse_qsL [] = [] from rfl, List.filter_nil,
            List.mergeSort_nil]
          rfl
      rw [hv] at hstrip hstable ⊢
      have hmain := normalize_unsplit_stable extraReject _ _ _ _
        hS (fun c hc => (hN c hc).1) (fun c hc => (hN c hc).2) hB hQ hQstable
        hstrip hstable
      show (⟨normalize_urlL extraReject _⟩ : String) = _
      rw [hmain]



theorem normalize_url_idempotent_of_stable_witness :
    pyStripList
        (normalize_url noReject "HTTP://ExAmple.COM:080/Path;P#frag").data =
      (normalize_url noReject "HTTP://ExAmple.COM:080/Path;P#frag").data ∧
    reparseStable noReject
      (normalize_url noReject "HTTP://ExAmple.COM:080/Path;P#frag").data =
        true ∧
    normalize_url noReject
        (normalize_url noReject "HTTP://ExAmple.COM:080/Path;P#frag") =
      normalize_url noReject "HTTP://ExAmple.COM:080/Path;P#frag" :=
  ⟨by decide, by decide,
    normalize_url_idempotent_of_stable noReject
      "HTTP://ExAmple.COM:080/Path;P#frag" (by decide) (by decide)⟩

end LLMParser
